import Mathlib

/-!
# Despeckle median filter (`src/common/despeckle.c`)

A shallow embedding of `despeckle()`: the circular row buffer, the window
collection loops, the shell sort, the median assignment, the recursive
write-back and the adaptive radius rule.

Conventions of the embedding.

* Every C `gint` is an `Int`; C `%` on `gint` is `Int.tmod` (truncating).
  The values stay far inside 32 bits for the sizes a drawable can have, so no
  wrap-around is modelled.  A `guchar` is a `Nat`; the one store that
  narrows an `int` to a `guchar` is written `% 256`.
* Memory is explicit: `src_rows` is a function from (slot, byte offset) to a
  sample, `dst_row` a function from byte offset to a sample, the shadow
  (destination) region a function from (row, byte offset) to a sample.
  Every read or write of `src_rows` checks slot and offset against the
  allocation; a failed check, or a loop that did not exit within its fuel,
  gives `none`.
* The sort scratch array is the list of its first `sort_ptr - sort` entries.
* Byte offsets `x` are relative to the left edge of the selection.
* A C `double` is the rational it denotes.  The one floating-point operation of
  the filter, the division `(double) a / (double) b` of two `gint`, is the exact
  quotient rounded once to 53 significant bits, ties to even (`doubleDiv`).
-/

namespace Despeckle

/-- The source constant `FILTER_ADAPTIVE`. -/
def FILTER_ADAPTIVE : Int := 1

/-- The source constant `FILTER_RECURSIVE`. -/
def FILTER_RECURSIVE : Int := 2

/-- The source constant `MAX_RADIUS`. -/
def MAX_RADIUS : Int := 20

/-- The globals `despeckle()` reads, with the host tile height. -/
structure Env where
  sel_y1 : Int
  sel_y2 : Int
  sel_width : Int
  img_bpp : Int
  tile_height : Int
  despeckle_radius : Int
  filter_type : Int
  black_level : Int
  white_level : Int

/-- The global `sel_height = sel_y2 - sel_y1` set by `run()`. -/
def Env.sel_height (e : Env) : Int := e.sel_y2 - e.sel_y1

/-- The local `width = sel_width * img_bpp`. -/
def Env.width (e : Env) : Int := e.sel_width * e.img_bpp

/-- The local `max_row = 2 * gimp_tile_height ()`. -/
def Env.max_row (e : Env) : Int := 2 * e.tile_height

/-- The local `size = despeckle_radius * 2 + 1`. -/
def Env.size (e : Env) : Int := e.despeckle_radius * 2 + 1

/-- The test `filter_type & FILTER_ADAPTIVE`. -/
def Env.adaptive (e : Env) : Bool := Int.land e.filter_type FILTER_ADAPTIVE != 0

/-- The test `filter_type & FILTER_RECURSIVE`. -/
def Env.recursive (e : Env) : Bool := Int.land e.filter_type FILTER_RECURSIVE != 0

/-- The sort pointer and the two histogram counters of one sample. -/
structure Acc where
  sort : List Nat
  hist0 : Int
  hist255 : Int

/-- Body of the innermost collection loop for the sample value `v`. -/
def collectPixel (e : Env) (v : Nat) (a : Acc) : Acc :=
  let a1 : Acc :=
    if (v : Int) ≤ e.black_level then { a with hist0 := a.hist0 + 1 }
    else if (v : Int) ≥ e.white_level then { a with hist255 := a.hist255 + 1 }
    else a
  if (v : Int) < e.white_level then { a1 with sort := a1.sort ++ [v] } else a1

/-- A checked read of `src_rows[slot][tx]`. -/
def readBuf (e : Env) (buf : Int → Int → Nat) (slot tx : Int) : Option Nat :=
  if 0 ≤ slot ∧ slot < e.max_row ∧ 0 ≤ tx ∧ tx < e.width then some (buf slot tx) else none

/-- The loop `for (tx = xmin; tx < xmax; tx += img_bpp)` over one buffer row. -/
def colLoop (e : Env) (buf : Int → Int → Nat) (trow xmax : Int) : Nat → Int → Acc → Option Acc
  | 0, _, _ => none
  | fuel + 1, tx, a =>
    if tx < xmax then
      (readBuf e buf trow tx).bind fun v =>
        colLoop e buf trow xmax fuel (tx + e.img_bpp) (collectPixel e v a)
    else some a

/-- The loop `for (trow = startrow; trow != endrow; trow = (trow + 1) % max_row)`. -/
def rowLoop (e : Env) (buf : Int → Int → Nat) (xmin xmax endrow : Int) :
    Nat → Int → Acc → Option Acc
  | 0, _, _ => none
  | fuel + 1, trow, a =>
    if trow ≠ endrow then
      (colLoop e buf trow xmax ((xmax - xmin).toNat + 1) xmin a).bind fun a1 =>
        rowLoop e buf xmin xmax endrow fuel (Int.tmod (trow + 1) e.max_row) a1
    else some a

/-- The loop `for (j = i - d; j >= 0 && sort[j] > sort[j + d]; j -= d)` with its swap. -/
def jLoop (d : Nat) : Nat → Int → List Nat → Option (List Nat)
  | 0, _, _ => none
  | fuel + 1, j, s =>
    if 0 ≤ j then
      match s[j.toNat]?, s[(j + d).toNat]? with
      | some a, some b =>
        if a > b then jLoop d fuel (j - d) ((s.set j.toNat b).set (j + d).toNat a)
        else some s
      | _, _ => none
    else some s

/-- The loop `for (i = d; i < sort_count; i ++)`; `k` counts the iterations left. -/
def iLoop (d : Nat) : Nat → Nat → List Nat → Option (List Nat)
  | 0, _, s => some s
  | k + 1, i, s => (jLoop d (i + 1) ((i : Int) - d) s).bind fun s1 => iLoop d k (i + 1) s1

/-- The loop `for (d = sort_count / 2; d > 0; d = d / 2)`. -/
def dLoop : Nat → Nat → List Nat → Option (List Nat)
  | 0, _, _ => none
  | fuel + 1, d, s =>
    if d > 0 then (iLoop d (s.length - d) d s).bind fun s1 => dLoop fuel (d / 2) s1
    else some s

/-- The shell sort of the first `sort_count` entries of the scratch array. -/
def shellSort (s : List Nat) : Option (List Nat) := dLoop (s.length + 1) (s.length / 2) s

/-- The median assignment: the value stored into `dst_row[x]`. -/
def medianValue (s : List Nat) : Option Nat :=
  let t := s.length / 2
  if s.length % 2 = 1 then
    match s[t]?, s[t + 1]? with
    | some a, some b => some ((a + b) / 2 % 256)
    | _, _ => none
  else s[t]?

/-- The adaptive radius adjustment made after each sample. -/
def adaptRadius (e : Env) (hist0 hist255 radius : Int) : Int :=
  if e.adaptive then
    if hist0 ≥ radius ∨ hist255 ≥ radius then
      (if radius < e.despeckle_radius then radius + 1 else radius)
    else if radius > 1 then radius - 1
    else radius
  else radius

/-- What the loop over `x` carries: the row buffer, the destination row, the radius. -/
structure RowSt where
  src_rows : Int → Int → Nat
  dst_row : Int → Nat
  radius : Int

/-- The slot `(row + y - lasty + max_row) % max_row` of the current row. -/
def curSlot (e : Env) (row y lasty : Int) : Int :=
  Int.tmod (row + y - lasty + e.max_row) e.max_row

/-- The window collection of one sample: both loops, from an empty scratch array. -/
def collect (e : Env) (row y lasty x : Int) (s : RowSt) : Option Acc :=
  let xmin0 := x - s.radius * e.img_bpp
  let xmax0 := x + (s.radius + 1) * e.img_bpp
  let xmin := if xmin0 < 0 then Int.tmod x e.img_bpp else xmin0
  let xmax := if xmax0 > e.width then e.width else xmax0
  let startrow := Int.tmod (row + y - lasty - s.radius + e.max_row) e.max_row
  let endrow := Int.tmod (row + y - lasty + s.radius + 1 + e.max_row) e.max_row
  rowLoop e s.src_rows xmin xmax endrow (e.max_row.toNat + 1) startrow ⟨[], 0, 0⟩

/-- The sort, median store and recursive write-back, run when `sort_count > 1`. -/
def storeMedian (e : Env) (row y lasty x : Int) (s : RowSt) (a : Acc) : Option RowSt :=
  if a.sort.length > 1 then
    (shellSort a.sort).bind fun sorted =>
      (medianValue sorted).bind fun v =>
        let dst := fun i => if i = x then v else s.dst_row i
        if e.recursive then
          let c := curSlot e row y lasty
          if 0 ≤ c ∧ c < e.max_row then
            some { s with dst_row := dst,
                          src_rows := fun k i => if k = c ∧ i = x then v else s.src_rows k i }
          else none
        else some { s with dst_row := dst }
  else some s

/-- Body of the loop over `x`. -/
def sampleStep (e : Env) (row y lasty x : Int) (s : RowSt) : Option RowSt :=
  (collect e row y lasty x s).bind fun a =>
    (storeMedian e row y lasty x s a).bind fun s1 =>
      some { s1 with radius := adaptRadius e a.hist0 a.hist255 s.radius }

/-- The loop `for (x = 0; x < width; x ++)`; `k` counts the iterations left. -/
def xLoop (e : Env) (row y lasty : Int) : Nat → Int → RowSt → Option RowSt
  | 0, _, s => some s
  | k + 1, x, s => (sampleStep e row y lasty x s).bind fun s1 => xLoop e row y lasty k (x + 1) s1

/-- Rounding of a rational to the nearest integer, a tie going to the even neighbour. -/
def roundHalfEven (x : ℚ) : Int :=
  if x - ⌊x⌋ < 1 / 2 then ⌊x⌋
  else if 1 / 2 < x - ⌊x⌋ then ⌊x⌋ + 1
  else if ⌊x⌋ % 2 = 0 then ⌊x⌋ else ⌊x⌋ + 1

/-- The `double` nearest to a positive rational `q`: with `2 ^ k <= q < 2 ^ (k + 1)` the
significand `q / 2 ^ k` is rounded to 52 fractional bits, ties to even.  The exponent
range of the format is not modelled: a quotient of two `gint` is far inside it. -/
def nearestDouble (q : ℚ) : ℚ :=
  (roundHalfEven (q * (2 : ℚ) ^ (52 - Int.log 2 q)) : ℚ) * (2 : ℚ) ^ (Int.log 2 q - 52)

/-- The `double` nearest to a rational. -/
def toDouble (q : ℚ) : ℚ :=
  if 0 < q then nearestDouble q else if q < 0 then - nearestDouble (-q) else 0

/-- The C expression `(double) a / (double) b` for two `gint`: both conversions are exact
and the quotient is rounded once.  The filter divides only by a positive `sel_height`. -/
def doubleDiv (a b : Int) : ℚ := toDouble ((a : ℚ) / (b : ℚ))

/-- The state of `despeckle()` between two rows; `progress` lists the values passed to
`gimp_progress_update`. -/
structure DState where
  src_rows : Int → Int → Nat
  dst_row : Int → Nat
  shadow : Int → Int → Nat
  progress : List ℚ
  row : Int
  rowcount : Int
  lasty : Int

/-- The call `gimp_pixel_rgn_get_rect` of `i` rows from image row `y0` into slot `row`. -/
def getRect (e : Env) (img : Int → Int → Nat) (buf : Int → Int → Nat) (row y0 i : Int) :
    Option (Int → Int → Nat) :=
  if 0 ≤ row ∧ row + i ≤ e.max_row then
    some fun k x =>
      if row ≤ k ∧ k < row + i ∧ 0 ≤ x ∧ x < e.width then img (y0 + (k - row)) x else buf k x
  else none

/-- The block load at the top of the loop over `y`. -/
def loadBlock (e : Env) (img : Int → Int → Nat) (y : Int) (st : DState) : Option DState :=
  if y + e.despeckle_radius ≥ st.lasty ∧ st.lasty < e.sel_y2 then
    let i0 := e.sel_y2 - st.lasty
    let i := if i0 > e.tile_height then e.tile_height else i0
    (getRect e img st.src_rows st.row st.lasty i).bind fun buf =>
      some { st with src_rows := buf,
                     rowcount := st.rowcount - e.tile_height + i,
                     lasty := st.lasty + i,
                     row := Int.tmod (st.row + i) e.max_row }
  else some st

/-- The start of a row: `radius = despeckle_radius` and the `memcpy` of the current row
of the buffer into `dst_row`. -/
def rowInit (e : Env) (y : Int) (st1 : DState) : Option RowSt :=
  let c := curSlot e st1.row y st1.lasty
  if 0 ≤ c ∧ c < e.max_row then
    some ⟨st1.src_rows,
      fun x => if 0 ≤ x ∧ x < e.width then st1.src_rows c x else st1.dst_row x,
      e.despeckle_radius⟩
  else none

/-- Body of the loop over `y`. -/
def rowStep (e : Env) (img : Int → Int → Nat) (y : Int) (st : DState) : Option DState :=
  (loadBlock e img y st).bind fun st1 =>
    (rowInit e y st1).bind fun r0 =>
      let filtered :=
        if y ≥ e.sel_y1 + r0.radius ∧ y < e.sel_y2 - r0.radius then
          xLoop e st1.row y st1.lasty e.width.toNat 0 r0
        else some r0
      filtered.bind fun r =>
        some { st1 with
          src_rows := r.src_rows,
          dst_row := r.dst_row,
          shadow := fun yy x =>
            if yy = y ∧ 0 ≤ x ∧ x < e.width then r.dst_row x else st1.shadow yy x,
          progress :=
            if y % 16 = 0 then st1.progress ++ [doubleDiv (y - e.sel_y1) e.sel_height]
            else st1.progress }

/-- The loop `for (y = sel_y1; y < sel_y2; y ++)`; `k` counts the iterations left. -/
def yLoop (e : Env) (img : Int → Int → Nat) : Nat → Int → DState → Option DState
  | 0, _, st => some st
  | k + 1, y, st => (rowStep e img y st).bind fun st1 => yLoop e img k (y + 1) st1

/-- The memory `despeckle()` allocates, with whatever it holds before the first write. -/
structure Mem where
  src_rows : Int → Int → Nat
  dst_row : Int → Nat
  shadow : Int → Int → Nat

/-- The set-up of `despeckle()` before its loop over `y`: the first block of rows is
loaded into slot 0. -/
def initState (e : Env) (img : Int → Int → Nat) (m : Mem) : Option DState :=
  let rowcount := if e.sel_height < e.tile_height then e.sel_height else e.tile_height
  (getRect e img m.src_rows 0 e.sel_y1 rowcount).bind fun buf =>
    some { src_rows := buf, dst_row := m.dst_row, shadow := m.shadow, progress := [],
           row := rowcount, rowcount := rowcount, lasty := e.sel_y1 + rowcount }

/-- The function `despeckle()` on the source region `img`; the result is its final state,
whose `shadow` holds the rows written with `gimp_pixel_rgn_set_row`. -/
def despeckle (e : Env) (img : Int → Int → Nat) (m : Mem) : Option DState :=
  (initState e img m).bind fun st => yLoop e img e.sel_height.toNat e.sel_y1 st

/-- The state of `despeckle()` at the head of its loop over `y` when the scan reaches
row `y`: the run of the loop over the rows before `y`. -/
def stateAtRow (e : Env) (img : Int → Int → Nat) (m : Mem) (y : Int) : Option DState :=
  (initState e img m).bind fun st => yLoop e img (y - e.sel_y1).toNat e.sel_y1 st

/-- The state of `despeckle()` when the loop over `x` of row `y` reaches byte offset `x`:
the state after the block load of row `y`, and the loop-`x` state before sample `x`. -/
def stateAtSample (e : Env) (img : Int → Int → Nat) (m : Mem) (y x : Int) :
    Option (DState × RowSt) :=
  (stateAtRow e img m y).bind fun st =>
    (loadBlock e img y st).bind fun st1 =>
      (rowInit e y st1).bind fun r0 =>
        (xLoop e st1.row y st1.lasty x.toNat 0 r0).bind fun s => some (st1, s)

/-! ## Reference semantics: the whole image resident

The same filter with the circular row buffer replaced by the image itself:
`cur ty tx` is the current sample of image row `ty` (the source sample, or the
value written back by the recursive mode).  It is total; the theorems below
show that `despeckle` returns and agrees with it. -/

/-- The entry `s[p]` of the scratch array, `0` past its end. -/
def entry (s : List Nat) (p : Nat) : Nat := s[p]?.getD 0

/-- The collected values in ascending order. -/
def sortedOf (s : List Nat) : List Nat := s.insertionSort (fun a b => a ≤ b)

/-- The value the median assignment stores, for a scratch array of more than one entry. -/
def medianOf (s : List Nat) : Nat :=
  if s.length % 2 = 1 then (entry s (s.length / 2) + entry s (s.length / 2 + 1)) / 2 % 256
  else entry s (s.length / 2)

/-- The clamped lower column bound `xmin` of the window of byte offset `x`. -/
def winXmin (e : Env) (x r : Int) : Int :=
  if x - r * e.img_bpp < 0 then Int.tmod x e.img_bpp else x - r * e.img_bpp

/-- The clamped upper column bound `xmax` of the window of byte offset `x`. -/
def winXmax (e : Env) (x r : Int) : Int :=
  if x + (r + 1) * e.img_bpp > e.width then e.width else x + (r + 1) * e.img_bpp

/-- The byte offsets `xmin, xmin + bpp, ...` below `xmax`, in loop order. -/
def colsFrom (bpp xmin xmax : Int) : List Int :=
  (List.range ((xmax - xmin + bpp - 1) / bpp).toNat).map fun (k : Nat) => xmin + (k : Int) * bpp

/-- The byte offsets of the window of byte offset `x` at radius `r`. -/
def windowCols (e : Env) (x r : Int) : List Int :=
  colsFrom e.img_bpp (winXmin e x r) (winXmax e x r)

/-- The image rows `y - r, ..., y + r` of the window, top to bottom. -/
def windowRows (y r : Int) : List Int :=
  (List.range (2 * r + 1).toNat).map fun (k : Nat) => y - r + (k : Int)

/-- The window samples in scan order: rows top to bottom, columns left to right. -/
def windowVals (e : Env) (cur : Int → Int → Nat) (y x r : Int) : List Nat :=
  (windowRows y r).flatMap fun ty => (windowCols e x r).map fun tx => cur ty tx

/-- The collection loop body folded over a list of samples. -/
def collectList (e : Env) (a : Acc) (vals : List Nat) : Acc :=
  vals.foldl (fun acc v => collectPixel e v acc) a

/-- Reference collection of one sample. -/
def refCollect (e : Env) (cur : Int → Int → Nat) (y x r : Int) : Acc :=
  collectList e ⟨[], 0, 0⟩ (windowVals e cur y x r)

/-- Reference median store and recursive write-back. -/
def refStore (e : Env) (y x : Int) (s : RowSt) (a : Acc) : RowSt :=
  if a.sort.length > 1 then
    let v := medianOf (sortedOf a.sort)
    let dst := fun i => if i = x then v else s.dst_row i
    if e.recursive then
      { s with dst_row := dst,
               src_rows := fun k i => if k = y ∧ i = x then v else s.src_rows k i }
    else { s with dst_row := dst }
  else s

/-- Reference body of the loop over `x`; `s.src_rows` is the current image. -/
def refSample (e : Env) (y x : Int) (s : RowSt) : RowSt :=
  let a := refCollect e s.src_rows y x s.radius
  { refStore e y x s a with radius := adaptRadius e a.hist0 a.hist255 s.radius }

/-- Reference loop over `x`. -/
def refXLoop (e : Env) (y : Int) : Nat → Int → RowSt → RowSt
  | 0, _, s => s
  | k + 1, x, s => refXLoop e y k (x + 1) (refSample e y x s)

/-- Reference state between two rows. -/
structure RState where
  cur : Int → Int → Nat
  dst_row : Int → Nat
  shadow : Int → Int → Nat
  progress : List ℚ

/-- The loop-`x` state a row starts from: the row copied, the radius reset. -/
def refRowInit (e : Env) (y : Int) (st : RState) : RowSt :=
  ⟨st.cur, fun x => if 0 ≤ x ∧ x < e.width then st.cur y x else st.dst_row x,
    e.despeckle_radius⟩

/-- The test that row `y` is filtered. -/
def interiorRow (e : Env) (y : Int) : Prop :=
  y ≥ e.sel_y1 + e.despeckle_radius ∧ y < e.sel_y2 - e.despeckle_radius

instance interiorRowDecidable (e : Env) (y : Int) : Decidable (interiorRow e y) :=
  inferInstanceAs
    (Decidable (y ≥ e.sel_y1 + e.despeckle_radius ∧ y < e.sel_y2 - e.despeckle_radius))

/-- Reference body of the loop over `y`. -/
def refRowStep (e : Env) (y : Int) (st : RState) : RState :=
  let r0 := refRowInit e y st
  let r := if interiorRow e y then refXLoop e y e.width.toNat 0 r0 else r0
  { cur := r.src_rows,
    dst_row := r.dst_row,
    shadow := fun yy x => if yy = y ∧ 0 ≤ x ∧ x < e.width then r.dst_row x else st.shadow yy x,
    progress :=
      if y % 16 = 0 then st.progress ++ [doubleDiv (y - e.sel_y1) e.sel_height]
      else st.progress }

/-- Reference loop over `y`. -/
def refYLoop (e : Env) : Nat → Int → RState → RState
  | 0, _, st => st
  | k + 1, y, st => refYLoop e k (y + 1) (refRowStep e y st)

/-- Image row `ty` is resident: the ring slot the code computes for it is a valid index
and holds the current samples of that row. -/
def Resident (e : Env) (buf cur : Int → Int → Nat) (row lasty ty : Int) : Prop :=
  0 ≤ row + ty - lasty + e.max_row ∧
    ∀ tx, 0 ≤ tx → tx < e.width → buf (curSlot e row ty lasty) tx = cur ty tx

/-- The relation between the loop-`x` state of the code and of the reference semantics:
same destination row, same radius, and rows `lo..hi` resident. -/
def RowRel (e : Env) (row lasty lo hi : Int) (s s1 : RowSt) : Prop :=
  s.dst_row = s1.dst_row ∧ s.radius = s1.radius ∧
    ∀ ty, lo ≤ ty → ty ≤ hi → Resident e s.src_rows s1.src_rows row lasty ty

/-- The ring buffer holds the last `max_row` loaded rows of the current image, image row
`ty` at slot `(ty - sel_y1) % max_row`. -/
def Ring (e : Env) (buf cur : Int → Int → Nat) (lasty : Int) : Prop :=
  ∀ ty, e.sel_y1 ≤ ty → lasty - e.max_row ≤ ty → ty < lasty →
    ∀ tx, 0 ≤ tx → tx < e.width → buf ((ty - e.sel_y1) % e.max_row) tx = cur ty tx

/-- The bookkeeping of the block loads when the scan is about to start row `y`. -/
def Book (e : Env) (y : Int) (st : DState) : Prop :=
  e.sel_y1 ≤ y ∧ st.lasty ≤ e.sel_y2 ∧
    (st.lasty = e.sel_y2 ∨ y + e.despeckle_radius ≤ st.lasty) ∧
    st.lasty ≤ y + e.despeckle_radius + e.tile_height - 1 ∧
    st.row = (st.lasty - e.sel_y1) % e.max_row ∧
    (st.lasty = e.sel_y2 ∨ ∃ q, st.lasty - e.sel_y1 = e.tile_height * q)

/-- The invariant of the loop over `y` that ties the code to the reference semantics. -/
def Inv (e : Env) (img : Int → Int → Nat) (y : Int) (st : DState) (rs : RState) : Prop :=
  Book e y st ∧ st.dst_row = rs.dst_row ∧ st.shadow = rs.shadow ∧
    st.progress = rs.progress ∧ Ring e st.src_rows rs.cur st.lasty ∧
    ∀ ty, y ≤ ty → ∀ tx, rs.cur ty tx = img ty tx

/-- Reference filter pass. -/
def refDespeckle (e : Env) (img : Int → Int → Nat) (m : Mem) : RState :=
  refYLoop e e.sel_height.toNat e.sel_y1 ⟨img, m.dst_row, m.shadow, []⟩

/-- Reference state at the head of the loop over `y` for row `y`. -/
def refStateAtRow (e : Env) (img : Int → Int → Nat) (m : Mem) (y : Int) : RState :=
  refYLoop e (y - e.sel_y1).toNat e.sel_y1 ⟨img, m.dst_row, m.shadow, []⟩

/-- Reference loop-`x` state before sample `x` of row `y`. -/
def refStateAtSample (e : Env) (img : Int → Int → Nat) (m : Mem) (y x : Int) : RowSt :=
  refXLoop e y x.toNat 0 (refRowInit e y (refStateAtRow e img m y))

/-- The output sample at `(y, x)` when neither the recursive nor the adaptive mode is on:
the source sample in a border row, or when at most one sample is collected, else the
median assignment applied to the window of the source image. -/
def pointValue (e : Env) (img : Int → Int → Nat) (y x : Int) : Nat :=
  if interiorRow e y then
    if (refCollect e img y x e.despeckle_radius).sort.length > 1 then
      medianOf (sortedOf (refCollect e img y x e.despeckle_radius).sort)
    else img y x
  else img y x

/-- Every sample of the region equals the value of its channel plane. -/
def PlaneConst (e : Env) (cur : Int → Int → Nat) (plane : Int → Nat) : Prop :=
  ∀ ty tx, e.sel_y1 ≤ ty → ty < e.sel_y2 → 0 ≤ tx → tx < e.width →
    cur ty tx = plane (tx % e.img_bpp)

/-- Every sample is an 8-bit value, as a `guchar` is. -/
def ByteImage (cur : Int → Int → Nat) : Prop := ∀ ty tx, cur ty tx < 256

/-! ## Concrete inputs -/

/-- Allocated memory that holds zeros before the first write. -/
def zeroMem : Mem := ⟨fun _ _ => 0, fun _ => 0, fun _ _ => 0⟩

/-- The image of the end-to-end example: every sample 100 except `(3, 3) = 255`. -/
def exampleImg : Int → Int → Nat := fun y x => if y = 3 ∧ x = 3 then 255 else 100

/-- The parameters of the end-to-end example on a host with tile height `T`: a 7 x 7
one-channel selection, radius 1, plain median, black level 0, white level 255. -/
def exampleEnv (T : Int) : Env :=
  { sel_y1 := 0, sel_y2 := 7, sel_width := 7, img_bpp := 1, tile_height := T,
    despeckle_radius := 1, filter_type := 0, black_level := 0, white_level := 255 }

/-- A 3 x 3 one-channel image with rows `0 0 10`, `10 7 10`, `0 0 10`. -/
def smallImg : Int → Int → Nat := fun y x =>
  if y = 1 then (if x = 1 then 7 else 10) else (if x = 2 then 10 else 0)

/-- A 3 x 3 one-channel selection, radius 1, plain median, levels 0 and 255, tile
height 64. -/
def smallEnv : Env :=
  { sel_y1 := 0, sel_y2 := 3, sel_width := 3, img_bpp := 1, tile_height := 64,
    despeckle_radius := 1, filter_type := 0, black_level := 0, white_level := 255 }

/-- The selection of `smallEnv` with both levels set to 100. -/
def equalLevelsEnv : Env :=
  { sel_y1 := 0, sel_y2 := 3, sel_width := 3, img_bpp := 1, tile_height := 64,
    despeckle_radius := 1, filter_type := 0, black_level := 100, white_level := 100 }

/-- An image whose samples all equal 100. -/
def flatImg : Int → Int → Nat := fun _ _ => 100

/-- A 5 x 8 one-channel selection, radius 2, adaptive and recursive, levels 7 and 248,
tile height 64. -/
def adaptiveEnv : Env :=
  { sel_y1 := 0, sel_y2 := 5, sel_width := 8, img_bpp := 1, tile_height := 64,
    despeckle_radius := 2, filter_type := 3, black_level := 7, white_level := 248 }

/-- A loop-`x` state at radius 1 whose row buffer holds the flat image of 100s. -/
def flatRow : RowSt := ⟨flatImg, fun _ => 100, 1⟩

/-- The median rule in the words of the specification: for an even count the truncating
average of `sorted[n/2]` and `sorted[n/2 + 1]`, for an odd count `sorted[n/2]`. -/
def specMedianRule (sorted : List Nat) : Option Nat :=
  if sorted.length % 2 = 0 then
    match sorted[sorted.length / 2]?, sorted[sorted.length / 2 + 1]? with
    | some a, some b => some ((a + b) / 2)
    | _, _ => none
  else sorted[sorted.length / 2]?

/-! ## Further concrete inputs -/

/-- A one-channel image whose columns alternate `0 10 0 ...`: every row is `0 10 0`. -/
def stripeImg : Int → Int → Nat := fun _ x => if x % 2 = 1 then 10 else 0

/-- The column image of the spike test: the value `v` in every row except row `y0`,
which holds the outlier `s`. -/
def columnImg (v s : Nat) (y0 : Int) : Int → Int → Nat := fun y _ => if y = y0 then s else v

/-- The selection of the spike test: one channel, one sample wide, `2 * r + 3` rows tall,
radius `r`, plain median (adaptive and recursive off), tile height `T`. -/
def columnEnv (r T black white : Int) : Env :=
  { sel_y1 := 0, sel_y2 := 2 * r + 3, sel_width := 1, img_bpp := 1, tile_height := T,
    despeckle_radius := r, filter_type := 0, black_level := black, white_level := white }

/-- The even-count median in the words of the specification: the truncating average of
the two central values `sorted[n/2 - 1]` and `sorted[n/2]`. -/
def specEvenMedian (sorted : List Nat) : Option Nat :=
  match sorted[sorted.length / 2 - 1]?, sorted[sorted.length / 2]? with
  | some a, some b => some ((a + b) / 2)
  | _, _ => none

/-! ## The entry point `run()` -/

/-- The status values of the host library that `run()` returns. -/
inductive GStatusType where
  | STATUS_EXECUTION_ERROR
  | STATUS_CALLING_ERROR
  | STATUS_PASS_THROUGH
  | STATUS_SUCCESS
  deriving DecidableEq

/-- The run modes of the host library; `RUN_OTHER` is any value for which the `switch`
of `run()` has no case. -/
inductive GRunModeType where
  | RUN_INTERACTIVE
  | RUN_NONINTERACTIVE
  | RUN_WITH_LAST_VALS
  | RUN_OTHER
  deriving DecidableEq

/-- The array `despeckle_vals[4]`, by the names of its four entries. -/
structure DespeckleVals where
  despeckle_radius : Int
  filter_type : Int
  black_level : Int
  white_level : Int
  deriving DecidableEq

/-- The initial value of `despeckle_vals`. -/
def despeckle_vals : DespeckleVals := ⟨3, FILTER_ADAPTIVE, 7, 248⟩

/-- What `run()` reads of the drawable: the selection bounds, the bytes per pixel, the
tile height, the two type tests and the samples of the source region. -/
structure Drawable where
  sel_y1 : Int
  sel_y2 : Int
  sel_width : Int
  img_bpp : Int
  tile_height : Int
  is_rgb : Bool
  is_gray : Bool
  pixels : Int → Int → Nat

/-- The host calls whose results `run()` uses in the interactive and last-values modes:
`gimp_get_data` may overwrite `despeckle_vals`; `despeckle_dialog` may change it and
returns whether the user confirmed. -/
structure Host where
  gimp_get_data : DespeckleVals → DespeckleVals
  despeckle_dialog : DespeckleVals → DespeckleVals × Bool

/-- The globals `despeckle()` reads, after `run()` has set them. -/
def Drawable.env (d : Drawable) (v : DespeckleVals) : Env :=
  { sel_y1 := d.sel_y1, sel_y2 := d.sel_y2, sel_width := d.sel_width, img_bpp := d.img_bpp,
    tile_height := d.tile_height, despeckle_radius := v.despeckle_radius,
    filter_type := v.filter_type, black_level := v.black_level,
    white_level := v.white_level }

/-- What a call of `run()` leaves: the returned status, `despeckle_vals`, and the result
of the call of `despeckle()` when there was one. -/
structure RunResult where
  status : GStatusType
  vals : DespeckleVals
  pass : Option (Option DState)

/-- The `case RUN_NONINTERACTIVE` of `run()`: the status and `despeckle_vals` after it. -/
def nonInteractiveVals (nparams : Int) (param : Nat → Int) (vals : DespeckleVals) :
    GStatusType × DespeckleVals :=
  if nparams < 4 ∨ nparams > 7 then (GStatusType.STATUS_CALLING_ERROR, vals)
  else if nparams = 4 then (GStatusType.STATUS_SUCCESS, ⟨param 3, FILTER_ADAPTIVE, 7, 248⟩)
  else if nparams = 5 then (GStatusType.STATUS_SUCCESS, ⟨param 3, param 4, 7, 248⟩)
  else if nparams = 6 then (GStatusType.STATUS_SUCCESS, ⟨param 3, param 4, param 5, 248⟩)
  else (GStatusType.STATUS_SUCCESS, ⟨param 3, param 4, param 5, param 6⟩)

/-- The part of `run()` after its `switch`: `despeckle()` is called when the status is
still `STATUS_SUCCESS` and the drawable is RGB or gray. -/
def runFilter (d : Drawable) (m : Mem) (status : GStatusType) (vals : DespeckleVals) :
    RunResult :=
  if status = GStatusType.STATUS_SUCCESS then
    if d.is_rgb || d.is_gray then
      ⟨GStatusType.STATUS_SUCCESS, vals, some (despeckle (d.env vals) d.pixels m)⟩
    else ⟨GStatusType.STATUS_EXECUTION_ERROR, vals, none⟩
  else ⟨status, vals, none⟩

/-- The function `run()`; `param i` is the integer `param[i].data.d_int32`. -/
def run (h : Host) (run_mode : GRunModeType) (nparams : Int) (param : Nat → Int)
    (d : Drawable) (m : Mem) (vals : DespeckleVals) : RunResult :=
  match run_mode with
  | GRunModeType.RUN_INTERACTIVE =>
    if (h.despeckle_dialog (h.gimp_get_data vals)).2 then
      runFilter d m GStatusType.STATUS_SUCCESS (h.despeckle_dialog (h.gimp_get_data vals)).1
    else ⟨GStatusType.STATUS_SUCCESS, (h.despeckle_dialog (h.gimp_get_data vals)).1, none⟩
  | GRunModeType.RUN_NONINTERACTIVE =>
    runFilter d m (nonInteractiveVals nparams param vals).1
      (nonInteractiveVals nparams param vals).2
  | GRunModeType.RUN_WITH_LAST_VALS =>
    runFilter d m GStatusType.STATUS_SUCCESS (h.gimp_get_data vals)
  | GRunModeType.RUN_OTHER => runFilter d m GStatusType.STATUS_CALLING_ERROR vals

/-- The drawable of the 3 x 3 gray image `smallImg`, tile height 64. -/
def smallDrawable : Drawable :=
  { sel_y1 := 0, sel_y2 := 3, sel_width := 3, img_bpp := 1, tile_height := 64,
    is_rgb := false, is_gray := true, pixels := smallImg }

/-- A host without stored data whose dialog is confirmed unchanged. -/
def idleHost : Host := ⟨fun v => v, fun v => (v, true)⟩

/-- The parameter array `run_mode, image, drawable, radius, type, black, white`, the first
three entries being irrelevant here. -/
def paramsOf (radius type black white : Int) : Nat → Int := fun i =>
  if i = 3 then radius else if i = 4 then type else if i = 5 then black
  else if i = 6 then white else 0

/-! ## Progress reports -/

/-- The rows `y, y + 1, ..., y + k - 1` the loop over `y` visits in `k` iterations. -/
def rowsFrom (y : Int) (k : Nat) : List Int :=
  (List.range k).map fun (j : Nat) => y + (j : Int)

/-- The rows of the selection after which a fraction is reported: those with
`(y & 15) == 0`, in scan order. -/
def progressRows (e : Env) : List Int :=
  (rowsFrom e.sel_y1 e.sel_height.toNat).filter fun y => decide (y % 16 = 0)

/-- The fraction `(double) (y - sel_y1) / (double) sel_height` reported after row `y`. -/
def progressFraction (e : Env) (y : Int) : ℚ := doubleDiv (y - e.sel_y1) e.sel_height

/-- The fractions a pass reports, in order. -/
def progressList (e : Env) : List ℚ := (progressRows e).map (progressFraction e)

/-- The selection of `smallEnv` moved down by one row: rows 1 to 3. -/
def offsetEnv : Env :=
  { sel_y1 := 1, sel_y2 := 4, sel_width := 3, img_bpp := 1, tile_height := 64,
    despeckle_radius := 1, filter_type := 0, black_level := 0, white_level := 255 }

/-- A selection of 40 rows from row 5, three samples wide, radius 1, tile height 64. -/
def tallEnv : Env :=
  { sel_y1 := 5, sel_y2 := 45, sel_width := 3, img_bpp := 1, tile_height := 64,
    despeckle_radius := 1, filter_type := 0, black_level := 0, white_level := 255 }

/-! ## The positions the collection reads -/

/-- The loop `for (tx = xmin; tx < xmax; tx += img_bpp)` of the collection, recording the
buffer positions `(trow, tx)` it reads, in order. -/
def colLoopReads (e : Env) (trow xmax : Int) : Nat → Int → Option (List (Int × Int))
  | 0, _ => none
  | fuel + 1, tx =>
    if tx < xmax then
      if 0 ≤ trow ∧ trow < e.max_row ∧ 0 ≤ tx ∧ tx < e.width then
        (colLoopReads e trow xmax fuel (tx + e.img_bpp)).map fun l => (trow, tx) :: l
      else none
    else some []

/-- The loop `for (trow = startrow; trow != endrow; trow = (trow + 1) % max_row)` of the
collection, recording the buffer positions it reads. -/
def rowLoopReads (e : Env) (xmin xmax endrow : Int) : Nat → Int → Option (List (Int × Int))
  | 0, _ => none
  | fuel + 1, trow =>
    if trow ≠ endrow then
      (colLoopReads e trow xmax ((xmax - xmin).toNat + 1) xmin).bind fun l1 =>
        (rowLoopReads e xmin xmax endrow fuel (Int.tmod (trow + 1) e.max_row)).map fun l =>
          l1 ++ l
    else some []

/-- The buffer positions `(slot, byte offset)` the window collection of one sample reads,
with the bounds of `collect`. -/
def collectReads (e : Env) (row y lasty x radius : Int) : Option (List (Int × Int)) :=
  let xmin0 := x - radius * e.img_bpp
  let xmax0 := x + (radius + 1) * e.img_bpp
  let xmin := if xmin0 < 0 then Int.tmod x e.img_bpp else xmin0
  let xmax := if xmax0 > e.width then e.width else xmax0
  let startrow := Int.tmod (row + y - lasty - radius + e.max_row) e.max_row
  let endrow := Int.tmod (row + y - lasty + radius + 1 + e.max_row) e.max_row
  rowLoopReads e xmin xmax endrow (e.max_row.toNat + 1) startrow

/-- A 3 x 2 selection of three-channel pixels (byte width 6), radius 1, tile height 64. -/
def rgbEnv : Env :=
  { sel_y1 := 0, sel_y2 := 3, sel_width := 2, img_bpp := 3, tile_height := 64,
    despeckle_radius := 1, filter_type := 0, black_level := 0, white_level := 255 }

/-- The selection of `smallEnv` with the recursive flag set (`filter_type = 2`). -/
def recursiveEnv : Env :=
  { sel_y1 := 0, sel_y2 := 3, sel_width := 3, img_bpp := 1, tile_height := 64,
    despeckle_radius := 1, filter_type := 2, black_level := 0, white_level := 255 }

/-! ## Small tile heights and clipped images -/

/-- The selection of `smallEnv` on a host with tile height 1. -/
def tinyTileEnv : Env :=
  { sel_y1 := 0, sel_y2 := 3, sel_width := 3, img_bpp := 1, tile_height := 1,
    despeckle_radius := 1, filter_type := 0, black_level := 0, white_level := 255 }

/-- Every sample of the selection is at or above the white level. -/
def FullyClipped (e : Env) (cur : Int → Int → Nat) : Prop :=
  ∀ ty tx, e.sel_y1 ≤ ty → ty < e.sel_y2 → 0 ≤ tx → tx < e.width →
    e.white_level ≤ (cur ty tx : Int)

/-- The selection of `smallEnv` with white level 0: every sample is clipped. -/
def whiteZeroEnv : Env :=
  { sel_y1 := 0, sel_y2 := 3, sel_width := 3, img_bpp := 1, tile_height := 64,
    despeckle_radius := 1, filter_type := 3, black_level := 0, white_level := 0 }

/-- The bookkeeping of the block loads that needs no assumption on the radius: at the
head of row `y` the rows loaded so far are `sel_y1 .. lasty - 1`, and while rows remain to
be loaded the next load goes to slot 0 or slot `tile_height`. -/
def LoadOk (e : Env) (y : Int) (st : DState) : Prop :=
  e.sel_y1 < st.lasty ∧ st.lasty ≤ e.sel_y2 ∧
    (st.lasty = e.sel_y2 ∨ st.row = 0 ∨ st.row = e.tile_height) ∧
    (0 ≤ e.despeckle_radius → y ≤ st.lasty)

/-! ## The preview: `preview_update()`

The preview filters a rectangle of at most `PREVIEW_SIZE` rows and columns that it has
read as a whole into the flat array `preview_src`.  The model is the first preview of the
dialog, before any scrolling: the rectangle starts at the top left of the selection. -/

/-- The constant `PREVIEW_SIZE`. -/
def PREVIEW_SIZE : Int := 128

/-- The global `preview_width = MIN (sel_width, PREVIEW_SIZE)`. -/
def Env.preview_width (e : Env) : Int := min e.sel_width PREVIEW_SIZE

/-- The global `preview_height = MIN (sel_height, PREVIEW_SIZE)`. -/
def Env.preview_height (e : Env) : Int := min e.sel_height PREVIEW_SIZE

/-- The global `preview_y1`, set to `sel_y1` by the dialog. -/
def Env.preview_y1 (e : Env) : Int := e.sel_y1

/-- The local `width = preview_width * img_bpp` of `preview_update()`. -/
def Env.preview_bytes (e : Env) : Int := e.preview_width * e.img_bpp

/-- What the loop over `x` of the preview carries: the flat source array, the destination
row, the radius. -/
structure PRowSt where
  preview_src : Int → Nat
  preview_dst : Int → Nat
  radius : Int

/-- A checked read of `preview_src[i]`. -/
def previewRead (e : Env) (src : Int → Nat) (i : Int) : Option Nat :=
  if 0 ≤ i ∧ i < e.preview_bytes * e.preview_height then some (src i) else none

/-- The loop `for (tx = xmin; tx < xmax; tx += img_bpp)` of the preview; `base` is the
offset of `src_ptr` in `preview_src`. -/
def previewColLoop (e : Env) (src : Int → Nat) (base xmax : Int) :
    Nat → Int → Acc → Option Acc
  | 0, _, _ => none
  | fuel + 1, tx, a =>
    if tx < xmax then
      (previewRead e src (base + tx)).bind fun v =>
        previewColLoop e src base xmax fuel (tx + e.img_bpp) (collectPixel e v a)
    else some a

/-- The loop `for (i = -radius, src_ptr = ...; i <= radius; i ++, src_ptr += width)` of
the preview; `k` counts the iterations left. -/
def previewRowLoop (e : Env) (src : Int → Nat) (xmin xmax : Int) :
    Nat → Int → Acc → Option Acc
  | 0, _, a => some a
  | k + 1, base, a =>
    (previewColLoop e src base xmax ((xmax - xmin).toNat + 1) xmin a).bind fun a1 =>
      previewRowLoop e src xmin xmax k (base + e.preview_bytes) a1

/-- The window collection of one preview sample, from an empty scratch array. -/
def previewCollect (e : Env) (y x : Int) (s : PRowSt) : Option Acc :=
  let xmin0 := x - s.radius * e.img_bpp
  let xmax0 := x + (s.radius + 1) * e.img_bpp
  let xmin := if xmin0 < 0 then Int.tmod x e.img_bpp else xmin0
  let xmax := if xmax0 > e.preview_bytes then e.preview_bytes else xmax0
  previewRowLoop e s.preview_src xmin xmax (2 * s.radius + 1).toNat
    (e.preview_bytes * (y - s.radius)) ⟨[], 0, 0⟩

/-- The sort, median store and recursive write-back of the preview. -/
def previewStore (e : Env) (y x : Int) (s : PRowSt) (a : Acc) : Option PRowSt :=
  if a.sort.length > 1 then
    (shellSort a.sort).bind fun sorted =>
      (medianValue sorted).bind fun v =>
        let dst := fun i => if i = x then v else s.preview_dst i
        if e.recursive then
          let c := y * e.preview_bytes + x
          if 0 ≤ c ∧ c < e.preview_bytes * e.preview_height then
            some { s with preview_dst := dst,
                          preview_src := fun i => if i = c then v else s.preview_src i }
          else none
        else some { s with preview_dst := dst }
  else some s

/-- Body of the loop over `x` of the preview. -/
def previewSample (e : Env) (y x : Int) (s : PRowSt) : Option PRowSt :=
  (previewCollect e y x s).bind fun a =>
    (previewStore e y x s a).bind fun s1 =>
      some { s1 with radius := adaptRadius e a.hist0 a.hist255 s.radius }

/-- The loop `for (x = 0; x < width; x ++)` of the preview. -/
def previewXLoop (e : Env) (y : Int) : Nat → Int → PRowSt → Option PRowSt
  | 0, _, s => some s
  | k + 1, x, s => (previewSample e y x s).bind fun s1 => previewXLoop e y k (x + 1) s1

/-- The state of `preview_update()` between two rows; `rows y` is the filtered row
`preview_dst` of row `y` as it is handed to the conversion for display. -/
structure PState where
  preview_src : Int → Nat
  preview_dst : Int → Nat
  rows : Int → Int → Nat

/-- Body of the loop over `y` of the preview. -/
def previewRowStep (e : Env) (y : Int) (st : PState) : Option PState :=
  let r0 : PRowSt :=
    ⟨st.preview_src,
      fun x => if 0 ≤ x ∧ x < e.preview_bytes then st.preview_src (y * e.preview_bytes + x)
        else st.preview_dst x,
      e.despeckle_radius⟩
  let filtered :=
    if y ≥ r0.radius ∧ y < e.preview_height - r0.radius then
      previewXLoop e y e.preview_bytes.toNat 0 r0
    else some r0
  filtered.bind fun r =>
    some { preview_src := r.preview_src,
           preview_dst := r.preview_dst,
           rows := fun yy x =>
             if yy = y ∧ 0 ≤ x ∧ x < e.preview_bytes then r.preview_dst x else st.rows yy x }

/-- The loop `for (y = 0; y < preview_height; y ++)` of the preview. -/
def previewYLoop (e : Env) : Nat → Int → PState → Option PState
  | 0, _, st => some st
  | k + 1, y, st => (previewRowStep e y st).bind fun st1 => previewYLoop e k (y + 1) st1

/-- The memory of the preview with whatever it holds before the first write. -/
structure PMem where
  preview_src : Int → Nat
  preview_dst : Int → Nat
  rows : Int → Int → Nat

/-- The function `preview_update()` up to the conversion for display: the rectangle is
read with `gimp_pixel_rgn_get_rect` (row `k` at offset `k * width`), then filtered row by
row. -/
def preview_update (e : Env) (img : Int → Int → Nat) (m : PMem) : Option PState :=
  previewYLoop e e.preview_height.toNat 0
    { preview_src := fun i =>
        if 0 ≤ i ∧ i < e.preview_bytes * e.preview_height then
          img (e.preview_y1 + i / e.preview_bytes) (i % e.preview_bytes)
        else m.preview_src i,
      preview_dst := m.preview_dst,
      rows := m.rows }

/-- Preview memory that holds zeros before the first write. -/
def zeroPMem : PMem := ⟨fun _ => 0, fun _ => 0, fun _ _ => 0⟩

/-- The flat array `preview_src` holds the current image of the preview rectangle, row `k`
at offset `k * width`. -/
def PreviewRel (e : Env) (src : Int → Nat) (cur : Int → Int → Nat) : Prop :=
  ∀ k tx, 0 ≤ k → k < e.preview_height → 0 ≤ tx → tx < e.preview_bytes →
    src (e.preview_bytes * k + tx) = cur (e.preview_y1 + k) tx

/-- The relation between the loop-`x` state of the preview and of the reference
semantics: same destination row inside the row, same radius, same current image. -/
def PreviewRowRel (e : Env) (ps : PRowSt) (s : RowSt) : Prop :=
  (∀ x, 0 ≤ x → x < e.preview_bytes → ps.preview_dst x = s.dst_row x) ∧
    ps.radius = s.radius ∧ PreviewRel e ps.preview_src s.src_rows

/-! ## Shell sort -/

/-- The two-store swap of the shell sort permutes the list. -/
theorem swap_perm (s : List Nat) (j k a b : Nat) (hj : s[j]? = some a) (hk : s[k]? = some b) :
    ((s.set j b).set k a).Perm s := by
  have hjl : j < s.length := (List.getElem?_eq_some_iff.1 hj).1
  have hkl : k < s.length := (List.getElem?_eq_some_iff.1 hk).1
  have hja : s[j] = a := (List.getElem?_eq_some_iff.1 hj).2
  have hkb : s[k] = b := (List.getElem?_eq_some_iff.1 hk).2
  rw [List.perm_iff_count]
  intro v
  rw [List.count_set _ _ _ _ (by simpa using hkl), List.count_set _ _ _ _ hjl]
  have h1 : a = v → 1 ≤ s.count v := by
    intro h
    have : v ∈ s := by rw [← h, ← hja]; exact List.getElem_mem _
    exact List.count_pos_iff.2 this
  simp only [List.getElem_set, hja, hkb, beq_iff_eq]
  split_ifs <;> omega

/-- Unfolding of `jLoop` at a natural index whose two reads are in range. -/
theorem jLoop_nat (d fuel jn a b : Nat) (s : List Nat) (ha : s[jn]? = some a)
    (hb : s[jn + d]? = some b) :
    jLoop d (fuel + 1) (jn : Int) s =
      if a > b then jLoop d fuel ((jn : Int) - d) ((s.set jn b).set (jn + d) a) else some s := by
  have h1 : ((jn : Int)).toNat = jn := by omega
  have h2 : ((jn : Int) + (d : Int)).toNat = jn + d := by omega
  simp only [jLoop, h1, h2, Int.natCast_nonneg, if_true, ha, hb]

/-- Unfolding of `jLoop` once `j` is negative. -/
theorem jLoop_neg (d fuel : Nat) (j : Int) (s : List Nat) (hj : j < 0) :
    jLoop d (fuel + 1) j s = some s := by
  simp only [jLoop, not_le.2 hj, if_false]

/-- The inner loop exits within its fuel and permutes the list. -/
theorem jLoop_perm (d : Nat) (hd : 0 < d) :
    ∀ (fuel : Nat) (j : Int) (s : List Nat), j + 2 ≤ fuel → 1 ≤ fuel →
      (0 ≤ j → j + d < s.length) →
      ∃ out, jLoop d fuel j s = some out ∧ out.Perm s := by
  intro fuel
  induction fuel with
  | zero => intro j s _ h; omega
  | succ f ih =>
    intro j s hf _ hlen
    by_cases hj : j < 0
    · exact ⟨s, jLoop_neg d f j s hj, List.Perm.refl _⟩
    · obtain ⟨jn, rfl⟩ := Int.eq_ofNat_of_zero_le (not_lt.1 hj)
      have hl : jn + d < s.length := by have := hlen (by omega); omega
      have e1 : s[jn]? = some s[jn] := List.getElem?_eq_getElem (by omega)
      have e2 : s[jn + d]? = some s[jn + d] := List.getElem?_eq_getElem hl
      rw [jLoop_nat d f jn _ _ s e1 e2]
      by_cases hab : s[jn] > s[jn + d]
      · rw [if_pos hab]
        have hp := swap_perm s jn (jn + d) _ _ e1 e2
        obtain ⟨out, ho, hperm⟩ := ih ((jn : Int) - d) ((s.set jn s[jn + d]).set (jn + d) s[jn])
          (by omega) (by omega) (by intro h; simp only [List.length_set]; omega)
        exact ⟨out, ho, hperm.trans hp⟩
      · rw [if_neg hab]; exact ⟨s, rfl, List.Perm.refl _⟩

/-- The middle loop exits and permutes the list. -/
theorem iLoop_perm (d : Nat) (hd : 0 < d) :
    ∀ (k i : Nat) (s : List Nat), d ≤ i → i + k ≤ s.length →
      ∃ out, iLoop d k i s = some out ∧ out.Perm s := by
  intro k
  induction k with
  | zero => intro i s _ _; exact ⟨s, rfl, List.Perm.refl _⟩
  | succ k ih =>
    intro i s hdi hlen
    obtain ⟨s1, h1, p1⟩ := jLoop_perm d hd (i + 1) ((i : Int) - d) s (by omega) (by omega)
      (by intro _; omega)
    obtain ⟨out, h2, p2⟩ := ih (i + 1) s1 (by omega) (by rw [p1.length_eq]; omega)
    refine ⟨out, ?_, p2.trans p1⟩
    simp only [iLoop, h1, Option.some_bind, h2]

theorem entry_swap (s : List Nat) (j a b p : Nat) (hj : j + 1 < s.length) :
    entry ((s.set j b).set (j + 1) a) p =
      if p = j + 1 then a else if p = j then b else entry s p := by
  unfold entry
  simp only [List.getElem?_set, List.length_set]
  by_cases h1 : j + 1 = p
  · subst h1; simp [hj]
  · by_cases h2 : j = p
    · subst h2; simp [show j < s.length by omega]
    · have h3 : ¬ p = j + 1 := fun h => h1 h.symm
      have h4 : ¬ p = j := fun h => h2 h.symm
      simp [h1, h2, h3, h4]

theorem entry_eq (s : List Nat) (p : Nat) (h : p < s.length) : s[p]? = some (entry s p) := by
  unfold entry
  rw [List.getElem?_eq_getElem h]; rfl

/-- With gap 1 the inner loop inserts `s[i]` into the sorted prefix. -/
theorem jLoop_sorted :
    ∀ (fuel jn : Nat) (s : List Nat) (i : Nat), jn + 1 ≤ fuel → jn ≤ i → i < s.length →
      (∀ p q, p ≤ q → q < jn → entry s p ≤ entry s q) →
      (∀ p q, jn ≤ p → p ≤ q → q ≤ i → entry s p ≤ entry s q) →
      (∀ p q, p < jn → jn < q → q ≤ i → entry s p ≤ entry s q) →
      ∃ out, jLoop 1 fuel ((jn : Int) - 1) s = some out ∧ out.Perm s ∧
        ∀ p q, p ≤ q → q ≤ i → entry out p ≤ entry out q := by
  intro fuel
  induction fuel with
  | zero => intro jn s i h; omega
  | succ f ih =>
    intro jn s i hf hji hi hA hB hC
    rcases Nat.eq_zero_or_pos jn with h0 | hpos
    · subst h0
      refine ⟨s, jLoop_neg 1 f _ s (by omega), List.Perm.refl _, ?_⟩
      intro p q hpq hq; exact hB p q (by omega) hpq hq
    · obtain ⟨j, rfl⟩ : ∃ j, jn = j + 1 := ⟨jn - 1, by omega⟩
      have hc : ((j + 1 : Nat) : Int) - 1 = (j : Int) := by omega
      rw [hc]
      have e1 := entry_eq s j (by omega)
      have e2 := entry_eq s (j + 1) (by omega)
      rw [jLoop_nat 1 f j _ _ s e1 e2]
      by_cases hab : entry s j > entry s (j + 1)
      · rw [if_pos hab]
        have hp := swap_perm s j (j + 1) _ _ e1 e2
        have hs := entry_swap s j (entry s j) (entry s (j + 1))
        obtain ⟨out, ho, hperm, hsorted⟩ := ih j
          ((s.set j (entry s (j + 1))).set (j + 1) (entry s j)) i (by omega) (by omega)
          (by simp only [List.length_set]; omega)
          (by
            intro p q hpq hq
            rw [hs p (by omega), hs q (by omega)]
            rw [if_neg (by omega), if_neg (by omega), if_neg (by omega), if_neg (by omega)]
            exact hA p q hpq (by omega))
          (by
            intro p q hp hpq hq
            rw [hs p (by omega), hs q (by omega)]
            by_cases hp1 : p = j + 1
            · by_cases hq1 : q = j + 1
              · rw [if_pos hp1, if_pos hq1]
              · rw [if_pos hp1, if_neg hq1, if_neg (by omega)]
                exact hC j q (by omega) (by omega) hq
            · by_cases hp2 : p = j
              · rw [if_neg hp1, if_pos hp2]
                by_cases hq1 : q = j + 1
                · rw [if_pos hq1]; omega
                · by_cases hq2 : q = j
                  · rw [if_neg hq1, if_pos hq2]
                  · rw [if_neg hq1, if_neg hq2]
                    exact hB (j + 1) q (by omega) (by omega) hq
              · rw [if_neg hp1, if_neg hp2, if_neg (by omega), if_neg (by omega)]
                exact hB p q (by omega) hpq hq)
          (by
            intro p q hp hq hqi
            rw [hs p (by omega), hs q (by omega)]
            rw [if_neg (by omega), if_neg (by omega)]
            by_cases hq1 : q = j + 1
            · rw [if_pos hq1]; exact hA p j (by omega) (by omega)
            · rw [if_neg hq1, if_neg (by omega)]
              exact hC p q (by omega) (by omega) hqi)
        have hc2 : (j : Int) - ((1 : Nat) : Int) = ((j : Nat) : Int) - 1 := by omega
        rw [hc2]
        exact ⟨out, ho, hperm.trans hp, hsorted⟩
      · rw [if_neg hab]
        refine ⟨s, rfl, List.Perm.refl _, ?_⟩
        intro p q hpq hq
        by_cases h1 : q < j + 1
        · exact hA p q hpq h1
        · by_cases h2 : j + 1 ≤ p
          · exact hB p q h2 hpq hq
          · have h3 : entry s p ≤ entry s j := hA p j (by omega) (by omega)
            by_cases h4 : q = j + 1
            · subst h4; omega
            · exact hC p q (by omega) (by omega) hq

/-- With gap 1 the middle loop is an insertion sort. -/
theorem iLoop_sorted :
    ∀ (k i : Nat) (s : List Nat), 1 ≤ i → i + k ≤ s.length →
      (∀ p q, p ≤ q → q < i → entry s p ≤ entry s q) →
      ∃ out, iLoop 1 k i s = some out ∧ out.Perm s ∧
        ∀ p q, p ≤ q → q < i + k → entry out p ≤ entry out q := by
  intro k
  induction k with
  | zero => intro i s _ _ h; exact ⟨s, rfl, List.Perm.refl _, h⟩
  | succ k ih =>
    intro i s hi hlen hs
    have hc : ((i : Nat) : Int) - ((1 : Nat) : Int) = ((i : Nat) : Int) - 1 := by omega
    obtain ⟨s1, h1, p1, q1⟩ := jLoop_sorted (i + 1) i s i (by omega) (by omega) (by omega) hs
      (by intro p q h1 h2 h3; have : p = q := by omega
          subst this; exact le_refl _)
      (by intro p q h1 h2 h3; omega)
    obtain ⟨out, h2, p2, q2⟩ := ih (i + 1) s1 (by omega) (by rw [p1.length_eq]; omega)
      (by intro p q hpq hq; exact q1 p q hpq (by omega))
    refine ⟨out, ?_, p2.trans p1, ?_⟩
    · simp only [iLoop, hc, h1, Option.some_bind, h2]
    · intro p q hpq hq; exact q2 p q hpq (by omega)

/-- The outer loop exits within its fuel; its last pass has gap 1 and sorts. -/
theorem dLoop_sorted :
    ∀ (fuel d : Nat) (s : List Nat), d + 1 ≤ fuel → 1 ≤ d → d ≤ s.length →
      ∃ out, dLoop fuel d s = some out ∧ out.Perm s ∧
        ∀ p q, p ≤ q → q < s.length → entry out p ≤ entry out q := by
  intro fuel
  induction fuel with
  | zero => intro d s h; omega
  | succ f ih =>
    intro d s hf hd hlen
    rcases Nat.lt_or_ge 1 d with h1 | h1
    · obtain ⟨s1, e1, p1⟩ := iLoop_perm d hd (s.length - d) d s (le_refl _) (by omega)
      obtain ⟨out, e2, p2, q2⟩ := ih (d / 2) s1 (by omega) (by omega)
        (by rw [p1.length_eq]; omega)
      refine ⟨out, ?_, p2.trans p1, ?_⟩
      · have hd0 : d > 0 := hd
        simp only [dLoop, hd0, if_true, e1, Option.some_bind, e2]
      · intro p q hpq hq; exact q2 p q hpq (by rw [p1.length_eq]; exact hq)
    · have hd1 : d = 1 := by omega
      subst hd1
      obtain ⟨s1, e1, p1, q1⟩ := iLoop_sorted (s.length - 1) 1 s (le_refl _) (by omega)
        (by intro p q h1 h2; have : p = q := by omega
            subst this; exact le_refl _)
      obtain ⟨f1, rfl⟩ : ∃ f1, f = f1 + 1 := ⟨f - 1, by omega⟩
      refine ⟨s1, ?_, p1, ?_⟩
      · simp [dLoop, e1]
      · intro p q hpq hq; exact q1 p q hpq (by omega)

/-- The shell sort returns, and returns the ascending rearrangement of its input. -/
theorem shellSort_eq (s : List Nat) : shellSort s = some (sortedOf s) := by
  rcases Nat.lt_or_ge s.length 2 with h | h
  · have hd : s.length / 2 = 0 := by omega
    have : sortedOf s = s := by
      unfold sortedOf
      match s, h with
      | [], _ => rfl
      | [a], _ => rfl
    rw [this]
    simp [shellSort, dLoop, hd]
  · obtain ⟨out, e, p, q⟩ := dLoop_sorted (s.length + 1) (s.length / 2) s (by omega) (by omega)
      (by omega)
    have hs : out.Sorted (fun a b => a ≤ b) := by
      unfold List.Sorted
      rw [List.pairwise_iff_getElem]
      intro i j hi hj hij
      have := q i j (by omega) (by rw [← p.length_eq]; exact hj)
      unfold entry at this
      rw [List.getElem?_eq_getElem hi, List.getElem?_eq_getElem hj] at this
      exact this
    have : out = sortedOf s :=
      List.eq_of_perm_of_sorted (p.trans (List.perm_insertionSort _ s).symm) hs
        (List.sorted_insertionSort _ s)
    rw [← this]; exact e

/-! ## Window collection -/

theorem colsFrom_nil (bpp xmin xmax : Int) (hb : 0 < bpp) (h : xmax ≤ xmin) :
    colsFrom bpp xmin xmax = [] := by
  unfold colsFrom
  have h1 : (xmax - xmin + bpp - 1) / bpp ≤ 0 := by
    have : (xmax - xmin + bpp - 1) / bpp < 1 := by
      apply Int.ediv_lt_of_lt_mul hb; omega
    omega
  have h2 : ((xmax - xmin + bpp - 1) / bpp).toNat = 0 := by omega
  rw [h2]; rfl

theorem colsFrom_cons (bpp xmin xmax : Int) (hb : 0 < bpp) (h : xmin < xmax) :
    colsFrom bpp xmin xmax = xmin :: colsFrom bpp (xmin + bpp) xmax := by
  unfold colsFrom
  have h0 : 0 ≤ (xmax - (xmin + bpp) + bpp - 1) / bpp := Int.ediv_nonneg (by omega) (by omega)
  have h1 : (xmax - xmin + bpp - 1) / bpp = (xmax - (xmin + bpp) + bpp - 1) / bpp + 1 := by
    have : xmax - xmin + bpp - 1 = (xmax - (xmin + bpp) + bpp - 1) + 1 * bpp := by ring
    rw [this, Int.add_mul_ediv_right _ _ (by omega)]
  have h2 : ((xmax - xmin + bpp - 1) / bpp).toNat
      = ((xmax - (xmin + bpp) + bpp - 1) / bpp).toNat + 1 := by omega
  rw [h2, List.range_succ_eq_map]
  simp only [List.map_cons, List.map_map, Nat.cast_zero, zero_mul, add_zero]
  congr 1
  apply List.map_congr_left
  intro k _
  simp only [Function.comp, Nat.succ_eq_add_one, Nat.cast_add, Nat.cast_one]
  ring

/-- The window offsets lie in `[xmin, xmax)` and in the channel of `xmin`. -/
theorem colsFrom_mem (bpp : Int) (hb : 0 < bpp) (xmax : Int) :
    ∀ (n : Nat) (xmin tx : Int), (xmax - xmin).toNat ≤ n → tx ∈ colsFrom bpp xmin xmax →
      xmin ≤ tx ∧ tx < xmax ∧ (tx - xmin) % bpp = 0 := by
  intro n
  induction n with
  | zero =>
    intro xmin tx hn h
    rw [colsFrom_nil bpp xmin xmax hb (by omega)] at h
    exact absurd h (List.not_mem_nil _)
  | succ n ih =>
    intro xmin tx hn h
    by_cases hx : xmin < xmax
    · rw [colsFrom_cons bpp xmin xmax hb hx] at h
      rcases List.mem_cons.1 h with h1 | h1
      · subst h1; refine ⟨le_refl _, hx, by simp⟩
      · obtain ⟨a, b, c⟩ := ih (xmin + bpp) tx (by omega) h1
        refine ⟨by omega, b, ?_⟩
        have : tx - xmin = (tx - (xmin + bpp)) + bpp := by ring
        rw [this, Int.add_emod_self]; exact c
    · rw [colsFrom_nil bpp xmin xmax hb (by omega)] at h
      exact absurd h (List.not_mem_nil _)

theorem collectList_cons (e : Env) (a : Acc) (v : Nat) (l : List Nat) :
    collectList e a (v :: l) = collectList e (collectPixel e v a) l := rfl

theorem collectList_append (e : Env) (a : Acc) (l1 l2 : List Nat) :
    collectList e a (l1 ++ l2) = collectList e (collectList e a l1) l2 := by
  unfold collectList; rw [List.foldl_append]

/-- The column loop exits within its fuel, reads in bounds, and folds the loop body
over the window offsets of one buffer row. -/
theorem colLoop_eq (e : Env) (buf : Int → Int → Nat) (trow xmax : Int) (hb : 0 < e.img_bpp)
    (ht : 0 ≤ trow ∧ trow < e.max_row) (hx : xmax ≤ e.width) :
    ∀ (fuel : Nat) (xmin : Int) (a : Acc), 0 ≤ xmin → (xmax - xmin).toNat + 1 ≤ fuel →
      colLoop e buf trow xmax fuel xmin a =
        some (collectList e a ((colsFrom e.img_bpp xmin xmax).map (buf trow))) := by
  intro fuel
  induction fuel with
  | zero => intro xmin a _ h; omega
  | succ f ih =>
    intro xmin a h0 hf
    by_cases hlt : xmin < xmax
    · rw [colsFrom_cons _ _ _ hb hlt]
      have hr : readBuf e buf trow xmin = some (buf trow xmin) := by
        unfold readBuf
        rw [if_pos ⟨ht.1, ht.2, h0, by omega⟩]
      simp only [colLoop, if_pos hlt, hr, Option.some_bind, List.map_cons, collectList_cons]
      exact ih (xmin + e.img_bpp) _ (by omega) (by omega)
    · rw [colsFrom_nil _ _ _ hb (by omega)]
      simp only [colLoop, if_neg hlt, List.map_nil]
      rfl

theorem emod_ne_of_lt (B c m : Int) (hc : 0 < c) (hm : c < m) : B % m ≠ (B + c) % m := by
  intro h
  have h1 := (Int.emod_eq_emod_iff_emod_sub_eq_zero).1 h.symm
  have h2 : B + c - B = c := by ring
  rw [h2, Int.emod_eq_of_lt (by omega) hm] at h1
  omega

theorem range_succ_flatMap {β : Type} (c : Nat) (f : Int → List β) (y0 : Int) :
    ((List.range (c + 1)).map fun k : Nat => y0 + (k : Int)).flatMap f =
      f y0 ++ ((List.range c).map fun k : Nat => (y0 + 1) + (k : Int)).flatMap f := by
  rw [List.range_succ_eq_map]
  simp only [List.map_cons, List.map_map, List.flatMap_cons, Nat.cast_zero, add_zero]
  congr 2
  apply List.map_congr_left
  intro k _
  simp only [Function.comp, Nat.succ_eq_add_one, Nat.cast_add, Nat.cast_one]
  ring

/-- The row loop exits within its fuel and visits `c` consecutive ring slots, which hold
`c` consecutive image rows. -/
theorem rowLoop_eq (e : Env) (buf cur : Int → Int → Nat) (xmin xmax : Int)
    (hb : 0 < e.img_bpp) (hx0 : 0 ≤ xmin) (hx : xmax ≤ e.width) :
    ∀ (c : Nat) (B y0 : Int) (fuel : Nat) (a : Acc), 0 ≤ B → (c : Int) < e.max_row →
      c + 1 ≤ fuel →
      (∀ k : Nat, k < c → ∀ tx, 0 ≤ tx → tx < e.width →
        buf ((B + k) % e.max_row) tx = cur (y0 + k) tx) →
      rowLoop e buf xmin xmax ((B + c) % e.max_row) fuel (B % e.max_row) a =
        some (collectList e a
          (((List.range c).map fun k : Nat => y0 + (k : Int)).flatMap fun ty =>
            (colsFrom e.img_bpp xmin xmax).map fun tx => cur ty tx)) := by
  intro c
  induction c with
  | zero =>
    intro B y0 fuel a _ _ hf _
    obtain ⟨f, rfl⟩ : ∃ f, fuel = f + 1 := ⟨fuel - 1, by omega⟩
    simp [rowLoop, collectList]
  | succ c ih =>
    intro B y0 fuel a hB hc hf hres
    obtain ⟨f, rfl⟩ : ∃ f, fuel = f + 1 := ⟨fuel - 1, by omega⟩
    have hm : 0 < e.max_row := by omega
    have hne : B % e.max_row ≠ (B + ((c + 1 : Nat) : Int)) % e.max_row :=
      emod_ne_of_lt B _ _ (by omega) hc
    have hslot : 0 ≤ B % e.max_row ∧ B % e.max_row < e.max_row :=
      ⟨Int.emod_nonneg _ (by omega), Int.emod_lt_of_pos _ hm⟩
    have hcol := colLoop_eq e buf (B % e.max_row) xmax hb hslot hx
      ((xmax - xmin).toNat + 1) xmin a hx0 (le_refl _)
    have hnext : Int.tmod (B % e.max_row + 1) e.max_row = (B + 1) % e.max_row := by
      rw [Int.tmod_eq_emod (by omega) (by omega), Int.emod_add_emod]
    have hend : (B + ((c + 1 : Nat) : Int)) % e.max_row = ((B + 1) + (c : Int)) % e.max_row := by
      congr 1; push_cast; ring
    have hmap : (colsFrom e.img_bpp xmin xmax).map (buf (B % e.max_row)) =
        (colsFrom e.img_bpp xmin xmax).map fun tx => cur y0 tx := by
      apply List.map_congr_left
      intro tx htx
      obtain ⟨h1, h2, _⟩ := colsFrom_mem e.img_bpp hb xmax _ xmin tx (le_refl _) htx
      have := hres 0 (by omega) tx (by omega) (by omega)
      simpa using this
    rw [range_succ_flatMap, collectList_append]
    simp only [rowLoop, hne, ne_eq, not_false_eq_true, if_true, hcol, Option.some_bind, hnext]
    rw [hend, hmap]
    apply ih (B + 1) (y0 + 1) f _ (by omega) (by omega) (by omega)
    intro k hk tx h1 h2
    have := hres (k + 1) (by omega) tx h1 h2
    have e1 : B + ((k + 1 : Nat) : Int) = B + 1 + (k : Int) := by push_cast; ring
    have e2 : y0 + ((k + 1 : Nat) : Int) = y0 + 1 + (k : Int) := by push_cast; ring
    rw [e1, e2] at this; exact this

/-! ## One sample -/

theorem winXmin_nonneg (e : Env) (x r : Int) (hb : 0 < e.img_bpp) (hx : 0 ≤ x) :
    0 ≤ winXmin e x r := by
  unfold winXmin
  split
  · rw [Int.tmod_eq_emod hx (by omega)]; exact Int.emod_nonneg _ (by omega)
  · omega

theorem winXmax_le (e : Env) (x r : Int) : winXmax e x r ≤ e.width := by
  unfold winXmax
  split <;> omega

theorem curSlot_eq (e : Env) (row y lasty : Int) (h : 0 ≤ row + y - lasty + e.max_row)
    (hm : 0 < e.max_row) :
    curSlot e row y lasty = (row + y - lasty + e.max_row) % e.max_row := by
  unfold curSlot
  exact Int.tmod_eq_emod h (by omega)

theorem curSlot_range (e : Env) (row y lasty : Int) (h : 0 ≤ row + y - lasty + e.max_row)
    (hm : 0 < e.max_row) :
    0 ≤ curSlot e row y lasty ∧ curSlot e row y lasty < e.max_row := by
  rw [curSlot_eq e row y lasty h hm]
  exact ⟨Int.emod_nonneg _ (by omega), Int.emod_lt_of_pos _ hm⟩

/-- With the window rows resident, the collection loops return the reference collection. -/
theorem collect_eq (e : Env) (cur : Int → Int → Nat) (row y lasty x : Int) (s : RowSt)
    (hb : 0 < e.img_bpp) (hx : 0 ≤ x) (hr : 0 ≤ s.radius)
    (hm : 2 * s.radius + 1 < e.max_row)
    (hres : ∀ ty, y - s.radius ≤ ty → ty ≤ y + s.radius →
      Resident e s.src_rows cur row lasty ty) :
    collect e row y lasty x s = some (refCollect e cur y x s.radius) := by
  have hm0 : 0 < e.max_row := by omega
  have hB : 0 ≤ row + y - lasty - s.radius + e.max_row := by
    have := (hres (y - s.radius) (le_refl _) (by omega)).1
    omega
  obtain ⟨c, hc⟩ : ∃ c : Nat, (c : Int) = 2 * s.radius + 1 := ⟨(2 * s.radius + 1).toNat, by omega⟩
  have hstart : Int.tmod (row + y - lasty - s.radius + e.max_row) e.max_row
      = (row + y - lasty - s.radius + e.max_row) % e.max_row :=
    Int.tmod_eq_emod hB (by omega)
  have hend : Int.tmod (row + y - lasty + s.radius + 1 + e.max_row) e.max_row
      = ((row + y - lasty - s.radius + e.max_row) + (c : Int)) % e.max_row := by
    rw [Int.tmod_eq_emod (by omega) (by omega), hc]; congr 1; ring
  have key := rowLoop_eq e s.src_rows cur (winXmin e x s.radius) (winXmax e x s.radius) hb
    (winXmin_nonneg e x s.radius hb hx) (winXmax_le e x s.radius) c
    (row + y - lasty - s.radius + e.max_row) (y - s.radius) (e.max_row.toNat + 1) ⟨[], 0, 0⟩
    hB (by omega) (by omega)
    (by
      intro k hk tx h1 h2
      have hk2 : (k : Int) ≤ 2 * s.radius := by omega
      obtain ⟨h3, h4⟩ := hres (y - s.radius + k) (by omega) (by omega)
      have := h4 tx h1 h2
      rw [curSlot_eq e row _ lasty h3 hm0] at this
      rw [← this]; congr 2; ring)
  unfold collect refCollect windowVals windowRows windowCols
  simp only
  have hcn : (2 * s.radius + 1).toNat = c := by omega
  rw [hcn]
  unfold winXmin winXmax at key
  rw [hstart, hend]
  exact key

theorem medianValue_eq (s : List Nat) (h : 1 < s.length) :
    medianValue s = some (medianOf s) := by
  unfold medianValue medianOf
  simp only
  by_cases hodd : s.length % 2 = 1
  · rw [if_pos hodd, if_pos hodd, entry_eq s (s.length / 2) (by omega),
      entry_eq s (s.length / 2 + 1) (by omega)]
  · rw [if_neg hodd, if_neg hodd, entry_eq s (s.length / 2) (by omega)]

theorem sortedOf_length (s : List Nat) : (sortedOf s).length = s.length :=
  (List.perm_insertionSort _ s).length_eq

theorem tmod_inj (a b m : Int) (ha : 0 ≤ a) (hb : 0 ≤ b) (hm : 0 < m)
    (hab : a - b < m) (hba : b - a < m) (h : Int.tmod a m = Int.tmod b m) : a = b := by
  rw [Int.tmod_eq_emod ha (by omega), Int.tmod_eq_emod hb (by omega)] at h
  have h1 := (Int.emod_eq_emod_iff_emod_sub_eq_zero).1 h
  have h2 := (Int.emod_eq_emod_iff_emod_sub_eq_zero).1 h.symm
  rcases le_total b a with hle | hle
  · rw [Int.emod_eq_of_lt (by omega) hab] at h1; omega
  · rw [Int.emod_eq_of_lt (by omega) hba] at h2; omega

theorem adaptRadius_bounds (e : Env) (h0 h255 r : Int) (h1 : 1 ≤ r)
    (h2 : r ≤ e.despeckle_radius) :
    1 ≤ adaptRadius e h0 h255 r ∧ adaptRadius e h0 h255 r ≤ e.despeckle_radius := by
  unfold adaptRadius
  split_ifs <;> omega

/-- One sample of the code agrees with one sample of the reference semantics. -/
theorem sampleStep_sim (e : Env) (row y lasty lo hi x : Int) (s s1 : RowSt)
    (hb : 0 < e.img_bpp) (hx : 0 ≤ x) (hr : 0 ≤ s.radius)
    (hm : 2 * s.radius + 1 < e.max_row)
    (hlo : lo ≤ y - s.radius) (hhi : y + s.radius ≤ hi) (hspan : hi - lo < e.max_row)
    (hrel : RowRel e row lasty lo hi s s1) :
    ∃ s2, sampleStep e row y lasty x s = some s2 ∧
      RowRel e row lasty lo hi s2 (refSample e y x s1) := by
  obtain ⟨hd, hrad, hres⟩ := hrel
  have hm0 : 0 < e.max_row := by omega
  have hc := collect_eq e s1.src_rows row y lasty x s hb hx hr hm
    (fun ty h1 h2 => hres ty (by omega) (by omega))
  have hy := hres y (by omega) (by omega)
  have hslot := curSlot_range e row y lasty hy.1 hm0
  unfold sampleStep refSample
  rw [hc]
  simp only [Option.some_bind]
  rw [← hrad]
  unfold storeMedian refStore
  by_cases hn : (refCollect e s1.src_rows y x s.radius).sort.length > 1
  · rw [if_pos hn, if_pos hn, shellSort_eq]
    simp only [Option.some_bind]
    rw [medianValue_eq _ (by rw [sortedOf_length]; exact hn)]
    simp only [Option.some_bind]
    by_cases hrec : e.recursive = true
    · rw [if_pos hrec, if_pos hrec, if_pos hslot]
      simp only [Option.some_bind]
      refine ⟨_, rfl, ?_, rfl, ?_⟩
      · simp only [hd]
      · intro ty h1 h2
        obtain ⟨h3, h4⟩ := hres ty h1 h2
        refine ⟨h3, ?_⟩
        intro tx ht1 ht2
        simp only
        by_cases hty : ty = y
        · subst hty
          by_cases htx : tx = x
          · simp [htx]
          · simp only [htx, and_false, if_false]; exact h4 tx ht1 ht2
        · have hne : curSlot e row ty lasty ≠ curSlot e row y lasty := by
            intro heq
            unfold curSlot at heq
            have := tmod_inj _ _ _ h3 hy.1 hm0 (by omega) (by omega) heq
            omega
          simp only [hne, hty, false_and, if_false]; exact h4 tx ht1 ht2
    · rw [if_neg hrec, if_neg hrec]
      simp only [Option.some_bind]
      refine ⟨_, rfl, ?_, rfl, ?_⟩
      · simp only [hd]
      · intro ty h1 h2; exact hres ty h1 h2
  · rw [if_neg hn, if_neg hn]
    simp only [Option.some_bind]
    exact ⟨_, rfl, hd, rfl, hres⟩

/-- The loop over `x` of the code agrees with the reference loop. -/
theorem xLoop_sim (e : Env) (row y lasty lo hi : Int) (hb : 0 < e.img_bpp)
    (hm : 2 * e.despeckle_radius + 1 < e.max_row)
    (hlo : lo ≤ y - e.despeckle_radius) (hhi : y + e.despeckle_radius ≤ hi)
    (hspan : hi - lo < e.max_row) :
    ∀ (k : Nat) (x : Int) (s s1 : RowSt), 0 ≤ x → x + k ≤ e.width →
      1 ≤ s.radius → s.radius ≤ e.despeckle_radius →
      RowRel e row lasty lo hi s s1 →
      ∃ s2, xLoop e row y lasty k x s = some s2 ∧
        RowRel e row lasty lo hi s2 (refXLoop e y k x s1) ∧
        1 ≤ s2.radius ∧ s2.radius ≤ e.despeckle_radius := by
  intro k
  induction k with
  | zero => intro x s s1 _ _ h1 h2 hrel; exact ⟨s, rfl, hrel, h1, h2⟩
  | succ k ih =>
    intro x s s1 hx hxk h1 h2 hrel
    obtain ⟨s2, e2, r2⟩ := sampleStep_sim e row y lasty lo hi x s s1 hb hx
      (by omega) (by omega) (by omega) (by omega) hspan hrel
    have hrad2 : s2.radius = (refSample e y x s1).radius := r2.2.1
    have hb2 : 1 ≤ s2.radius ∧ s2.radius ≤ e.despeckle_radius := by
      rw [hrad2]; unfold refSample; simp only
      exact adaptRadius_bounds e _ _ _ (by rw [← hrel.2.1]; exact h1)
        (by rw [← hrel.2.1]; exact h2)
    obtain ⟨s3, e3, r3, b3⟩ := ih (x + 1) s2 (refSample e y x s1) (by omega)
      (by push_cast at hxk; omega) hb2.1 hb2.2 r2
    refine ⟨s3, ?_, r3, b3⟩
    simp only [xLoop, e2, Option.some_bind, e3, refXLoop]

/-! ## Ring buffer -/

theorem slot_formula (e : Env) (row lasty ty : Int) (hm : 0 < e.max_row)
    (hrow : row = (lasty - e.sel_y1) % e.max_row) (hty : lasty - e.max_row ≤ ty) :
    0 ≤ row + ty - lasty + e.max_row ∧
      curSlot e row ty lasty = (ty - e.sel_y1) % e.max_row := by
  have h0 : 0 ≤ row := by rw [hrow]; exact Int.emod_nonneg _ (by omega)
  have h1 : 0 ≤ row + ty - lasty + e.max_row := by omega
  refine ⟨h1, ?_⟩
  rw [curSlot_eq e row ty lasty h1 hm, hrow]
  have : (lasty - e.sel_y1) % e.max_row + ty - lasty + e.max_row
      = (lasty - e.sel_y1) % e.max_row + (ty - lasty + e.max_row) := by ring
  rw [this, Int.emod_add_emod]
  have : lasty - e.sel_y1 + (ty - lasty + e.max_row) = (ty - e.sel_y1) + e.max_row := by ring
  rw [this, Int.add_emod_self]

theorem resident_of_ring (e : Env) (buf cur : Int → Int → Nat) (row lasty ty : Int)
    (hm : 0 < e.max_row) (hrow : row = (lasty - e.sel_y1) % e.max_row)
    (hring : Ring e buf cur lasty) (h1 : e.sel_y1 ≤ ty) (h2 : lasty - e.max_row ≤ ty)
    (h3 : ty < lasty) : Resident e buf cur row lasty ty := by
  obtain ⟨a, b⟩ := slot_formula e row lasty ty hm hrow h2
  refine ⟨a, ?_⟩
  intro tx t1 t2
  rw [b]; exact hring ty h1 h2 h3 tx t1 t2

theorem ring_of_resident (e : Env) (buf cur : Int → Int → Nat) (row lasty : Int)
    (hm : 0 < e.max_row) (hrow : row = (lasty - e.sel_y1) % e.max_row)
    (hres : ∀ ty, max e.sel_y1 (lasty - e.max_row) ≤ ty → ty ≤ lasty - 1 →
      Resident e buf cur row lasty ty) : Ring e buf cur lasty := by
  intro ty h1 h2 h3 tx t1 t2
  obtain ⟨_, b⟩ := slot_formula e row lasty ty hm hrow h2
  have := (hres ty (by omega) (by omega)).2 tx t1 t2
  rw [b] at this; exact this

/-- The reference sample writes the current image only at `(y, x)`. -/
theorem refSample_frame (e : Env) (y x : Int) (s : RowSt) (ty tx : Int)
    (h : ty ≠ y ∨ tx ≠ x) : (refSample e y x s).src_rows ty tx = s.src_rows ty tx := by
  unfold refSample refStore
  simp only
  split_ifs
  · simp only
    rw [if_neg]; rintro ⟨a, b⟩; rcases h with h | h
    · exact h a
    · exact h b
  · rfl
  · rfl

theorem refXLoop_frame (e : Env) (y : Int) (ty : Int) (hty : ty ≠ y) :
    ∀ (k : Nat) (x : Int) (s : RowSt) (tx : Int),
      (refXLoop e y k x s).src_rows ty tx = s.src_rows ty tx := by
  intro k
  induction k with
  | zero => intro x s tx; rfl
  | succ k ih =>
    intro x s tx
    simp only [refXLoop]
    rw [ih, refSample_frame e y x s ty tx (Or.inl hty)]

theorem mul_emod_two_mul (t q : Int) (ht : 0 < t) :
    (t * q) % (2 * t) = 0 ∨ (t * q) % (2 * t) = t := by
  have h : (t * q) % (2 * t) = t * (q % 2) := by
    rw [mul_comm 2 t]; exact Int.mul_emod_mul_of_pos _ _ ht
  rw [h]
  rcases Int.emod_two_eq q with h2 | h2 <;> rw [h2] <;> simp

/-- The block load stays inside the row buffer, keeps the ring invariant and leaves the
bookkeeping ready for the next row. -/
theorem loadBlock_sim (e : Env) (img cur : Int → Int → Nat) (y : Int) (st : DState)
    (hR : 1 ≤ e.despeckle_radius) (hT : 2 * e.despeckle_radius ≤ e.tile_height)
    (hbook : Book e y st) (hring : Ring e st.src_rows cur st.lasty)
    (hcur : ∀ ty, y ≤ ty → ∀ tx, cur ty tx = img ty tx) :
    ∃ st1, loadBlock e img y st = some st1 ∧ st1.dst_row = st.dst_row ∧
      st1.shadow = st.shadow ∧ st1.progress = st.progress ∧
      Ring e st1.src_rows cur st1.lasty ∧ Book e (y + 1) st1 := by
  obtain ⟨b1, b2, b3, b4, b5, b6⟩ := hbook
  have hm : e.max_row = 2 * e.tile_height := rfl
  unfold loadBlock
  by_cases hload : y + e.despeckle_radius ≥ st.lasty ∧ st.lasty < e.sel_y2
  · rw [if_pos hload]
    obtain ⟨hl1, hl2⟩ := hload
    simp only
    obtain ⟨i, hi⟩ : ∃ i, i = (if e.sel_y2 - st.lasty > e.tile_height then e.tile_height
        else e.sel_y2 - st.lasty) := ⟨_, rfl⟩
    rw [← hi]
    have hi1 : 1 ≤ i := by rw [hi]; split_ifs <;> omega
    have hi2 : i ≤ e.tile_height := by rw [hi]; split_ifs <;> omega
    have hi3 : i ≤ e.sel_y2 - st.lasty := by rw [hi]; split_ifs <;> omega
    have hi4 : i = e.tile_height ∨ i = e.sel_y2 - st.lasty := by
      rw [hi]; split_ifs
      · exact Or.inl rfl
      · exact Or.inr rfl
    have hq : ∃ q, st.lasty - e.sel_y1 = e.tile_height * q := by
      rcases b6 with h | h
      · omega
      · exact h
    obtain ⟨q, hq⟩ := hq
    clear b6
    have hrow : st.row = 0 ∨ st.row = e.tile_height := by
      rw [b5, hq, hm]; exact mul_emod_two_mul _ _ (by omega)
    have hrow0 : 0 ≤ st.row := by rcases hrow with h | h <;> omega
    have hfit : st.row + i ≤ e.max_row := by rcases hrow with h | h <;> omega
    have hslot : ∀ j, 0 ≤ j → j < i →
        (st.lasty + j - e.sel_y1) % e.max_row = st.row + j := by
      intro j hj0 hji
      have : st.lasty + j - e.sel_y1 = (st.lasty - e.sel_y1) + j := by ring
      rw [this, ← Int.emod_add_emod, ← b5]
      exact Int.emod_eq_of_lt (by omega) (by omega)
    unfold getRect
    rw [if_pos ⟨hrow0, hfit⟩]
    simp only [Option.some_bind]
    refine ⟨_, rfl, rfl, rfl, rfl, ?_, ?_⟩
    · intro ty t1 t2 t3 tx x1 x2
      simp only at t2 t3 ⊢
      by_cases hge : st.lasty ≤ ty
      · have hs := hslot (ty - st.lasty) (by omega) (by omega)
        have e1 : st.lasty + (ty - st.lasty) - e.sel_y1 = ty - e.sel_y1 := by ring
        rw [e1] at hs
        rw [hs, if_pos ⟨by omega, by omega, x1, x2⟩, hcur ty (by omega) tx]
        congr 1; ring
      · have hnot : ¬ (st.row ≤ (ty - e.sel_y1) % e.max_row ∧
            (ty - e.sel_y1) % e.max_row < st.row + i ∧ 0 ≤ tx ∧ tx < e.width) := by
          rintro ⟨h1, h2, _, _⟩
          have hs := hslot ((ty - e.sel_y1) % e.max_row - st.row) (by omega) (by omega)
          have hne := emod_ne_of_lt (ty - e.sel_y1)
            (st.lasty + ((ty - e.sel_y1) % e.max_row - st.row) - ty) e.max_row
            (by omega) (by omega)
          apply hne
          have e1 : ty - e.sel_y1 + (st.lasty + ((ty - e.sel_y1) % e.max_row - st.row) - ty)
              = st.lasty + ((ty - e.sel_y1) % e.max_row - st.row) - e.sel_y1 := by ring
          rw [e1, hs]; ring
        rw [if_neg hnot]
        exact hring ty t1 (by omega) (by omega) tx x1 x2
    · refine ⟨by omega, ?_, ?_, ?_, ?_, ?_⟩
      · simp only; omega
      · simp only
        rcases hi4 with h | h
        · omega
        · left; omega
      · simp only; omega
      · simp only
        rw [Int.tmod_eq_emod (by omega) (by omega), b5, Int.emod_add_emod]
        congr 1; ring
      · simp only
        rcases hi4 with h | h
        · right; exact ⟨q + 1, by rw [h]; rw [mul_add, ← hq]; ring⟩
        · left; omega
  · rw [if_neg hload]
    refine ⟨st, rfl, rfl, rfl, rfl, hring, by omega, b2, ?_, by omega, b5, b6⟩
    rcases b3 with h | h
    · exact Or.inl h
    · by_cases h2 : st.lasty < e.sel_y2
      · right
        have : ¬ (y + e.despeckle_radius ≥ st.lasty) := fun h3 => hload ⟨h3, h2⟩
        omega
      · left; omega

/-! ## Rows and the whole pass -/

/-- The block load and the row copy of the code agree with the reference row start, with
the whole window band of an interior row resident. -/
theorem rowInit_sim (e : Env) (img : Int → Int → Nat) (y : Int) (st : DState) (rs : RState)
    (hR : 1 ≤ e.despeckle_radius) (hT : 2 * e.despeckle_radius ≤ e.tile_height)
    (hy : y < e.sel_y2) (hinv : Inv e img y st rs) :
    ∃ st1 r0, loadBlock e img y st = some st1 ∧ rowInit e y st1 = some r0 ∧
      r0.radius = e.despeckle_radius ∧
      RowRel e st1.row st1.lasty (max e.sel_y1 (st1.lasty - e.max_row)) (st1.lasty - 1) r0
        (refRowInit e y rs) ∧
      Book e (y + 1) st1 ∧ st1.shadow = rs.shadow ∧ st1.progress = rs.progress ∧
      (interiorRow e y → max e.sel_y1 (st1.lasty - e.max_row) ≤ y - e.despeckle_radius ∧
        y + e.despeckle_radius ≤ st1.lasty - 1) := by
  obtain ⟨hbook, hdst, hshadow, hprog, hring, hcur⟩ := hinv
  obtain ⟨st1, hl, l1, l2, l3, l4, l5⟩ := loadBlock_sim e img rs.cur y st hR hT hbook hring hcur
  obtain ⟨c1, c2, c3, c4, c5, c6⟩ := id l5
  have b1 : e.sel_y1 ≤ y := hbook.1
  have hm : e.max_row = 2 * e.tile_height := rfl
  have hm0 : 0 < e.max_row := by omega
  clear c6
  have hyL : y < st1.lasty := by
    rcases c3 with h | h <;> omega
  obtain ⟨s1, s2⟩ := slot_formula e st1.row st1.lasty y hm0 c5 (by omega)
  have hslot := curSlot_range e st1.row y st1.lasty s1 hm0
  have hres : ∀ ty, max e.sel_y1 (st1.lasty - e.max_row) ≤ ty → ty ≤ st1.lasty - 1 →
      Resident e st1.src_rows rs.cur st1.row st1.lasty ty := by
    intro ty h1 h2
    exact resident_of_ring e _ _ _ _ ty hm0 c5 l4 (by omega) (by omega) (by omega)
  refine ⟨st1, ⟨st1.src_rows, fun x => if 0 ≤ x ∧ x < e.width then
      st1.src_rows (curSlot e st1.row y st1.lasty) x else st1.dst_row x,
      e.despeckle_radius⟩, hl, ?_, rfl, ⟨?_, rfl, hres⟩, l5, by rw [l2, hshadow],
    by rw [l3, hprog], ?_⟩
  · unfold rowInit
    simp only
    rw [if_pos hslot]
  · funext x
    unfold refRowInit
    simp only
    by_cases hx : 0 ≤ x ∧ x < e.width
    · rw [if_pos hx, if_pos hx]
      exact (hres y (by omega) (by omega)).2 x hx.1 hx.2
    · rw [if_neg hx, if_neg hx, l1, hdst]
  · intro hint
    obtain ⟨i1, i2⟩ := hint
    refine ⟨by omega, ?_⟩
    rcases c3 with h | h <;> omega

/-- One row of the code agrees with one row of the reference semantics. -/
theorem rowStep_sim (e : Env) (img : Int → Int → Nat) (y : Int) (st : DState) (rs : RState)
    (hb : 0 < e.img_bpp) (hw : 0 ≤ e.width)
    (hR : 1 ≤ e.despeckle_radius) (hT : 2 * e.despeckle_radius ≤ e.tile_height)
    (hy : y < e.sel_y2) (hinv : Inv e img y st rs) :
    ∃ st1, rowStep e img y st = some st1 ∧ Inv e img (y + 1) st1 (refRowStep e y rs) := by
  obtain ⟨st1, r0, hl, hi, hrad, hrel0, hbook1, hsh, hpr, hwin⟩ :=
    rowInit_sim e img y st rs hR hT hy hinv
  have hcur := hinv.2.2.2.2.2
  have hm : e.max_row = 2 * e.tile_height := rfl
  have hm0 : 0 < e.max_row := by omega
  have hfil : ∃ r, (if y ≥ e.sel_y1 + r0.radius ∧ y < e.sel_y2 - r0.radius
        then xLoop e st1.row y st1.lasty e.width.toNat 0 r0 else some r0) = some r ∧
      RowRel e st1.row st1.lasty (max e.sel_y1 (st1.lasty - e.max_row)) (st1.lasty - 1) r
        (if interiorRow e y then refXLoop e y e.width.toNat 0 (refRowInit e y rs)
          else refRowInit e y rs) ∧
      ∀ ty, y + 1 ≤ ty → ∀ tx, (if interiorRow e y then
          refXLoop e y e.width.toNat 0 (refRowInit e y rs)
          else refRowInit e y rs).src_rows ty tx = rs.cur ty tx := by
    rw [hrad]
    by_cases hint : interiorRow e y
    · have hint2 : y ≥ e.sel_y1 + e.despeckle_radius ∧ y < e.sel_y2 - e.despeckle_radius :=
        hint
      rw [if_pos hint2, if_pos hint]
      obtain ⟨w1, w2⟩ := hwin hint
      obtain ⟨r, hr1, hr2, _⟩ := xLoop_sim e st1.row y st1.lasty
        (max e.sel_y1 (st1.lasty - e.max_row)) (st1.lasty - 1) hb (by omega) w1 w2
        (by omega) e.width.toNat 0 r0 _ (le_refl _) (by omega) (by omega) (by omega) hrel0
      refine ⟨r, hr1, hr2, ?_⟩
      intro ty hty tx
      rw [refXLoop_frame e y ty (by omega)]
      rfl
    · have hint2 : ¬ (y ≥ e.sel_y1 + e.despeckle_radius ∧
          y < e.sel_y2 - e.despeckle_radius) := hint
      rw [if_neg hint2, if_neg hint]
      exact ⟨_, rfl, hrel0, fun ty _ tx => rfl⟩
  obtain ⟨r, hr1, hr2, hr3⟩ := hfil
  unfold rowStep
  rw [hl]
  simp only [Option.some_bind]
  rw [hi]
  simp only [Option.some_bind]
  rw [hr1]
  simp only [Option.some_bind]
  refine ⟨_, rfl, ?_, ?_, ?_, ?_, ?_, ?_⟩
  · exact hbook1
  · exact hr2.1
  · unfold refRowStep
    simp only
    funext yy x
    rw [hr2.1, hsh]
  · unfold refRowStep
    simp only
    rw [hpr]
  · unfold refRowStep
    simp only
    exact ring_of_resident e _ _ st1.row st1.lasty hm0 hbook1.2.2.2.2.1 hr2.2.2
  · intro ty hty tx
    unfold refRowStep
    simp only
    rw [hr3 ty hty tx]
    exact hcur ty (by omega) tx

/-- The loop over `y` of the code agrees with the reference loop. -/
theorem yLoop_sim (e : Env) (img : Int → Int → Nat)
    (hb : 0 < e.img_bpp) (hw : 0 ≤ e.width)
    (hR : 1 ≤ e.despeckle_radius) (hT : 2 * e.despeckle_radius ≤ e.tile_height) :
    ∀ (k : Nat) (y : Int) (st : DState) (rs : RState), y + k ≤ e.sel_y2 →
      Inv e img y st rs →
      ∃ st1, yLoop e img k y st = some st1 ∧ Inv e img (y + k) st1 (refYLoop e k y rs) := by
  intro k
  induction k with
  | zero =>
    intro y st rs _ h
    exact ⟨st, rfl, by simpa using h⟩
  | succ k ih =>
    intro y st rs hy hinv
    obtain ⟨st1, h1, i1⟩ := rowStep_sim e img y st rs hb hw hR hT
      (by push_cast at hy; omega) hinv
    obtain ⟨st2, h2, i2⟩ := ih (y + 1) st1 _ (by push_cast at hy; omega) i1
    refine ⟨st2, ?_, ?_⟩
    · simp only [yLoop, h1, Option.some_bind, h2]
    · have : y + ((k + 1 : Nat) : Int) = y + 1 + (k : Int) := by push_cast; ring
      rw [this]; exact i2

theorem initState_inv (e : Env) (img : Int → Int → Nat) (m : Mem)
    (hH : 0 ≤ e.sel_height)
    (hR : 1 ≤ e.despeckle_radius) (hT : 2 * e.despeckle_radius ≤ e.tile_height) :
    ∃ st, initState e img m = some st ∧
      Inv e img e.sel_y1 st ⟨img, m.dst_row, m.shadow, []⟩ := by
  have hm : e.max_row = 2 * e.tile_height := rfl
  have hh : e.sel_height = e.sel_y2 - e.sel_y1 := rfl
  obtain ⟨rc, hrc⟩ : ∃ rc, rc = (if e.sel_height < e.tile_height then e.sel_height
      else e.tile_height) := ⟨_, rfl⟩
  have h1 : 0 ≤ rc := by rw [hrc]; split_ifs <;> omega
  have h2 : rc ≤ e.tile_height := by rw [hrc]; split_ifs <;> omega
  have h3 : rc ≤ e.sel_height := by rw [hrc]; split_ifs <;> omega
  have h4 : rc = e.sel_height ∨ rc = e.tile_height := by
    rw [hrc]; split_ifs
    · exact Or.inl rfl
    · exact Or.inr rfl
  unfold initState getRect
  simp only [← hrc]
  rw [if_pos ⟨le_refl _, by omega⟩]
  simp only [Option.some_bind]
  refine ⟨_, rfl, ⟨le_refl _, ?_, ?_, ?_, ?_, ?_⟩, rfl, rfl, rfl, ?_, fun _ _ _ => rfl⟩
  · simp only; omega
  · simp only
    rcases h4 with h | h
    · left; omega
    · right; omega
  · simp only; omega
  · simp only
    have : e.sel_y1 + rc - e.sel_y1 = rc := by ring
    rw [this, Int.emod_eq_of_lt h1 (by omega)]
  · simp only
    rcases h4 with h | h
    · left; omega
    · right; exact ⟨1, by rw [h]; ring⟩
  · intro ty t1 t2 t3 tx x1 x2
    simp only at t3 ⊢
    have hs : (ty - e.sel_y1) % e.max_row = ty - e.sel_y1 :=
      Int.emod_eq_of_lt (by omega) (by omega)
    rw [hs, if_pos ⟨by omega, by omega, x1, x2⟩]
    congr 1; ring

/-- The code reaches every row head, in the state the invariant describes. -/
theorem stateAtRow_sim (e : Env) (img : Int → Int → Nat) (m : Mem)
    (hb : 0 < e.img_bpp) (hw : 0 ≤ e.width)
    (hR : 1 ≤ e.despeckle_radius) (hT : 2 * e.despeckle_radius ≤ e.tile_height)
    (y : Int) (h1 : e.sel_y1 ≤ y) (h2 : y ≤ e.sel_y2) :
    ∃ st, stateAtRow e img m y = some st ∧ Inv e img y st (refStateAtRow e img m y) := by
  have hh : e.sel_height = e.sel_y2 - e.sel_y1 := rfl
  obtain ⟨st0, h0, i0⟩ := initState_inv e img m (by omega) hR hT
  obtain ⟨st1, e1, i1⟩ := yLoop_sim e img hb hw hR hT (y - e.sel_y1).toNat e.sel_y1 st0 _
    (by omega) i0
  refine ⟨st1, ?_, ?_⟩
  · unfold stateAtRow; rw [h0]; exact e1
  · have : e.sel_y1 + ((y - e.sel_y1).toNat : Int) = y := by omega
    rw [this] at i1; exact i1

theorem despeckle_eq_stateAtRow (e : Env) (img : Int → Int → Nat) (m : Mem) :
    despeckle e img m = stateAtRow e img m e.sel_y2 := rfl

theorem refDespeckle_eq_stateAtRow (e : Env) (img : Int → Int → Nat) (m : Mem) :
    refDespeckle e img m = refStateAtRow e img m e.sel_y2 := rfl

/-- For a tile height of at least twice the radius, `despeckle()` returns, and its final
state is related to the reference pass by the loop invariant. -/
theorem despeckle_sim (e : Env) (img : Int → Int → Nat) (m : Mem)
    (hb : 0 < e.img_bpp) (hw : 0 ≤ e.width) (hH : 0 ≤ e.sel_height)
    (hR : 1 ≤ e.despeckle_radius) (hT : 2 * e.despeckle_radius ≤ e.tile_height) :
    ∃ st, despeckle e img m = some st ∧ Inv e img e.sel_y2 st (refDespeckle e img m) := by
  have hh : e.sel_height = e.sel_y2 - e.sel_y1 := rfl
  rw [despeckle_eq_stateAtRow, refDespeckle_eq_stateAtRow]
  exact stateAtRow_sim e img m hb hw hR hT e.sel_y2 (by omega) (le_refl _)

/-- The code reaches every sample of every interior row, in a state related to the
reference state before that sample. -/
theorem stateAtSample_sim (e : Env) (img : Int → Int → Nat) (m : Mem)
    (hb : 0 < e.img_bpp)
    (hR : 1 ≤ e.despeckle_radius) (hT : 2 * e.despeckle_radius ≤ e.tile_height)
    (y x : Int) (hint : interiorRow e y) (hx0 : 0 ≤ x) (hx1 : x ≤ e.width) :
    ∃ st1 s, stateAtSample e img m y x = some (st1, s) ∧
      RowRel e st1.row st1.lasty (max e.sel_y1 (st1.lasty - e.max_row)) (st1.lasty - 1) s
        (refStateAtSample e img m y x) ∧
      1 ≤ s.radius ∧ s.radius ≤ e.despeckle_radius ∧
      max e.sel_y1 (st1.lasty - e.max_row) ≤ y - e.despeckle_radius ∧
      y + e.despeckle_radius ≤ st1.lasty - 1 := by
  have hm : e.max_row = 2 * e.tile_height := rfl
  obtain ⟨i1, i2⟩ := id hint
  obtain ⟨st, hs, hinv⟩ := stateAtRow_sim e img m hb (by omega) hR hT y (by omega) (by omega)
  obtain ⟨st1, r0, hl, hi, hrad, hrel0, _, _, _, hwin⟩ :=
    rowInit_sim e img y st _ hR hT (by omega) hinv
  obtain ⟨w1, w2⟩ := hwin hint
  obtain ⟨s, hx, hrel, b1, b2⟩ := xLoop_sim e st1.row y st1.lasty
    (max e.sel_y1 (st1.lasty - e.max_row)) (st1.lasty - 1) hb (by omega) w1 w2
    (by omega) x.toNat 0 r0 _ (le_refl _) (by omega) (by omega) (by omega) hrel0
  refine ⟨st1, s, ?_, hrel, b1, b2, w1, w2⟩
  unfold stateAtSample
  rw [hs]; simp only [Option.some_bind]
  rw [hl]; simp only [Option.some_bind]
  rw [hi]; simp only [Option.some_bind]
  rw [hx]; simp only [Option.some_bind]

/-! ## Reference semantics: frames -/

theorem refXLoop_split (e : Env) (y : Int) :
    ∀ (a b : Nat) (x : Int) (s : RowSt),
      refXLoop e y (a + b) x s = refXLoop e y b (x + a) (refXLoop e y a x s) := by
  intro a
  induction a with
  | zero => intro b x s; simp [refXLoop]
  | succ a ih =>
    intro b x s
    have h1 : a + 1 + b = (a + b) + 1 := by omega
    rw [h1]
    simp only [refXLoop]
    rw [ih]
    congr 1
    push_cast; ring

theorem refYLoop_split (e : Env) :
    ∀ (a b : Nat) (y : Int) (st : RState),
      refYLoop e (a + b) y st = refYLoop e b (y + a) (refYLoop e a y st) := by
  intro a
  induction a with
  | zero => intro b y st; simp [refYLoop]
  | succ a ih =>
    intro b y st
    have h1 : a + 1 + b = (a + b) + 1 := by omega
    rw [h1]
    simp only [refYLoop]
    rw [ih]
    congr 1
    push_cast; ring

/-- The destination row after one reference sample. -/
theorem refSample_dst (e : Env) (y x : Int) (s : RowSt) (x1 : Int) :
    (refSample e y x s).dst_row x1 =
      if x1 = x ∧ (refCollect e s.src_rows y x s.radius).sort.length > 1 then
        medianOf (sortedOf (refCollect e s.src_rows y x s.radius).sort)
      else s.dst_row x1 := by
  unfold refSample refStore
  simp only
  by_cases hn : (refCollect e s.src_rows y x s.radius).sort.length > 1 <;>
    by_cases hrec : e.recursive = true <;>
    by_cases hx : x1 = x <;> simp [hn, hrec, hx]

theorem refSample_radius (e : Env) (y x : Int) (s : RowSt) :
    (refSample e y x s).radius =
      adaptRadius e (refCollect e s.src_rows y x s.radius).hist0
        (refCollect e s.src_rows y x s.radius).hist255 s.radius := rfl

/-- The reference loop over `x` writes `dst_row` only at the offsets it visits. -/
theorem refXLoop_dst_frame (e : Env) (y : Int) :
    ∀ (k : Nat) (x0 : Int) (s : RowSt) (x1 : Int), (x1 < x0 ∨ x0 + k ≤ x1) →
      (refXLoop e y k x0 s).dst_row x1 = s.dst_row x1 := by
  intro k
  induction k with
  | zero => intro x0 s x1 _; rfl
  | succ k ih =>
    intro x0 s x1 h
    simp only [refXLoop]
    rw [ih (x0 + 1) _ x1 (by push_cast at h; omega), refSample_dst,
      if_neg (fun hh => by push_cast at h; omega)]

/-- The reference loop over `x` writes the image only at the offsets it visits. -/
theorem refXLoop_src_frame (e : Env) (y : Int) :
    ∀ (k : Nat) (x0 : Int) (s : RowSt) (ty tx : Int), (tx < x0 ∨ x0 + k ≤ tx) →
      (refXLoop e y k x0 s).src_rows ty tx = s.src_rows ty tx := by
  intro k
  induction k with
  | zero => intro x0 s ty tx _; rfl
  | succ k ih =>
    intro x0 s ty tx h
    simp only [refXLoop]
    rw [ih (x0 + 1) _ ty tx (by push_cast at h; omega),
      refSample_frame e y x0 s ty tx (Or.inr (by push_cast at h; omega))]

theorem refRowStep_shadow (e : Env) (y : Int) (st : RState) (yy x : Int) (h : yy ≠ y) :
    (refRowStep e y st).shadow yy x = st.shadow yy x := by
  unfold refRowStep
  simp only
  rw [if_neg (fun hh => h hh.1)]

/-- The reference loop over `y` writes only the shadow rows it visits. -/
theorem refYLoop_shadow_frame (e : Env) :
    ∀ (k : Nat) (y0 : Int) (st : RState) (yy x : Int), (yy < y0 ∨ y0 + k ≤ yy) →
      (refYLoop e k y0 st).shadow yy x = st.shadow yy x := by
  intro k
  induction k with
  | zero => intro y0 st yy x _; rfl
  | succ k ih =>
    intro y0 st yy x h
    simp only [refYLoop]
    rw [ih (y0 + 1) _ yy x (by push_cast at h; omega),
      refRowStep_shadow e y0 st yy x (by push_cast at h; omega)]

theorem refRowStep_cur (e : Env) (y : Int) (st : RState) (ty tx : Int) (h : ty ≠ y) :
    (refRowStep e y st).cur ty tx = st.cur ty tx := by
  unfold refRowStep
  simp only
  split_ifs
  · rw [refXLoop_frame e y ty h]; rfl
  · rfl

/-- Rows the reference loop over `y` has not reached hold the source samples. -/
theorem refYLoop_cur_frame (e : Env) :
    ∀ (k : Nat) (y0 : Int) (st : RState) (ty tx : Int), y0 + k ≤ ty →
      (refYLoop e k y0 st).cur ty tx = st.cur ty tx := by
  intro k
  induction k with
  | zero => intro y0 st ty tx _; rfl
  | succ k ih =>
    intro y0 st ty tx h
    simp only [refYLoop]
    rw [ih (y0 + 1) _ ty tx (by push_cast at h; omega),
      refRowStep_cur e y0 st ty tx (by push_cast at h; omega)]

theorem refStateAtRow_cur (e : Env) (img : Int → Int → Nat) (m : Mem) (y ty tx : Int)
    (h1 : e.sel_y1 ≤ y) (h2 : y ≤ ty) : (refStateAtRow e img m y).cur ty tx = img ty tx := by
  unfold refStateAtRow
  rw [refYLoop_cur_frame e _ _ _ ty tx (by omega)]

/-- The destination entry of a sample not yet visited is the source sample. -/
theorem refStateAtSample_dst (e : Env) (img : Int → Int → Nat) (m : Mem) (y x x1 : Int)
    (h1 : e.sel_y1 ≤ y) (hx0 : 0 ≤ x) (hx1 : x ≤ x1) (hx2 : x1 < e.width) :
    (refStateAtSample e img m y x).dst_row x1 = img y x1 := by
  unfold refStateAtSample
  rw [refXLoop_dst_frame e y _ _ _ x1 (by omega)]
  unfold refRowInit
  simp only
  rw [if_pos ⟨by omega, hx2⟩, refStateAtRow_cur e img m y y x1 h1 (le_refl _)]

/-- The image entry of a sample not yet visited is the source sample. -/
theorem refStateAtSample_src (e : Env) (img : Int → Int → Nat) (m : Mem) (y x ty tx : Int)
    (h1 : e.sel_y1 ≤ y) (h : y < ty ∨ (ty = y ∧ x ≤ tx)) :
    (refStateAtSample e img m y x).src_rows ty tx = img ty tx := by
  unfold refStateAtSample
  rcases h with h | ⟨h, h3⟩
  · rw [refXLoop_frame e y ty (by omega)]
    unfold refRowInit
    simp only
    exact refStateAtRow_cur e img m y ty tx h1 (by omega)
  · rw [refXLoop_src_frame e y _ _ _ ty tx (by omega)]
    unfold refRowInit
    simp only
    exact refStateAtRow_cur e img m y ty tx h1 (by omega)

/-- The final shadow sample in terms of the reference state before that sample. -/
theorem refDespeckle_shadow (e : Env) (img : Int → Int → Nat) (m : Mem) (y x : Int)
    (hy1 : e.sel_y1 ≤ y) (hy2 : y < e.sel_y2) (hx0 : 0 ≤ x) (hx1 : x < e.width) :
    (refDespeckle e img m).shadow y x =
      if interiorRow e y then (refSample e y x (refStateAtSample e img m y x)).dst_row x
      else img y x := by
  have hh : e.sel_height = e.sel_y2 - e.sel_y1 := rfl
  obtain ⟨a, ha⟩ : ∃ a : Nat, (a : Int) = y - e.sel_y1 := ⟨(y - e.sel_y1).toNat, by omega⟩
  obtain ⟨b, hb⟩ : ∃ b : Nat, (b : Int) = e.sel_y2 - y - 1 := ⟨(e.sel_y2 - y - 1).toNat, by omega⟩
  have hk : e.sel_height.toNat = a + (1 + b) := by omega
  have ha2 : (y - e.sel_y1).toNat = a := by omega
  unfold refDespeckle
  rw [hk, refYLoop_split, refYLoop_split]
  have hy : e.sel_y1 + (a : Int) = y := by omega
  rw [hy]
  rw [refYLoop_shadow_frame e b _ _ y x (by left; push_cast; omega)]
  simp only [refYLoop]
  have hrs : refYLoop e a e.sel_y1 ⟨img, m.dst_row, m.shadow, []⟩ = refStateAtRow e img m y := by
    unfold refStateAtRow; rw [ha2]
  rw [hrs]
  unfold refRowStep
  simp only
  rw [if_pos ⟨trivial, hx0, hx1⟩]
  by_cases hint : interiorRow e y
  · rw [if_pos hint, if_pos hint]
    obtain ⟨c, hc⟩ : ∃ c : Nat, (c : Int) = x := ⟨x.toNat, by omega⟩
    obtain ⟨d, hd⟩ : ∃ d : Nat, (d : Int) = e.width - x - 1 := ⟨(e.width - x - 1).toNat, by omega⟩
    have hw : e.width.toNat = c + (1 + d) := by omega
    rw [hw, refXLoop_split, refXLoop_split]
    have hx : (0 : Int) + (c : Int) = x := by omega
    rw [hx, refXLoop_dst_frame e y d _ _ x (by left; push_cast; omega)]
    simp only [refXLoop]
    have hcx : x.toNat = c := by omega
    unfold refStateAtSample
    rw [hcx]
  · rw [if_neg hint, if_neg hint]
    unfold refRowInit
    simp only
    rw [if_pos ⟨hx0, hx1⟩, refStateAtRow_cur e img m y y x hy1 (le_refl _)]

/-! ## Collection counts and sample steps -/

theorem collectPixel_sort (e : Env) (v : Nat) (a : Acc) :
    (collectPixel e v a).sort = if (v : Int) < e.white_level then a.sort ++ [v] else a.sort := by
  unfold collectPixel
  simp only
  split_ifs <;> rfl

theorem collectPixel_hist0 (e : Env) (v : Nat) (a : Acc) :
    (collectPixel e v a).hist0 = if (v : Int) ≤ e.black_level then a.hist0 + 1 else a.hist0 := by
  unfold collectPixel
  simp only
  split_ifs <;> rfl

theorem collectPixel_hist255 (e : Env) (v : Nat) (a : Acc) :
    (collectPixel e v a).hist255 =
      if ¬ (v : Int) ≤ e.black_level ∧ (v : Int) ≥ e.white_level then a.hist255 + 1
      else a.hist255 := by
  unfold collectPixel
  simp only
  split_ifs <;> first | rfl | (exfalso; omega)

/-- The sort set is the window samples below the white level, in scan order. -/
theorem collectList_sort (e : Env) :
    ∀ (vals : List Nat) (a : Acc),
      (collectList e a vals).sort =
        a.sort ++ vals.filter fun (v : Nat) => decide ((v : Int) < e.white_level) := by
  intro vals
  induction vals with
  | nil => intro a; simp [collectList]
  | cons v l ih =>
    intro a
    rw [collectList_cons, ih, collectPixel_sort]
    by_cases h : (v : Int) < e.white_level
    · simp [h, List.filter_cons]
    · simp [h, List.filter_cons]

/-- The counter `hist0` counts the window samples at or below the black level. -/
theorem collectList_hist0 (e : Env) :
    ∀ (vals : List Nat) (a : Acc),
      (collectList e a vals).hist0 =
        a.hist0 + (vals.countP fun (v : Nat) => decide ((v : Int) ≤ e.black_level) : Nat) := by
  intro vals
  induction vals with
  | nil => intro a; simp [collectList]
  | cons v l ih =>
    intro a
    rw [collectList_cons, ih, collectPixel_hist0]
    by_cases h : (v : Int) ≤ e.black_level
    · simp only [h, if_true, List.countP_cons, decide_True]; push_cast; ring
    · simp [h, List.countP_cons]

/-- The counter `hist255` counts the window samples at or above the white level that
were not already counted in `hist0`. -/
theorem collectList_hist255 (e : Env) :
    ∀ (vals : List Nat) (a : Acc),
      (collectList e a vals).hist255 =
        a.hist255 + (vals.countP fun (v : Nat) =>
          decide (¬ (v : Int) ≤ e.black_level ∧ (v : Int) ≥ e.white_level) : Nat) := by
  intro vals
  induction vals with
  | nil => intro a; simp [collectList]
  | cons v l ih =>
    intro a
    rw [collectList_cons, ih, collectPixel_hist255]
    by_cases h : ¬ (v : Int) ≤ e.black_level ∧ (v : Int) ≥ e.white_level
    · simp only [h, if_true, List.countP_cons, decide_True, not_false_eq_true, and_self]
      push_cast; ring
    · rw [if_neg h, List.countP_cons]
      simp only [h, decide_False, Bool.false_eq_true, if_false]
      push_cast; ring

theorem xLoop_succ (e : Env) (row y lasty : Int) :
    ∀ (k : Nat) (x : Int) (s : RowSt),
      xLoop e row y lasty (k + 1) x s =
        (xLoop e row y lasty k x s).bind fun s1 => sampleStep e row y lasty (x + k) s1 := by
  intro k
  induction k with
  | zero =>
    intro x s
    simp only [xLoop, Nat.cast_zero, add_zero, Option.some_bind]
    cases sampleStep e row y lasty x s <;> rfl
  | succ k ih =>
    intro x s
    rw [xLoop]
    cases h : sampleStep e row y lasty x s with
    | none => simp [xLoop, h]
    | some s1 =>
      simp only [Option.some_bind]
      rw [ih (x + 1) s1]
      simp only [xLoop, h, Option.some_bind]
      have : x + 1 + (k : Int) = x + ((k + 1 : Nat) : Int) := by push_cast; ring
      rw [this]

/-- The state at sample `x + 1` is the state at sample `x` after one loop body. -/
theorem stateAtSample_succ (e : Env) (img : Int → Int → Nat) (m : Mem) (y x : Int)
    (hx : 0 ≤ x) (st1 : DState) (s : RowSt)
    (h : stateAtSample e img m y x = some (st1, s)) :
    stateAtSample e img m y (x + 1) =
      (sampleStep e st1.row y st1.lasty x s).bind fun s1 => some (st1, s1) := by
  unfold stateAtSample at h ⊢
  cases h1 : stateAtRow e img m y with
  | none => rw [h1] at h; simp at h
  | some st =>
    rw [h1] at h
    simp only [Option.some_bind] at h ⊢
    cases h2 : loadBlock e img y st with
    | none => rw [h2] at h; simp at h
    | some st2 =>
      rw [h2] at h
      simp only [Option.some_bind] at h ⊢
      cases h3 : rowInit e y st2 with
      | none => rw [h3] at h; simp at h
      | some r0 =>
        rw [h3] at h
        simp only [Option.some_bind] at h ⊢
        have hk : (x + 1).toNat = x.toNat + 1 := by omega
        rw [hk, xLoop_succ]
        cases h4 : xLoop e st2.row y st2.lasty x.toNat 0 r0 with
        | none => rw [h4] at h; simp at h
        | some s2 =>
          rw [h4] at h
          simp only [Option.some_bind, Option.some.injEq, Prod.mk.injEq] at h
          obtain ⟨rfl, rfl⟩ := h
          simp only [Option.some_bind]
          have : (0 : Int) + (x.toNat : Int) = x := by omega
          rw [this]

/-- When at most one sample is collected the loop body changes only the radius. -/
theorem sampleStep_skip (e : Env) (row y lasty x : Int) (s : RowSt) (a : Acc)
    (hc : collect e row y lasty x s = some a) (hn : a.sort.length ≤ 1) :
    sampleStep e row y lasty x s =
      some { s with radius := adaptRadius e a.hist0 a.hist255 s.radius } := by
  unfold sampleStep storeMedian
  rw [hc]
  simp only [Option.some_bind]
  rw [if_neg (by omega)]
  rfl

/-- The radius after the loop body is the adapted radius. -/
theorem sampleStep_radius (e : Env) (row y lasty x : Int) (s s1 : RowSt) (a : Acc)
    (hc : collect e row y lasty x s = some a)
    (h : sampleStep e row y lasty x s = some s1) :
    s1.radius = adaptRadius e a.hist0 a.hist255 s.radius := by
  unfold sampleStep at h
  rw [hc] at h
  simp only [Option.some_bind] at h
  cases h2 : storeMedian e row y lasty x s a with
  | none => rw [h2] at h; simp at h
  | some s2 =>
    rw [h2] at h
    simp only [Option.some_bind, Option.some.injEq] at h
    rw [← h]

/-! ## Every sample of the pass -/

/-- Every interior sample: the code returns, reaches the sample, collects the window of
the current image, and the final shadow sample is the median value of that collection, or
the source sample when at most one sample was collected. -/
theorem sample_master (e : Env) (img : Int → Int → Nat) (m : Mem)
    (hb : 0 < e.img_bpp)
    (hR : 1 ≤ e.despeckle_radius) (hT : 2 * e.despeckle_radius ≤ e.tile_height)
    (y x : Int) (hint : interiorRow e y) (hx0 : 0 ≤ x) (hx1 : x < e.width) :
    ∃ st st1 s a, despeckle e img m = some st ∧
      stateAtSample e img m y x = some (st1, s) ∧
      collect e st1.row y st1.lasty x s = some a ∧
      a = refCollect e (refStateAtSample e img m y x).src_rows y x s.radius ∧
      s.radius = (refStateAtSample e img m y x).radius ∧
      1 ≤ s.radius ∧ s.radius ≤ e.despeckle_radius ∧
      s.dst_row x = img y x ∧
      st.shadow y x = (if a.sort.length > 1 then medianOf (sortedOf a.sort) else img y x) := by
  have hm : e.max_row = 2 * e.tile_height := rfl
  have hh : e.sel_height = e.sel_y2 - e.sel_y1 := rfl
  obtain ⟨i1, i2⟩ := id hint
  obtain ⟨st, hd, hinv⟩ := despeckle_sim e img m hb (by omega) (by omega) hR hT
  obtain ⟨st1, s, hs, hrel, b1, b2, w1, w2⟩ :=
    stateAtSample_sim e img m hb hR hT y x hint hx0 (by omega)
  have hc := collect_eq e (refStateAtSample e img m y x).src_rows st1.row y st1.lasty x s hb hx0
    (by omega) (by omega) (fun ty h1 h2 => hrel.2.2 ty (by omega) (by omega))
  have hdst : s.dst_row x = img y x := by
    rw [hrel.1]; exact refStateAtSample_dst e img m y x x (by omega) hx0 (le_refl _) hx1
  refine ⟨st, st1, s, _, hd, hs, hc, rfl, hrel.2.1, b1, b2, hdst, ?_⟩
  rw [hinv.2.2.1, refDespeckle_shadow e img m y x (by omega) (by omega) hx0 hx1, if_pos hint,
    refSample_dst, ← hrel.2.1, ← hrel.1, hdst]
  simp only [true_and]

/-- Every sample of a border row is the source sample. -/
theorem border_master (e : Env) (img : Int → Int → Nat) (m : Mem)
    (hb : 0 < e.img_bpp) (hw : 0 ≤ e.width) (hH : 0 ≤ e.sel_height)
    (hR : 1 ≤ e.despeckle_radius) (hT : 2 * e.despeckle_radius ≤ e.tile_height) :
    ∃ st, despeckle e img m = some st ∧
      ∀ y x, e.sel_y1 ≤ y → y < e.sel_y2 → ¬ interiorRow e y → 0 ≤ x → x < e.width →
        st.shadow y x = img y x := by
  obtain ⟨st, hd, hinv⟩ := despeckle_sim e img m hb hw hH hR hT
  refine ⟨st, hd, ?_⟩
  intro y x h1 h2 h3 h4 h5
  rw [hinv.2.2.1, refDespeckle_shadow e img m y x h1 h2 h4 h5, if_neg h3]

theorem refSample_src_plain (e : Env) (y x : Int) (s : RowSt) (h : e.recursive = false) :
    (refSample e y x s).src_rows = s.src_rows := by
  unfold refSample refStore
  simp only [h]
  split_ifs <;> first | rfl | contradiction

theorem refXLoop_src_plain (e : Env) (y : Int) (h : e.recursive = false) :
    ∀ (k : Nat) (x : Int) (s : RowSt), (refXLoop e y k x s).src_rows = s.src_rows := by
  intro k
  induction k with
  | zero => intro x s; rfl
  | succ k ih => intro x s; simp only [refXLoop]; rw [ih, refSample_src_plain e y x s h]

theorem refYLoop_cur_plain (e : Env) (h : e.recursive = false) :
    ∀ (k : Nat) (y : Int) (st : RState), (refYLoop e k y st).cur = st.cur := by
  intro k
  induction k with
  | zero => intro y st; rfl
  | succ k ih =>
    intro y st
    simp only [refYLoop]
    rw [ih]
    unfold refRowStep
    simp only
    split_ifs
    · rw [refXLoop_src_plain e y h]; rfl
    · rfl

theorem refStateAtSample_src_plain (e : Env) (img : Int → Int → Nat) (m : Mem) (y x : Int)
    (h : e.recursive = false) : (refStateAtSample e img m y x).src_rows = img := by
  unfold refStateAtSample
  rw [refXLoop_src_plain e y h]
  unfold refRowInit refStateAtRow
  simp only
  rw [refYLoop_cur_plain e h]

theorem adaptRadius_plain (e : Env) (h0 h255 r : Int) (h : e.adaptive = false) :
    adaptRadius e h0 h255 r = r := by
  unfold adaptRadius
  simp [h]

theorem refXLoop_radius_plain (e : Env) (y : Int) (h : e.adaptive = false) :
    ∀ (k : Nat) (x : Int) (s : RowSt), (refXLoop e y k x s).radius = s.radius := by
  intro k
  induction k with
  | zero => intro x s; rfl
  | succ k ih =>
    intro x s
    simp only [refXLoop]
    rw [ih, refSample_radius, adaptRadius_plain e _ _ _ h]

theorem refStateAtSample_radius_plain (e : Env) (img : Int → Int → Nat) (m : Mem) (y x : Int)
    (h : e.adaptive = false) : (refStateAtSample e img m y x).radius = e.despeckle_radius := by
  unfold refStateAtSample
  rw [refXLoop_radius_plain e y h]
  rfl

/-- With the recursive and adaptive modes off, the output is `pointValue` everywhere. -/
theorem despeckle_plain (e : Env) (img : Int → Int → Nat) (m : Mem)
    (hb : 0 < e.img_bpp) (hw : 0 ≤ e.width) (hH : 0 ≤ e.sel_height)
    (hR : 1 ≤ e.despeckle_radius) (hT : 2 * e.despeckle_radius ≤ e.tile_height)
    (hrec : e.recursive = false) (hada : e.adaptive = false) :
    ∃ st, despeckle e img m = some st ∧
      ∀ y x, e.sel_y1 ≤ y → y < e.sel_y2 → 0 ≤ x → x < e.width →
        st.shadow y x = pointValue e img y x := by
  obtain ⟨st, hd, hbord⟩ := border_master e img m hb hw hH hR hT
  refine ⟨st, hd, ?_⟩
  intro y x h1 h2 h3 h4
  unfold pointValue
  by_cases hint : interiorRow e y
  · rw [if_pos hint]
    obtain ⟨st2, st1, s, a, hd2, _, _, ha, hrad, _, _, _, hsh⟩ :=
      sample_master e img m hb hR hT y x hint h3 h4
    rw [hd] at hd2
    obtain rfl := Option.some.inj hd2
    rw [refStateAtSample_src_plain e img m y x hrec, hrad,
      refStateAtSample_radius_plain e img m y x hada] at ha
    rw [hsh, ha]
  · rw [if_neg hint]
    exact hbord y x h1 h2 hint h3 h4

/-! ## Plane-constant images -/

theorem winXmin_emod (e : Env) (x r : Int) (hb : 0 < e.img_bpp) (hx : 0 ≤ x) :
    winXmin e x r % e.img_bpp = x % e.img_bpp := by
  unfold winXmin
  split
  · rw [Int.tmod_eq_emod hx (by omega), Int.emod_emod]
  · have : x - r * e.img_bpp = x + e.img_bpp * (-r) := by ring
    rw [this, Int.add_mul_emod_self_left]

/-- The window offsets lie in the row and in the channel of `x`. -/
theorem windowCols_mem (e : Env) (x r tx : Int) (hb : 0 < e.img_bpp) (hx : 0 ≤ x)
    (h : tx ∈ windowCols e x r) :
    0 ≤ tx ∧ tx < e.width ∧ tx % e.img_bpp = x % e.img_bpp := by
  unfold windowCols at h
  obtain ⟨h1, h2, h3⟩ := colsFrom_mem e.img_bpp hb _ _ _ tx (le_refl _) h
  have h4 := winXmin_nonneg e x r hb hx
  have h5 := winXmax_le e x r
  refine ⟨by omega, by omega, ?_⟩
  rw [← winXmin_emod e x r hb hx]
  exact (Int.emod_eq_emod_iff_emod_sub_eq_zero).2 h3

theorem windowRows_mem (y r ty : Int) (h : ty ∈ windowRows y r) :
    y - r ≤ ty ∧ ty ≤ y + r := by
  unfold windowRows at h
  obtain ⟨k, hk, rfl⟩ := List.mem_map.1 h
  have := List.mem_range.1 hk
  omega

theorem windowVals_mem (e : Env) (cur : Int → Int → Nat) (y x r : Int) (v : Nat)
    (h : v ∈ windowVals e cur y x r) :
    ∃ ty tx, ty ∈ windowRows y r ∧ tx ∈ windowCols e x r ∧ v = cur ty tx := by
  unfold windowVals at h
  obtain ⟨ty, h1, h2⟩ := List.mem_flatMap.1 h
  obtain ⟨tx, h3, h4⟩ := List.mem_map.1 h2
  exact ⟨ty, tx, h1, h3, h4.symm⟩

theorem refCollect_sort (e : Env) (cur : Int → Int → Nat) (y x r : Int) :
    (refCollect e cur y x r).sort =
      (windowVals e cur y x r).filter fun (v : Nat) => decide ((v : Int) < e.white_level) := by
  unfold refCollect
  rw [collectList_sort]
  rfl

/-- On a plane-constant image every collected value is the plane value of the sample. -/
theorem refCollect_const (e : Env) (cur : Int → Int → Nat) (plane : Int → Nat)
    (y x r : Int) (hb : 0 < e.img_bpp) (hx : 0 ≤ x) (hr : r ≤ e.despeckle_radius)
    (hint : interiorRow e y) (hU : PlaneConst e cur plane) :
    ∀ v ∈ (refCollect e cur y x r).sort,
      v = plane (x % e.img_bpp) ∧ (v : Int) < e.white_level := by
  intro v hv
  rw [refCollect_sort] at hv
  obtain ⟨h1, h2⟩ := List.mem_filter.1 hv
  obtain ⟨ty, tx, h3, h4, h5⟩ := windowVals_mem e cur y x r v h1
  obtain ⟨r1, r2⟩ := windowRows_mem y r ty h3
  obtain ⟨c1, c2, c3⟩ := windowCols_mem e x r tx hb hx h4
  obtain ⟨i1, i2⟩ := hint
  refine ⟨?_, by simpa using h2⟩
  rw [h5, hU ty tx (by omega) (by omega) c1 c2, c3]

theorem entry_mem (s : List Nat) (p : Nat) (h : p < s.length) : entry s p ∈ s := by
  have h1 := entry_eq s p h
  rw [List.getElem?_eq_getElem h] at h1
  have h2 : s[p] = entry s p := Option.some.inj h1
  rw [← h2]; exact List.getElem_mem h

/-- The median value of a scratch array whose entries all equal `c`. -/
theorem medianOf_const (l : List Nat) (c : Nat) (hc : c < 256) (hl : 1 < l.length)
    (h : ∀ v ∈ l, v = c) : medianOf (sortedOf l) = c := by
  have hlen := sortedOf_length l
  have hmem : ∀ p, p < l.length → entry (sortedOf l) p = c := by
    intro p hp
    have h1 := entry_mem (sortedOf l) p (by omega)
    exact h _ ((List.perm_insertionSort _ l).mem_iff.1 h1)
  unfold medianOf
  rw [hlen]
  split
  · rw [hmem _ (by omega), hmem _ (by omega)]; omega
  · exact hmem _ (by omega)

/-- One reference sample keeps a plane-constant image and destination row. -/
theorem refSample_const (e : Env) (plane : Int → Nat) (y x : Int) (s : RowSt)
    (hb : 0 < e.img_bpp) (hx0 : 0 ≤ x)
    (hwl : e.white_level ≤ 256) (hint : interiorRow e y)
    (hr : s.radius ≤ e.despeckle_radius)
    (hU : PlaneConst e s.src_rows plane)
    (hD : ∀ tx, 0 ≤ tx → tx < e.width → s.dst_row tx = plane (tx % e.img_bpp)) :
    PlaneConst e (refSample e y x s).src_rows plane ∧
      ∀ tx, 0 ≤ tx → tx < e.width → (refSample e y x s).dst_row tx = plane (tx % e.img_bpp) := by
  have hall := refCollect_const e s.src_rows plane y x s.radius hb hx0 hr hint hU
  have hmed : (refCollect e s.src_rows y x s.radius).sort.length > 1 →
      medianOf (sortedOf (refCollect e s.src_rows y x s.radius).sort) = plane (x % e.img_bpp) := by
    intro hn
    have hpos : 0 < (refCollect e s.src_rows y x s.radius).sort.length := by omega
    obtain ⟨v, hv⟩ := List.exists_mem_of_length_pos hpos
    obtain ⟨h1, h2⟩ := hall v hv
    apply medianOf_const _ _ (by rw [← h1]; omega) hn
    intro w hw; exact (hall w hw).1
  constructor
  · intro ty tx t1 t2 t3 t4
    unfold refSample refStore
    simp only
    by_cases hn : (refCollect e s.src_rows y x s.radius).sort.length > 1
    · rw [if_pos hn]
      by_cases hrec : e.recursive = true
      · rw [if_pos hrec]
        simp only
        by_cases hp : ty = y ∧ tx = x
        · rw [if_pos hp, hmed hn, hp.2]
        · rw [if_neg hp]; exact hU ty tx t1 t2 t3 t4
      · rw [if_neg hrec]; exact hU ty tx t1 t2 t3 t4
    · rw [if_neg hn]; exact hU ty tx t1 t2 t3 t4
  · intro tx t3 t4
    rw [refSample_dst]
    by_cases hp : tx = x ∧ (refCollect e s.src_rows y x s.radius).sort.length > 1
    · rw [if_pos hp, hmed hp.2, hp.1]
    · rw [if_neg hp]; exact hD tx t3 t4

theorem refXLoop_const (e : Env) (plane : Int → Nat) (y : Int)
    (hb : 0 < e.img_bpp) (hwl : e.white_level ≤ 256) (hint : interiorRow e y) :
    ∀ (k : Nat) (x : Int) (s : RowSt), 0 ≤ x → x + k ≤ e.width →
      1 ≤ s.radius → s.radius ≤ e.despeckle_radius →
      PlaneConst e s.src_rows plane →
      (∀ tx, 0 ≤ tx → tx < e.width → s.dst_row tx = plane (tx % e.img_bpp)) →
      PlaneConst e (refXLoop e y k x s).src_rows plane ∧
        ∀ tx, 0 ≤ tx → tx < e.width →
          (refXLoop e y k x s).dst_row tx = plane (tx % e.img_bpp) := by
  intro k
  induction k with
  | zero => intro x s _ _ _ _ hU hD; exact ⟨hU, hD⟩
  | succ k ih =>
    intro x s hx hxk h1 h2 hU hD
    obtain ⟨a, b⟩ := refSample_const e plane y x s hb hx hwl hint
      h2 hU hD
    have hb2 := adaptRadius_bounds e (refCollect e s.src_rows y x s.radius).hist0
      (refCollect e s.src_rows y x s.radius).hist255 s.radius h1 h2
    simp only [refXLoop]
    exact ih (x + 1) _ (by omega) (by push_cast at hxk; omega)
      (by rw [refSample_radius]; exact hb2.1) (by rw [refSample_radius]; exact hb2.2) a b

theorem refRowStep_const (e : Env) (plane : Int → Nat) (y : Int) (st : RState)
    (hb : 0 < e.img_bpp) (hw : 0 ≤ e.width) (hwl : e.white_level ≤ 256)
    (hR : 1 ≤ e.despeckle_radius)
    (hy1 : e.sel_y1 ≤ y) (hy2 : y < e.sel_y2)
    (hU : PlaneConst e st.cur plane)
    (hS : ∀ yy x, e.sel_y1 ≤ yy → yy < y → 0 ≤ x → x < e.width →
      st.shadow yy x = plane (x % e.img_bpp)) :
    PlaneConst e (refRowStep e y st).cur plane ∧
      ∀ yy x, e.sel_y1 ≤ yy → yy < y + 1 → 0 ≤ x → x < e.width →
        (refRowStep e y st).shadow yy x = plane (x % e.img_bpp) := by
  have hD0 : ∀ tx, 0 ≤ tx → tx < e.width →
      (refRowInit e y st).dst_row tx = plane (tx % e.img_bpp) := by
    intro tx t1 t2
    unfold refRowInit
    simp only
    rw [if_pos ⟨t1, t2⟩]; exact hU y tx hy1 hy2 t1 t2
  have key : PlaneConst e (if interiorRow e y then
        refXLoop e y e.width.toNat 0 (refRowInit e y st) else refRowInit e y st).src_rows plane ∧
      ∀ tx, 0 ≤ tx → tx < e.width →
        (if interiorRow e y then refXLoop e y e.width.toNat 0 (refRowInit e y st)
          else refRowInit e y st).dst_row tx = plane (tx % e.img_bpp) := by
    by_cases hint : interiorRow e y
    · rw [if_pos hint]
      exact refXLoop_const e plane y hb hwl hint e.width.toNat 0 _ (le_refl _) (by omega)
        hR (le_refl _) hU hD0
    · rw [if_neg hint]; exact ⟨hU, hD0⟩
  unfold refRowStep
  simp only
  refine ⟨key.1, ?_⟩
  intro yy x h1 h2 h3 h4
  by_cases hyy : yy = y
  · rw [if_pos ⟨hyy, h3, h4⟩]; exact key.2 x h3 h4
  · rw [if_neg (fun h => hyy h.1)]; exact hS yy x h1 (by omega) h3 h4

theorem refYLoop_const (e : Env) (plane : Int → Nat)
    (hb : 0 < e.img_bpp) (hw : 0 ≤ e.width) (hwl : e.white_level ≤ 256)
    (hR : 1 ≤ e.despeckle_radius) :
    ∀ (k : Nat) (y : Int) (st : RState), e.sel_y1 ≤ y → y + k ≤ e.sel_y2 →
      PlaneConst e st.cur plane →
      (∀ yy x, e.sel_y1 ≤ yy → yy < y → 0 ≤ x → x < e.width →
        st.shadow yy x = plane (x % e.img_bpp)) →
      ∀ yy x, e.sel_y1 ≤ yy → yy < y + k → 0 ≤ x → x < e.width →
        (refYLoop e k y st).shadow yy x = plane (x % e.img_bpp) := by
  intro k
  induction k with
  | zero => intro y st _ _ _ hS yy x h1 h2 h3 h4; exact hS yy x h1 (by simpa using h2) h3 h4
  | succ k ih =>
    intro y st hy1 hy2 hU hS yy x h1 h2 h3 h4
    obtain ⟨a, b⟩ := refRowStep_const e plane y st hb hw hwl hR hy1
      (by push_cast at hy2; omega) hU hS
    simp only [refYLoop]
    exact ih (y + 1) _ (by omega) (by push_cast at hy2; omega) a b yy x h1
      (by push_cast at h2; omega) h3 h4

/-- A plane-constant image is a fixed point of the filter, in every mode. -/
theorem despeckle_const (e : Env) (img : Int → Int → Nat) (m : Mem) (plane : Int → Nat)
    (hb : 0 < e.img_bpp) (hw : 0 ≤ e.width) (hH : 0 ≤ e.sel_height)
    (hR : 1 ≤ e.despeckle_radius) (hT : 2 * e.despeckle_radius ≤ e.tile_height)
    (hwl : e.white_level ≤ 256) (hU : PlaneConst e img plane) :
    ∃ st, despeckle e img m = some st ∧
      ∀ y x, e.sel_y1 ≤ y → y < e.sel_y2 → 0 ≤ x → x < e.width →
        st.shadow y x = img y x := by
  have hh : e.sel_height = e.sel_y2 - e.sel_y1 := rfl
  obtain ⟨st, hd, hinv⟩ := despeckle_sim e img m hb hw hH hR hT
  refine ⟨st, hd, ?_⟩
  intro y x h1 h2 h3 h4
  rw [hinv.2.2.1, hU y x h1 h2 h3 h4]
  unfold refDespeckle
  exact refYLoop_const e plane hb hw hwl hR e.sel_height.toNat e.sel_y1 _ (le_refl _)
    (by omega) hU (by intro yy x a b; omega) y x h1 (by omega) h3 h4

/-- Every interior sample: the loop body returns, and leads to the state of the next
sample with the adapted radius. -/
theorem sample_next (e : Env) (img : Int → Int → Nat) (m : Mem)
    (hb : 0 < e.img_bpp)
    (hR : 1 ≤ e.despeckle_radius) (hT : 2 * e.despeckle_radius ≤ e.tile_height)
    (y x : Int) (hint : interiorRow e y) (hx0 : 0 ≤ x) (hx1 : x < e.width) :
    ∃ st1 s a s1, stateAtSample e img m y x = some (st1, s) ∧
      collect e st1.row y st1.lasty x s = some a ∧
      sampleStep e st1.row y st1.lasty x s = some s1 ∧
      stateAtSample e img m y (x + 1) = some (st1, s1) ∧
      s1.radius = adaptRadius e a.hist0 a.hist255 s.radius ∧
      1 ≤ s.radius ∧ s.radius ≤ e.despeckle_radius ∧
      s.radius = (refStateAtSample e img m y x).radius := by
  have hm : e.max_row = 2 * e.tile_height := rfl
  obtain ⟨st1, s, hs, hrel, b1, b2, w1, w2⟩ :=
    stateAtSample_sim e img m hb hR hT y x hint hx0 (by omega)
  have hc := collect_eq e (refStateAtSample e img m y x).src_rows st1.row y st1.lasty x s hb hx0
    (by omega) (by omega) (fun ty h1 h2 => hrel.2.2 ty (by omega) (by omega))
  obtain ⟨s1, h1, _⟩ := sampleStep_sim e st1.row y st1.lasty _ _ x s _ hb hx0 (by omega)
    (by omega) (by omega) (by omega) (by omega) hrel
  refine ⟨st1, s, _, s1, hs, hc, h1, ?_, sampleStep_radius e _ _ _ _ s s1 _ hc h1, b1, b2,
    hrel.2.1⟩
  rw [stateAtSample_succ e img m y x hx0 st1 s hs, h1]
  rfl

/-! ## 8-bit images -/

theorem entry_lt (s : List Nat) (p : Nat) (h : ∀ v ∈ s, v < 256) : entry s p < 256 := by
  by_cases hp : p < s.length
  · exact h _ (entry_mem s p hp)
  · unfold entry
    rw [List.getElem?_eq_none (by omega)]
    decide

theorem refCollect_byte (e : Env) (cur : Int → Int → Nat) (y x r : Int) (h : ByteImage cur) :
    ∀ v ∈ (refCollect e cur y x r).sort, v < 256 := by
  intro v hv
  rw [refCollect_sort] at hv
  obtain ⟨ty, tx, _, _, h5⟩ := windowVals_mem e cur y x r v (List.mem_filter.1 hv).1
  rw [h5]; exact h ty tx

theorem medianOf_byte (l : List Nat) (h : ∀ v ∈ l, v < 256) : medianOf (sortedOf l) < 256 := by
  have hs : ∀ v ∈ sortedOf l, v < 256 := fun v hv =>
    h v ((List.perm_insertionSort _ l).mem_iff.1 hv)
  unfold medianOf
  split
  · exact Nat.mod_lt _ (by decide)
  · exact entry_lt _ _ hs

theorem refSample_byte (e : Env) (y x : Int) (s : RowSt) (h : ByteImage s.src_rows) :
    ByteImage (refSample e y x s).src_rows := by
  intro ty tx
  unfold refSample refStore
  simp only
  split_ifs
  · simp only
    split_ifs
    · exact medianOf_byte _ (refCollect_byte e s.src_rows y x s.radius h)
    · exact h ty tx
  · exact h ty tx
  · exact h ty tx

theorem refXLoop_byte (e : Env) (y : Int) :
    ∀ (k : Nat) (x : Int) (s : RowSt), ByteImage s.src_rows →
      ByteImage (refXLoop e y k x s).src_rows := by
  intro k
  induction k with
  | zero => intro x s h; exact h
  | succ k ih => intro x s h; simp only [refXLoop]; exact ih _ _ (refSample_byte e y x s h)

theorem refRowStep_byte (e : Env) (y : Int) (st : RState) (h : ByteImage st.cur) :
    ByteImage (refRowStep e y st).cur := by
  unfold refRowStep
  simp only
  split_ifs
  · exact refXLoop_byte e y _ _ _ h
  · exact h

theorem refYLoop_byte (e : Env) :
    ∀ (k : Nat) (y : Int) (st : RState), ByteImage st.cur →
      ByteImage (refYLoop e k y st).cur := by
  intro k
  induction k with
  | zero => intro y st h; exact h
  | succ k ih => intro y st h; simp only [refYLoop]; exact ih _ _ (refRowStep_byte e y st h)

/-- On an 8-bit image the current image stays 8-bit at every sample. -/
theorem refStateAtSample_byte (e : Env) (img : Int → Int → Nat) (m : Mem) (y x : Int)
    (h : ByteImage img) : ByteImage (refStateAtSample e img m y x).src_rows := by
  unfold refStateAtSample
  apply refXLoop_byte
  unfold refRowInit refStateAtRow
  simp only
  exact refYLoop_byte e _ _ _ h

/-! ## Properties of `despeckle()` -/

theorem example_pointValue :
    ∀ k j : Fin 7, pointValue (exampleEnv 2) exampleImg ((k : Nat) : Int) ((j : Nat) : Int) = 100 := by
  decide

/-- C1 (end-to-end example): on the 7 x 7 one-channel image that is 100 everywhere except
`(3, 3) = 255`, with radius 1, adaptive and recursive off, black level 0, white level 255
and any tile height `T >= 2`, `despeckle()` returns; the output sample at `(3, 3)` is 100,
and every sample of the output is 100, so every sample other than `(3, 3)` is unchanged. -/
theorem c1_end_to_end_example (T : Int) (hT : 2 ≤ T) (m : Mem) :
    ∃ st, despeckle (exampleEnv T) exampleImg m = some st ∧ st.shadow 3 3 = 100 ∧
      ∀ y x : Int, 0 ≤ y → y < 7 → 0 ≤ x → x < 7 →
        st.shadow y x = 100 ∧ (¬ (y = 3 ∧ x = 3) → st.shadow y x = exampleImg y x) := by
  obtain ⟨st, hd, hp⟩ := despeckle_plain (exampleEnv T) exampleImg m
    (by show (0 : Int) < 1; decide) (by show (0 : Int) ≤ 7 * 1; decide)
    (by show (0 : Int) ≤ 7 - 0; decide) (by show (1 : Int) ≤ 1; decide)
    (by show 2 * 1 ≤ T; omega) rfl rfl
  have hall : ∀ y x : Int, 0 ≤ y → y < 7 → 0 ≤ x → x < 7 → st.shadow y x = 100 := by
    intro y x h1 h2 h3 h4
    rw [hp y x h1 h2 h3 h4]
    obtain ⟨k, rfl⟩ : ∃ k : Fin 7, y = ((k : Nat) : Int) := ⟨⟨y.toNat, by omega⟩, by simp; omega⟩
    obtain ⟨j, rfl⟩ : ∃ j : Fin 7, x = ((j : Nat) : Int) := ⟨⟨x.toNat, by omega⟩, by simp; omega⟩
    exact example_pointValue k j
  refine ⟨st, hd, hall 3 3 (by decide) (by decide) (by decide) (by decide), ?_⟩
  intro y x h1 h2 h3 h4
  refine ⟨hall y x h1 h2 h3 h4, ?_⟩
  intro hne
  rw [hall y x h1 h2 h3 h4]
  unfold exampleImg
  rw [if_neg hne]

/-- Witness of C1 at tile height 64 and zeroed memory. -/
theorem c1_end_to_end_example_witness :
    (2 : Int) ≤ 64 ∧
      ∃ st, despeckle (exampleEnv 64) exampleImg zeroMem = some st ∧ st.shadow 3 3 = 100 ∧
        ∀ y x : Int, 0 ≤ y → y < 7 → 0 ≤ x → x < 7 →
          st.shadow y x = 100 ∧ (¬ (y = 3 ∧ x = 3) → st.shadow y x = exampleImg y x) :=
  ⟨by decide, c1_end_to_end_example 64 (by decide) zeroMem⟩

/-- With the recursive and adaptive modes off, the collection of an interior sample is
the reference collection over the source image at the configured radius. -/
theorem sample_plain (e : Env) (img : Int → Int → Nat) (m : Mem)
    (hb : 0 < e.img_bpp)
    (hR : 1 ≤ e.despeckle_radius) (hT : 2 * e.despeckle_radius ≤ e.tile_height)
    (hrec : e.recursive = false) (hada : e.adaptive = false)
    (y x : Int) (hint : interiorRow e y) (hx0 : 0 ≤ x) (hx1 : x < e.width) :
    ∃ st st1 s a, despeckle e img m = some st ∧
      stateAtSample e img m y x = some (st1, s) ∧
      collect e st1.row y st1.lasty x s = some a ∧
      a = refCollect e img y x e.despeckle_radius ∧
      st.shadow y x = pointValue e img y x := by
  obtain ⟨st, st1, s, a, hd, hs, hc, ha, hrad, _, _, _, hsh⟩ :=
    sample_master e img m hb hR hT y x hint hx0 hx1
  rw [refStateAtSample_src_plain e img m y x hrec, hrad,
    refStateAtSample_radius_plain e img m y x hada] at ha
  refine ⟨st, st1, s, a, hd, hs, hc, ha, ?_⟩
  rw [hsh, ha]
  unfold pointValue
  rw [if_pos hint]

theorem small_center_collect :
    (refCollect smallEnv smallImg 1 1 smallEnv.despeckle_radius).sort
      = [0, 0, 10, 10, 7, 10, 0, 0, 10] := by
  decide

theorem small_center_value : pointValue smallEnv smallImg 1 1 = 8 := by decide

theorem small_left_collect :
    (refCollect smallEnv smallImg 1 0 smallEnv.despeckle_radius).sort
      = [0, 0, 10, 7, 0, 0] := by
  decide

theorem small_left_value : pointValue smallEnv smallImg 1 0 = 0 := by decide

/-- C2, divergence of the code from the median it documents ("Assign the median
value"): on the 3 x 3 image `smallImg` with radius 1, the sample `(1, 1)` collects the
nine values `0 0 10 10 7 10 0 0 10`; the count is odd, the median is the middle element
`sorted[4] = 7`, which is also what the rule as specified gives, and `despeckle()`
writes `(sorted[4] + sorted[5]) / 2 = (7 + 10) / 2 = 8`: the averaging branch is taken on
`sort_count & 1`, the odd counts.  The sample `(1, 0)` collects the six values
`0 0 10 7 0 0`; the count is even, the rule as specified averages
`(sorted[3] + sorted[4]) / 2 = (0 + 7) / 2 = 3`, and `despeckle()` takes no average and
writes `sorted[3] = 0`. -/
theorem c2_median_rule_divergence :
    ∃ st, despeckle smallEnv smallImg zeroMem = some st ∧
      (∃ st1 s a, stateAtSample smallEnv smallImg zeroMem 1 1 = some (st1, s) ∧
        collect smallEnv st1.row 1 st1.lasty 1 s = some a ∧
        a.sort = [0, 0, 10, 10, 7, 10, 0, 0, 10] ∧
        sortedOf a.sort = [0, 0, 0, 0, 7, 10, 10, 10, 10] ∧
        (sortedOf a.sort)[a.sort.length / 2]? = some 7 ∧
        specMedianRule (sortedOf a.sort) = some 7 ∧
        st.shadow 1 1 = 8) ∧
      (∃ st1 s a, stateAtSample smallEnv smallImg zeroMem 1 0 = some (st1, s) ∧
        collect smallEnv st1.row 1 st1.lasty 0 s = some a ∧
        a.sort = [0, 0, 10, 7, 0, 0] ∧
        sortedOf a.sort = [0, 0, 0, 0, 7, 10] ∧
        specMedianRule (sortedOf a.sort) = some 3 ∧
        st.shadow 1 0 = 0) := by
  obtain ⟨st, st1, s, a, hd, hs, hc, ha, hsh⟩ :=
    sample_plain smallEnv smallImg zeroMem (by decide) (by decide) (by decide) rfl rfl 1 1
      (by decide) (by decide) (by decide)
  obtain ⟨st2, st3, s3, a3, hd3, hs3, hc3, ha3, hsh3⟩ :=
    sample_plain smallEnv smallImg zeroMem (by decide) (by decide) (by decide) rfl rfl 1 0
      (by decide) (by decide) (by decide)
  rw [hd] at hd3
  obtain rfl := Option.some.inj hd3
  have hsort : a.sort = [0, 0, 10, 10, 7, 10, 0, 0, 10] := by
    rw [ha]; exact small_center_collect
  have hsort3 : a3.sort = [0, 0, 10, 7, 0, 0] := by
    rw [ha3]; exact small_left_collect
  refine ⟨st, hd, ⟨st1, s, a, hs, hc, hsort, ?_, ?_, ?_, ?_⟩,
    ⟨st3, s3, a3, hs3, hc3, hsort3, ?_, ?_, ?_⟩⟩
  · rw [hsort]; decide
  · rw [hsort]; decide
  · rw [hsort]; decide
  · rw [hsh]; exact small_center_value
  · rw [hsort3]; decide
  · rw [hsort3]; decide
  · rw [hsh3]; exact small_left_value

theorem smallImg_byte : ∀ ty tx, smallImg ty tx < 256 := by
  intro ty tx
  unfold smallImg
  split_ifs <;> decide

theorem width_nonneg (e : Env) (hb : 1 ≤ e.img_bpp) (hw : 0 ≤ e.sel_width) : 0 ≤ e.width := by
  unfold Env.width
  exact Int.mul_nonneg hw (by omega)

/-- C3 (border rows): for every image, every radius of at least 1, all levels and flags,
and a tile height of at least twice the radius, `despeckle()` returns and every output
row within `radius` rows of the top or of the bottom of the selection is identical to the
source row. -/
theorem c3_border_rows (e : Env) (img : Int → Int → Nat) (m : Mem)
    (hb : 1 ≤ e.img_bpp) (hw : 0 ≤ e.sel_width) (hH : 0 ≤ e.sel_height)
    (hR : 1 ≤ e.despeckle_radius) (hT : 2 * e.despeckle_radius ≤ e.tile_height) :
    ∃ st, despeckle e img m = some st ∧
      ∀ y, e.sel_y1 ≤ y → y < e.sel_y2 →
        (y < e.sel_y1 + e.despeckle_radius ∨ e.sel_y2 - e.despeckle_radius ≤ y) →
        ∀ x, 0 ≤ x → x < e.width → st.shadow y x = img y x := by
  obtain ⟨st, hd, hbord⟩ := border_master e img m (by omega) (width_nonneg e hb hw) hH hR hT
  refine ⟨st, hd, ?_⟩
  intro y h1 h2 h3 x h4 h5
  apply hbord y x h1 h2 _ h4 h5
  intro hint
  obtain ⟨i1, i2⟩ := hint
  omega

/-- Witness of C3 on the adaptive, recursive 5 x 8 selection of radius 2. -/
theorem c3_border_rows_witness :
    ((1 : Int) ≤ adaptiveEnv.img_bpp ∧ 0 ≤ adaptiveEnv.sel_width ∧
      0 ≤ adaptiveEnv.sel_height ∧ 1 ≤ adaptiveEnv.despeckle_radius ∧
      2 * adaptiveEnv.despeckle_radius ≤ adaptiveEnv.tile_height) ∧
    ∃ st, despeckle adaptiveEnv exampleImg zeroMem = some st ∧
      ∀ y, adaptiveEnv.sel_y1 ≤ y → y < adaptiveEnv.sel_y2 →
        (y < adaptiveEnv.sel_y1 + adaptiveEnv.despeckle_radius ∨
          adaptiveEnv.sel_y2 - adaptiveEnv.despeckle_radius ≤ y) →
        ∀ x, 0 ≤ x → x < adaptiveEnv.width → st.shadow y x = exampleImg y x :=
  ⟨⟨by decide, by decide, by decide, by decide, by decide⟩,
    c3_border_rows adaptiveEnv exampleImg zeroMem (by decide) (by decide) (by decide)
      (by decide) (by decide)⟩

/-- C5 (uniform input): when every sample of each channel plane of the image has the same
value (`plane c` for channel `c`), then for every radius of at least 1, every black level,
every white level up to 255, every combination of the adaptive and recursive flags and a
tile height of at least twice the radius, `despeckle()` returns and its output is
identical to the input. -/
theorem c5_uniform_input (e : Env) (img : Int → Int → Nat) (m : Mem) (plane : Int → Nat)
    (hb : 1 ≤ e.img_bpp) (hw : 0 ≤ e.sel_width) (hH : 0 ≤ e.sel_height)
    (hR : 1 ≤ e.despeckle_radius) (hT : 2 * e.despeckle_radius ≤ e.tile_height)
    (hwl : e.white_level ≤ 255)
    (hU : ∀ y x, e.sel_y1 ≤ y → y < e.sel_y2 → 0 ≤ x → x < e.width →
      img y x = plane (x % e.img_bpp)) :
    ∃ st, despeckle e img m = some st ∧
      ∀ y x, e.sel_y1 ≤ y → y < e.sel_y2 → 0 ≤ x → x < e.width →
        st.shadow y x = img y x :=
  despeckle_const e img m plane (by omega) (width_nonneg e hb hw) hH hR hT (by omega) hU

/-- Witness of C5: the flat image of 100s on the adaptive, recursive 5 x 8 selection. -/
theorem c5_uniform_input_witness :
    ((1 : Int) ≤ adaptiveEnv.img_bpp ∧ 0 ≤ adaptiveEnv.sel_width ∧
      0 ≤ adaptiveEnv.sel_height ∧ 1 ≤ adaptiveEnv.despeckle_radius ∧
      2 * adaptiveEnv.despeckle_radius ≤ adaptiveEnv.tile_height ∧
      adaptiveEnv.white_level ≤ 255 ∧
      ∀ y x, adaptiveEnv.sel_y1 ≤ y → y < adaptiveEnv.sel_y2 → 0 ≤ x →
        x < adaptiveEnv.width → flatImg y x = (fun _ => 100) (x % adaptiveEnv.img_bpp)) ∧
    ∃ st, despeckle adaptiveEnv flatImg zeroMem = some st ∧
      ∀ y x, adaptiveEnv.sel_y1 ≤ y → y < adaptiveEnv.sel_y2 → 0 ≤ x →
        x < adaptiveEnv.width → st.shadow y x = flatImg y x :=
  ⟨⟨by decide, by decide, by decide, by decide, by decide, by decide,
      fun _ _ _ _ _ _ => rfl⟩,
    c5_uniform_input adaptiveEnv flatImg zeroMem (fun _ => 100) (by decide) (by decide)
      (by decide) (by decide) (by decide) (by decide) (fun _ _ _ _ _ _ => rfl)⟩

/-- C6 (count of 0 or 1): for every interior sample, in every mode, when at most one
value is collected into the sort buffer the output sample is the source sample, and the
loop body leaves both `dst_row` and the row buffer (the in-window samples the recursive
mode would overwrite) as they were. -/
theorem c6_small_count_unfiltered (e : Env) (img : Int → Int → Nat) (m : Mem)
    (hb : 1 ≤ e.img_bpp) (hR : 1 ≤ e.despeckle_radius)
    (hT : 2 * e.despeckle_radius ≤ e.tile_height)
    (y x : Int) (hint : interiorRow e y) (hx0 : 0 ≤ x) (hx1 : x < e.width) :
    ∃ st st1 s a, despeckle e img m = some st ∧
      stateAtSample e img m y x = some (st1, s) ∧
      collect e st1.row y st1.lasty x s = some a ∧
      (a.sort.length ≤ 1 →
        st.shadow y x = img y x ∧
        ∃ s1, sampleStep e st1.row y st1.lasty x s = some s1 ∧
          s1.src_rows = s.src_rows ∧ s1.dst_row = s.dst_row) := by
  obtain ⟨st, st1, s, a, hd, hs, hc, _, _, _, _, _, hsh⟩ :=
    sample_master e img m (by omega) hR hT y x hint hx0 hx1
  refine ⟨st, st1, s, a, hd, hs, hc, ?_⟩
  intro hn
  refine ⟨by rw [hsh, if_neg (by omega)], _, sampleStep_skip e _ _ _ _ s a hc hn, rfl, rfl⟩

/-- Witness of C6: with both levels at 100 no sample of the flat image of 100s is
collected, and the centre sample of the 3 x 3 selection is left unfiltered. -/
theorem c6_small_count_unfiltered_witness :
    ((1 : Int) ≤ equalLevelsEnv.img_bpp ∧ 1 ≤ equalLevelsEnv.despeckle_radius ∧
      2 * equalLevelsEnv.despeckle_radius ≤ equalLevelsEnv.tile_height ∧
      interiorRow equalLevelsEnv 1 ∧ (0 : Int) ≤ 1 ∧ 1 < equalLevelsEnv.width) ∧
    ∃ st st1 s a, despeckle equalLevelsEnv flatImg zeroMem = some st ∧
      stateAtSample equalLevelsEnv flatImg zeroMem 1 1 = some (st1, s) ∧
      collect equalLevelsEnv st1.row 1 st1.lasty 1 s = some a ∧
      (a.sort.length ≤ 1 →
        st.shadow 1 1 = flatImg 1 1 ∧
        ∃ s1, sampleStep equalLevelsEnv st1.row 1 st1.lasty 1 s = some s1 ∧
          s1.src_rows = s.src_rows ∧ s1.dst_row = s.dst_row) :=
  ⟨⟨by decide, by decide, by decide, by decide, by decide, by decide⟩,
    c6_small_count_unfiltered equalLevelsEnv flatImg zeroMem (by decide) (by decide)
      (by decide) 1 1 (by decide) (by decide) (by decide)⟩

/-- C7 (sort set): whenever the window rows `y - radius .. y + radius` of an image `cur`
are resident in the row buffer, the collection loops return, and the values left in the
sort buffer are exactly the window samples `v` with `v < whiteLevel`, in scan order; so a
window sample is in the sort set if and only if it is below the white level, whatever
the black level. -/
theorem c7_sort_set (e : Env) (cur : Int → Int → Nat) (row y lasty x : Int) (s : RowSt)
    (hb : 1 ≤ e.img_bpp) (hx : 0 ≤ x) (hr : 0 ≤ s.radius)
    (hm : 2 * s.radius + 1 < e.max_row)
    (hres : ∀ ty, y - s.radius ≤ ty → ty ≤ y + s.radius →
      Resident e s.src_rows cur row lasty ty) :
    ∃ a, collect e row y lasty x s = some a ∧
      a.sort = (windowVals e cur y x s.radius).filter
        (fun (v : Nat) => decide ((v : Int) < e.white_level)) ∧
      ∀ v ∈ windowVals e cur y x s.radius, (v ∈ a.sort ↔ (v : Int) < e.white_level) := by
  have hc := collect_eq e cur row y lasty x s (by omega) hx hr hm hres
  refine ⟨_, hc, refCollect_sort e cur y x s.radius, ?_⟩
  intro v hv
  rw [refCollect_sort, List.mem_filter]
  simp [hv]

/-- Witness of C7: the window of sample `(1, 1)` in the flat image of 100s, rows 0..2
resident in slots 0..2 of a 128-slot buffer. -/
theorem c7_sort_set_witness :
    ((1 : Int) ≤ smallEnv.img_bpp ∧ (0 : Int) ≤ 1 ∧ 0 ≤ flatRow.radius ∧
      2 * flatRow.radius + 1 < smallEnv.max_row ∧
      ∀ ty, 1 - flatRow.radius ≤ ty → ty ≤ 1 + flatRow.radius →
        Resident smallEnv flatRow.src_rows flatImg 3 3 ty) ∧
    ∃ a, collect smallEnv 3 1 3 1 flatRow = some a ∧
      a.sort = (windowVals smallEnv flatImg 1 1 flatRow.radius).filter
        (fun (v : Nat) => decide ((v : Int) < smallEnv.white_level)) ∧
      ∀ v ∈ windowVals smallEnv flatImg 1 1 flatRow.radius,
        (v ∈ a.sort ↔ (v : Int) < smallEnv.white_level) :=
  have hres : ∀ ty, 1 - flatRow.radius ≤ ty → ty ≤ 1 + flatRow.radius →
      Resident smallEnv flatRow.src_rows flatImg 3 3 ty := fun ty h1 _ =>
    ⟨by have h : (1 : Int) - 1 ≤ ty := h1
        show 0 ≤ 3 + ty - 3 + 2 * 64
        omega, fun _ _ _ => rfl⟩
  ⟨⟨by decide, by decide, by decide, by decide, hres⟩,
    c7_sort_set smallEnv flatImg 3 1 3 1 flatRow (by decide) (by decide) (by decide)
      (by decide) hres⟩

theorem flat_equal_levels_hist255 :
    (refCollect equalLevelsEnv flatImg 1 1 equalLevelsEnv.despeckle_radius).hist255 = 0 := by
  decide

theorem flat_equal_levels_count :
    (windowVals equalLevelsEnv flatImg 1 1 1).countP
      (fun (v : Nat) => decide ((v : Int) ≥ equalLevelsEnv.white_level)) = 9 := by
  decide

/-- C8, counterexample: with `blackLevel = whiteLevel = 100` (so `blackLevel <= whiteLevel`
holds) and the flat image of 100s, the window of sample `(1, 1)` has nine samples
`v >= whiteLevel`, each equal to the white level, yet after collection `hist255 = 0`. -/
theorem c8_histogram_counts_counterexample :
    ∃ st1 s a, stateAtSample equalLevelsEnv flatImg zeroMem 1 1 = some (st1, s) ∧
      collect equalLevelsEnv st1.row 1 st1.lasty 1 s = some a ∧
      equalLevelsEnv.black_level ≤ equalLevelsEnv.white_level ∧
      (windowVals equalLevelsEnv flatImg 1 1 1).countP
        (fun (v : Nat) => decide ((v : Int) ≥ equalLevelsEnv.white_level)) = 9 ∧
      a.hist255 = 0 := by
  obtain ⟨st, st1, s, a, _, hs, hc, ha, _⟩ :=
    sample_plain equalLevelsEnv flatImg zeroMem (by decide) (by decide) (by decide) rfl rfl 1 1
      (by decide) (by decide) (by decide)
  refine ⟨st1, s, a, hs, hc, by decide, flat_equal_levels_count, ?_⟩
  rw [ha]; exact flat_equal_levels_hist255

/-- C8, as amended: whenever the window rows of an image `cur` are resident, after
collection `hist0` is the number of window samples `v <= blackLevel` and `hist255` is the
number of window samples `v >= whiteLevel` that are not `<= blackLevel`; for
`blackLevel < whiteLevel` that is the number of window samples `v >= whiteLevel`. -/
theorem c8_histogram_counts (e : Env) (cur : Int → Int → Nat) (row y lasty x : Int)
    (s : RowSt) (hb : 1 ≤ e.img_bpp) (hx : 0 ≤ x) (hr : 0 ≤ s.radius)
    (hm : 2 * s.radius + 1 < e.max_row)
    (hres : ∀ ty, y - s.radius ≤ ty → ty ≤ y + s.radius →
      Resident e s.src_rows cur row lasty ty) :
    ∃ a, collect e row y lasty x s = some a ∧
      a.hist0 = ((windowVals e cur y x s.radius).countP
        (fun (v : Nat) => decide ((v : Int) ≤ e.black_level)) : Nat) ∧
      a.hist255 = ((windowVals e cur y x s.radius).countP
        (fun (v : Nat) => decide (¬ (v : Int) ≤ e.black_level ∧ (v : Int) ≥ e.white_level)) :
          Nat) ∧
      (e.black_level < e.white_level →
        a.hist255 = ((windowVals e cur y x s.radius).countP
          (fun (v : Nat) => decide ((v : Int) ≥ e.white_level)) : Nat)) := by
  have hc := collect_eq e cur row y lasty x s (by omega) hx hr hm hres
  have h255 : (refCollect e cur y x s.radius).hist255 =
      ((windowVals e cur y x s.radius).countP
        (fun (v : Nat) => decide (¬ (v : Int) ≤ e.black_level ∧ (v : Int) ≥ e.white_level)) :
          Nat) := by
    unfold refCollect; rw [collectList_hist255]; simp
  refine ⟨_, hc, ?_, h255, ?_⟩
  · unfold refCollect; rw [collectList_hist0]; simp
  · intro hlt
    rw [h255]
    congr 1
    apply List.countP_congr
    intro v _
    simp only [decide_eq_true_eq]
    constructor
    · intro h; exact h.2
    · intro h; exact ⟨by omega, h⟩

/-- Witness of C8 (amended): the window of sample `(1, 1)` in the flat image of 100s. -/
theorem c8_histogram_counts_witness :
    ((1 : Int) ≤ smallEnv.img_bpp ∧ (0 : Int) ≤ 1 ∧ 0 ≤ flatRow.radius ∧
      2 * flatRow.radius + 1 < smallEnv.max_row ∧
      ∀ ty, 1 - flatRow.radius ≤ ty → ty ≤ 1 + flatRow.radius →
        Resident smallEnv flatRow.src_rows flatImg 3 3 ty) ∧
    ∃ a, collect smallEnv 3 1 3 1 flatRow = some a ∧
      a.hist0 = ((windowVals smallEnv flatImg 1 1 flatRow.radius).countP
        (fun (v : Nat) => decide ((v : Int) ≤ smallEnv.black_level)) : Nat) ∧
      a.hist255 = ((windowVals smallEnv flatImg 1 1 flatRow.radius).countP
        (fun (v : Nat) =>
          decide (¬ (v : Int) ≤ smallEnv.black_level ∧ (v : Int) ≥ smallEnv.white_level)) :
          Nat) ∧
      (smallEnv.black_level < smallEnv.white_level →
        a.hist255 = ((windowVals smallEnv flatImg 1 1 flatRow.radius).countP
          (fun (v : Nat) => decide ((v : Int) ≥ smallEnv.white_level)) : Nat)) :=
  have hres : ∀ ty, 1 - flatRow.radius ≤ ty → ty ≤ 1 + flatRow.radius →
      Resident smallEnv flatRow.src_rows flatImg 3 3 ty := fun ty h1 _ =>
    ⟨by have h : (1 : Int) - 1 ≤ ty := h1
        show 0 ≤ 3 + ty - 3 + 2 * 64
        omega, fun _ _ _ => rfl⟩
  ⟨⟨by decide, by decide, by decide, by decide, hres⟩,
    c8_histogram_counts smallEnv flatImg 3 1 3 1 flatRow (by decide) (by decide) (by decide)
      (by decide) hres⟩

/-- C9 (adaptive radius rule): for every interior sample `x` of a row, with `r` the radius
that sample is collected at and `hist0`, `hist255` its counters, the radius of the next
sample of the row is, when the adaptive flag is set, `min (r + 1) despeckle_radius` if
`hist0 >= r` or `hist255 >= r`, else `r - 1` if `r > 1`, else `r`; when the adaptive flag
is clear both radii equal `despeckle_radius`. -/
theorem c9_adaptive_update (e : Env) (img : Int → Int → Nat) (m : Mem)
    (hb : 1 ≤ e.img_bpp) (hR : 1 ≤ e.despeckle_radius)
    (hT : 2 * e.despeckle_radius ≤ e.tile_height)
    (y x : Int) (hint : interiorRow e y) (hx0 : 0 ≤ x) (hx1 : x < e.width) :
    ∃ st1 s a s1, stateAtSample e img m y x = some (st1, s) ∧
      collect e st1.row y st1.lasty x s = some a ∧
      stateAtSample e img m y (x + 1) = some (st1, s1) ∧
      (e.adaptive = true →
        s1.radius =
          if a.hist0 ≥ s.radius ∨ a.hist255 ≥ s.radius then
            min (s.radius + 1) e.despeckle_radius
          else if s.radius > 1 then s.radius - 1
          else s.radius) ∧
      (e.adaptive = false →
        s.radius = e.despeckle_radius ∧ s1.radius = e.despeckle_radius) := by
  obtain ⟨st1, s, a, s1, hs, hc, _, hn, hrad, b1, b2, href⟩ :=
    sample_next e img m (by omega) hR hT y x hint hx0 hx1
  refine ⟨st1, s, a, s1, hs, hc, hn, ?_, ?_⟩
  · intro hada
    rw [hrad]
    unfold adaptRadius
    rw [if_pos hada]
    split_ifs <;> omega
  · intro hada
    have h1 : s.radius = e.despeckle_radius := by
      rw [href]; exact refStateAtSample_radius_plain e img m y x hada
    refine ⟨h1, ?_⟩
    rw [hrad, adaptRadius_plain e _ _ _ hada, h1]

/-- Witness of C9 on the adaptive, recursive 5 x 8 selection, row 2, first sample. -/
theorem c9_adaptive_update_witness :
    ((1 : Int) ≤ adaptiveEnv.img_bpp ∧ 1 ≤ adaptiveEnv.despeckle_radius ∧
      2 * adaptiveEnv.despeckle_radius ≤ adaptiveEnv.tile_height ∧
      interiorRow adaptiveEnv 2 ∧ (0 : Int) ≤ 0 ∧ 0 < adaptiveEnv.width) ∧
    ∃ st1 s a s1, stateAtSample adaptiveEnv exampleImg zeroMem 2 0 = some (st1, s) ∧
      collect adaptiveEnv st1.row 2 st1.lasty 0 s = some a ∧
      stateAtSample adaptiveEnv exampleImg zeroMem 2 (0 + 1) = some (st1, s1) ∧
      (adaptiveEnv.adaptive = true →
        s1.radius =
          if a.hist0 ≥ s.radius ∨ a.hist255 ≥ s.radius then
            min (s.radius + 1) adaptiveEnv.despeckle_radius
          else if s.radius > 1 then s.radius - 1
          else s.radius) ∧
      (adaptiveEnv.adaptive = false →
        s.radius = adaptiveEnv.despeckle_radius ∧
          s1.radius = adaptiveEnv.despeckle_radius) :=
  ⟨⟨by decide, by decide, by decide, by decide, by decide, by decide⟩,
    c9_adaptive_update adaptiveEnv exampleImg zeroMem (by decide) (by decide) (by decide)
      2 0 (by decide) (by decide) (by decide)⟩

/-- C10 (adaptive radius bounds): for every radius setting of at least 1, every image,
all levels and flags, at every sample `x` of every filtered row the current radius is at
least 1 and at most `despeckle_radius`, so is the radius at the next sample, and the two
differ by at most 1. -/
theorem c10_radius_bounds (e : Env) (img : Int → Int → Nat) (m : Mem)
    (hb : 1 ≤ e.img_bpp) (hR : 1 ≤ e.despeckle_radius)
    (hT : 2 * e.despeckle_radius ≤ e.tile_height)
    (y x : Int) (hint : interiorRow e y) (hx0 : 0 ≤ x) (hx1 : x < e.width) :
    ∃ st1 s s1, stateAtSample e img m y x = some (st1, s) ∧
      stateAtSample e img m y (x + 1) = some (st1, s1) ∧
      1 ≤ s.radius ∧ s.radius ≤ e.despeckle_radius ∧
      1 ≤ s1.radius ∧ s1.radius ≤ e.despeckle_radius ∧
      s1.radius - s.radius ≤ 1 ∧ s.radius - s1.radius ≤ 1 := by
  obtain ⟨st1, s, a, s1, hs, _, _, hn, hrad, b1, b2, _⟩ :=
    sample_next e img m (by omega) hR hT y x hint hx0 hx1
  have hb2 := adaptRadius_bounds e a.hist0 a.hist255 s.radius b1 b2
  refine ⟨st1, s, s1, hs, hn, b1, b2, by rw [hrad]; exact hb2.1, by rw [hrad]; exact hb2.2,
    ?_, ?_⟩
  · rw [hrad]; unfold adaptRadius; split_ifs <;> omega
  · rw [hrad]; unfold adaptRadius; split_ifs <;> omega

/-- Witness of C10 on the adaptive, recursive 5 x 8 selection, row 2, first sample. -/
theorem c10_radius_bounds_witness :
    ((1 : Int) ≤ adaptiveEnv.img_bpp ∧ 1 ≤ adaptiveEnv.despeckle_radius ∧
      2 * adaptiveEnv.despeckle_radius ≤ adaptiveEnv.tile_height ∧
      interiorRow adaptiveEnv 2 ∧ (0 : Int) ≤ 0 ∧ 0 < adaptiveEnv.width) ∧
    ∃ st1 s s1, stateAtSample adaptiveEnv exampleImg zeroMem 2 0 = some (st1, s) ∧
      stateAtSample adaptiveEnv exampleImg zeroMem 2 (0 + 1) = some (st1, s1) ∧
      1 ≤ s.radius ∧ s.radius ≤ adaptiveEnv.despeckle_radius ∧
      1 ≤ s1.radius ∧ s1.radius ≤ adaptiveEnv.despeckle_radius ∧
      s1.radius - s.radius ≤ 1 ∧ s.radius - s1.radius ≤ 1 :=
  ⟨⟨by decide, by decide, by decide, by decide, by decide, by decide⟩,
    c10_radius_bounds adaptiveEnv exampleImg zeroMem (by decide) (by decide) (by decide)
      2 0 (by decide) (by decide) (by decide)⟩

/-! ## The median assignment on small windows -/

theorem stripe_left_collect :
    (refCollect smallEnv stripeImg 1 0 smallEnv.despeckle_radius).sort
      = [0, 10, 0, 10, 0, 10] := by
  decide

theorem stripe_left_value : pointValue smallEnv stripeImg 1 0 = 10 := by decide

/-- C11, divergence of the code from the even-count average it attempts: on the 3 x 3
image with rows `0 10 0` and radius 1, the sample `(1, 0)` collects the six values
`0 10 0 10 0 10`; the count is even, the two central values of `0 0 0 10 10 10` are 0 and
10 with truncating average 5, and `despeckle()` writes `sorted[3] = 10`: its averaging
branch is taken on `sort_count & 1`, the odd counts, so an even count gets no average. -/
theorem c11_even_median_divergence :
    ∃ st st1 s a, despeckle smallEnv stripeImg zeroMem = some st ∧
      stateAtSample smallEnv stripeImg zeroMem 1 0 = some (st1, s) ∧
      collect smallEnv st1.row 1 st1.lasty 0 s = some a ∧
      a.sort = [0, 10, 0, 10, 0, 10] ∧
      sortedOf a.sort = [0, 0, 0, 10, 10, 10] ∧
      specEvenMedian (sortedOf a.sort) = some 5 ∧
      st.shadow 1 0 = 10 := by
  obtain ⟨st, st1, s, a, hd, hs, hc, ha, hsh⟩ :=
    sample_plain smallEnv stripeImg zeroMem (by decide) (by decide) (by decide) rfl rfl 1 0
      (by decide) (by decide) (by decide)
  have hsort : a.sort = [0, 10, 0, 10, 0, 10] := by
    rw [ha]; exact stripe_left_collect
  refine ⟨st, st1, s, a, hd, hs, hc, hsort, ?_, ?_, ?_⟩
  · rw [hsort]; decide
  · rw [hsort]; decide
  · rw [hsh]; exact stripe_left_value

theorem sortedOf_entry_le (l : List Nat) (p q : Nat) (hpq : p ≤ q) (hq : q < l.length) :
    entry (sortedOf l) p ≤ entry (sortedOf l) q := by
  have hs : (sortedOf l).Sorted (fun a b => a ≤ b) := List.sorted_insertionSort _ l
  have hlen := sortedOf_length l
  rcases Nat.eq_or_lt_of_le hpq with h | h
  · subst h; exact le_refl _
  · have h1 := entry_eq (sortedOf l) p (by omega)
    have h2 := entry_eq (sortedOf l) q (by omega)
    rw [List.getElem?_eq_getElem (by omega)] at h1 h2
    have e1 := Option.some.inj h1
    have e2 := Option.some.inj h2
    rw [← e1, ← e2]
    unfold List.Sorted at hs
    exact (List.pairwise_iff_getElem.1 hs) p q (by omega) (by omega) h

theorem column_window_list (rn : Nat) (v s : Nat) :
    (List.range (2 * rn + 1)).map (fun (k : Nat) => if k = rn then s else v)
      = List.replicate rn v ++ s :: List.replicate rn v := by
  apply List.ext_getElem
  · simp; omega
  · intro i h1 h2
    simp only [List.getElem_map, List.getElem_range]
    by_cases h : i < rn
    · rw [List.getElem_append_left (by simpa using h)]
      simp; omega
    · rw [List.getElem_append_right (by simpa using h)]
      simp only [List.length_replicate]
      by_cases h3 : i = rn
      · subst h3; simp
      · simp only [h3, if_false]
        rw [List.getElem_cons, dif_neg (by omega)]
        simp

theorem flatMap_single {α β : Type} (f : α → β) (l : List α) :
    (l.flatMap fun a => [f a]) = l.map f := by
  induction l with
  | nil => rfl
  | cons a t ih => simp [List.flatMap_cons, ih]

/-- The window of the spike row in the column image: `r` samples `v`, the spike, `r`
samples `v`. -/
theorem column_windowVals (rn : Nat) (hr : 1 ≤ rn) (T black white : Int) (v s : Nat)
    (y0 : Int) :
    windowVals (columnEnv rn T black white) (columnImg v s y0) y0 0 rn
      = List.replicate rn v ++ s :: List.replicate rn v := by
  have hmin : winXmin (columnEnv rn T black white) 0 rn = 0 := by
    unfold winXmin columnEnv
    simp only
    rw [if_pos (by omega)]
    rfl
  have hmax : winXmax (columnEnv rn T black white) 0 rn = 1 := by
    unfold winXmax columnEnv Env.width
    simp only
    rw [if_pos (by omega)]
    rfl
  have hcols : windowCols (columnEnv rn T black white) 0 rn = [0] := by
    unfold windowCols
    rw [hmin, hmax]
    rfl
  unfold windowVals
  rw [hcols]
  simp only [List.map_cons, List.map_nil]
  rw [flatMap_single]
  unfold windowRows
  have hn : (2 * (rn : Int) + 1).toNat = 2 * rn + 1 := by omega
  rw [hn, List.map_map, ← column_window_list]
  apply List.map_congr_left
  intro k _
  simp only [Function.comp, columnImg]
  by_cases hk : k = rn
  · subst hk; simp
  · rw [if_neg hk, if_neg]
    omega

theorem sortedOf_eq (l t : List Nat) (hp : t.Perm l) (hs : t.Sorted (fun a b => a ≤ b)) :
    sortedOf l = t :=
  List.eq_of_perm_of_sorted ((List.perm_insertionSort _ l).trans hp.symm)
    (List.sorted_insertionSort _ l) hs

theorem entry_replicate_append (n p v : Nat) (l : List Nat) (h : p < n) :
    entry (List.replicate n v ++ l) p = v := by
  unfold entry
  rw [List.getElem?_append_left (by simpa using h)]
  simp [h]

theorem entry_replicate_append_end (n v s : Nat) :
    entry (List.replicate n v ++ [s]) n = s := by
  unfold entry
  rw [List.getElem?_append_right (by simp)]
  simp

theorem entry_cons_succ (a : Nat) (l : List Nat) (p : Nat) :
    entry (a :: l) (p + 1) = entry l p := by
  unfold entry
  simp

theorem entry_replicate (n p v : Nat) (h : p < n) : entry (List.replicate n v) p = v := by
  unfold entry
  simp [h]

theorem sorted_replicate (n v : Nat) : (List.replicate n v).Sorted (fun a b => a ≤ b) := by
  unfold List.Sorted
  rw [List.pairwise_replicate]
  right; exact le_refl _

/-- The median value of the spike window when base value and spike are both below the
white level. -/
theorem column_median_all (rn v s : Nat) (hr : 1 ≤ rn) (hv : v ≤ 255)
    (h : 2 ≤ rn ∨ s ≤ v) :
    medianOf (sortedOf (List.replicate rn v ++ s :: List.replicate rn v)) = v := by
  have hperm : (s :: List.replicate (2 * rn) v).Perm
      (List.replicate rn v ++ s :: List.replicate rn v) := by
    have h2 : List.replicate (2 * rn) v = List.replicate rn v ++ List.replicate rn v := by
      rw [← List.replicate_add]; congr 1; omega
    rw [h2]
    exact List.perm_middle.symm
  by_cases hsv : s ≤ v
  · have hs : (s :: List.replicate (2 * rn) v).Sorted (fun a b => a ≤ b) := by
      unfold List.Sorted
      rw [List.pairwise_cons]
      refine ⟨?_, sorted_replicate _ _⟩
      intro a ha
      rw [List.eq_of_mem_replicate ha]; exact hsv
    rw [sortedOf_eq _ _ hperm hs]
    unfold medianOf
    have hlen : (s :: List.replicate (2 * rn) v).length = 2 * rn + 1 := by simp
    rw [hlen, if_pos (by omega)]
    obtain ⟨q, hq⟩ : ∃ q, (2 * rn + 1) / 2 = q + 1 := ⟨rn - 1, by omega⟩
    rw [hq, entry_cons_succ, entry_cons_succ, entry_replicate _ _ _ (by omega),
      entry_replicate _ _ _ (by omega)]
    omega
  · have hr2 : 2 ≤ rn := by
      rcases h with h | h
      · exact h
      · exact absurd h hsv
    have hperm2 : (List.replicate (2 * rn) v ++ [s]).Perm
        (List.replicate rn v ++ s :: List.replicate rn v) :=
      (List.perm_append_singleton s _).trans hperm
    have hs : (List.replicate (2 * rn) v ++ [s]).Sorted (fun a b => a ≤ b) := by
      unfold List.Sorted
      rw [List.pairwise_append]
      refine ⟨sorted_replicate _ _, List.pairwise_singleton _ _, ?_⟩
      intro a ha b hb
      rw [List.eq_of_mem_replicate ha, List.mem_singleton.1 hb]; omega
    rw [sortedOf_eq _ _ hperm2 hs]
    unfold medianOf
    have hlen : (List.replicate (2 * rn) v ++ [s]).length = 2 * rn + 1 := by simp
    rw [hlen, if_pos (by omega), entry_replicate_append _ _ _ _ (by omega),
      entry_replicate_append _ _ _ _ (by omega)]
    omega

/-- The median value of the spike window when the spike is clipped by the white level. -/
theorem column_median_clipped (rn v : Nat) (hr : 1 ≤ rn) :
    medianOf (sortedOf (List.replicate rn v ++ List.replicate rn v)) = v := by
  have h2 : List.replicate rn v ++ List.replicate rn v = List.replicate (2 * rn) v := by
    rw [← List.replicate_add]; congr 1; omega
  rw [h2, sortedOf_eq _ _ (List.Perm.refl _) (sorted_replicate _ _)]
  unfold medianOf
  rw [List.length_replicate, if_neg (by omega), entry_replicate _ _ _ (by omega)]

/-- The collected values of the spike row in the column image. -/
theorem column_collect (rn : Nat) (hr : 1 ≤ rn) (T black white : Int) (v s : Nat)
    (y0 : Int) :
    (refCollect (columnEnv rn T black white) (columnImg v s y0) y0 0
        (columnEnv rn T black white).despeckle_radius).sort
      = (List.replicate rn v ++ s :: List.replicate rn v).filter
          (fun (w : Nat) => decide ((w : Int) < white)) := by
  rw [refCollect_sort]
  show (windowVals (columnEnv rn T black white) (columnImg v s y0) y0 0 rn).filter _ = _
  rw [column_windowVals rn hr]
  rfl

/-- The output at the spike row of the column image, plain median. -/
theorem column_pointValue (rn : Nat) (hr : 1 ≤ rn) (T black white : Int) (v s : Nat)
    (y0 : Int) (hy0 : (rn : Int) ≤ y0) (hy1 : y0 < rn + 3) (hv : v ≤ 255) :
    ((v : Int) < white → (2 ≤ rn ∨ s ≤ v ∨ white ≤ (s : Int)) →
        pointValue (columnEnv rn T black white) (columnImg v s y0) y0 0 = v) ∧
      (white ≤ (v : Int) →
        pointValue (columnEnv rn T black white) (columnImg v s y0) y0 0 = s) := by
  have hint : interiorRow (columnEnv rn T black white) y0 := by
    constructor
    · show y0 ≥ 0 + (rn : Int); omega
    · show y0 < 2 * (rn : Int) + 3 - rn; omega
  have hsrc : columnImg v s y0 y0 0 = s := by simp [columnImg]
  unfold pointValue
  rw [if_pos hint, column_collect rn hr, hsrc]
  constructor
  · intro hvw hcase
    have hfv : List.filter (fun (w : Nat) => decide ((w : Int) < white)) (List.replicate rn v)
        = List.replicate rn v := by
      rw [List.filter_eq_self]
      intro a ha
      rw [List.eq_of_mem_replicate ha]; simpa using hvw
    by_cases hsw : (s : Int) < white
    · have hf : (List.replicate rn v ++ s :: List.replicate rn v).filter
          (fun (w : Nat) => decide ((w : Int) < white))
          = List.replicate rn v ++ s :: List.replicate rn v := by
        rw [List.filter_append, List.filter_cons, hfv]
        simp [hsw]
      rw [hf, if_pos (by simp; omega)]
      apply column_median_all rn v s hr hv
      rcases hcase with h | h | h
      · left; exact h
      · right; exact h
      · omega
    · have hf : (List.replicate rn v ++ s :: List.replicate rn v).filter
          (fun (w : Nat) => decide ((w : Int) < white))
          = List.replicate rn v ++ List.replicate rn v := by
        rw [List.filter_append, List.filter_cons, hfv]
        simp [hsw]
      rw [hf, if_pos (by simp; omega)]
      exact column_median_clipped rn v hr
  · intro hvw
    have hfv : List.filter (fun (w : Nat) => decide ((w : Int) < white)) (List.replicate rn v)
        = [] := by
      rw [List.filter_eq_nil_iff]
      intro a ha
      rw [List.eq_of_mem_replicate ha]; simpa using hvw
    rw [List.filter_append, List.filter_cons, hfv, if_neg]
    simp only [List.nil_append, List.append_nil]
    split <;> simp

/-- C12, counterexample: in the spike test with radius 1, base value 250, spike 10 in
row 2 and white level 248, the window of the spike row is `250 10 250` and its median is
250; the two samples 250 are at or above the white level and are not collected, a single
value is collected, and `despeckle()` leaves the spike row at 10. -/
theorem c12_column_spike_counterexample :
    ∃ st, despeckle (columnEnv 1 64 7 248) (columnImg 250 10 2) zeroMem = some st ∧
      windowVals (columnEnv 1 64 7 248) (columnImg 250 10 2) 2 0 1 = [250, 10, 250] ∧
      (sortedOf [250, 10, 250])[1]? = some 250 ∧
      (refCollect (columnEnv 1 64 7 248) (columnImg 250 10 2) 2 0 1).sort = [10] ∧
      st.shadow 2 0 = 10 := by
  obtain ⟨st, hd, hp⟩ := despeckle_plain (columnEnv 1 64 7 248) (columnImg 250 10 2) zeroMem
    (by decide) (by decide) (by decide) (by decide) (by decide) rfl rfl
  refine ⟨st, hd, by decide, by decide, by decide, ?_⟩
  rw [hp 2 0 (by decide) (by decide) (by decide) (by decide)]
  decide

/-- C12, as amended: in the spike test (one channel, one sample wide, `2 r + 3` rows, base
value `v <= 255`, spike `s` in an interior row, adaptive and recursive off, tile height at
least `2 r`), `despeckle()` returns; when `v` is below the white level and either
`r >= 2`, or `s <= v`, or `s` is at or above the white level, the output at the spike row
is `v`, the median of its window; when `v` is at or above the white level at most one
value is collected and the output at the spike row is the spike `s` itself. -/
theorem c12_column_spike (r T black white : Int) (v s : Nat) (y0 : Int) (m : Mem)
    (hr : 1 ≤ r) (hT : 2 * r ≤ T) (hy0 : r ≤ y0) (hy1 : y0 < r + 3) (hv : v ≤ 255) :
    ∃ st, despeckle (columnEnv r T black white) (columnImg v s y0) m = some st ∧
      ((v : Int) < white → (2 ≤ r ∨ s ≤ v ∨ white ≤ (s : Int)) → st.shadow y0 0 = v) ∧
      (white ≤ (v : Int) → st.shadow y0 0 = s) := by
  obtain ⟨rn, rfl⟩ : ∃ rn : Nat, r = rn := ⟨r.toNat, by omega⟩
  obtain ⟨st, hd, hp⟩ := despeckle_plain (columnEnv rn T black white) (columnImg v s y0) m
    (by show (0 : Int) < 1; decide) (by show (0 : Int) ≤ 1 * 1; decide)
    (by show (0 : Int) ≤ 2 * (rn : Int) + 3 - 0; omega) hr hT rfl rfl
  have hval := hp y0 0 (by show (0 : Int) ≤ y0; omega)
    (by show y0 < 2 * (rn : Int) + 3; omega) (le_refl _) (by show (0 : Int) < 1 * 1; decide)
  obtain ⟨h1, h2⟩ := column_pointValue rn (by omega) T black white v s y0 hy0 hy1 hv
  refine ⟨st, hd, ?_, ?_⟩
  · intro hvw hcase
    rw [hval]
    apply h1 hvw
    rcases hcase with h | h | h
    · left; omega
    · right; left; exact h
    · right; right; exact h
  · intro hvw
    rw [hval]; exact h2 hvw

/-- Witness of C12 (amended): radius 2, a column of 128s with the spike 255 in row 3,
white level 255; the output at the spike row is 128. -/
theorem c12_column_spike_witness :
    ((1 : Int) ≤ 2 ∧ 2 * (2 : Int) ≤ 64 ∧ (2 : Int) ≤ 3 ∧ (3 : Int) < 2 + 3 ∧ 128 ≤ 255) ∧
    ∃ st, despeckle (columnEnv 2 64 0 255) (columnImg 128 255 3) zeroMem = some st ∧
      st.shadow 3 0 = 128 :=
  ⟨⟨by decide, by decide, by decide, by decide, by decide⟩,
    (c12_column_spike 2 64 0 255 128 255 3 zeroMem (by decide) (by decide) (by decide)
      (by decide) (by decide)).imp fun _ h => ⟨h.1, h.2.1 (by decide) (Or.inl (by decide))⟩⟩

/-! ## Properties of `run()` -/

/-- In non-interactive mode with a parameter count outside `4..7`, `run()` returns
`STATUS_CALLING_ERROR`, leaves `despeckle_vals` alone and does not call `despeckle()`. -/
theorem run_noninteractive_reject (h : Host) (nparams : Int) (param : Nat → Int)
    (d : Drawable) (m : Mem) (vals : DespeckleVals) (hn : nparams < 4 ∨ nparams > 7) :
    run h GRunModeType.RUN_NONINTERACTIVE nparams param d m vals
      = ⟨GStatusType.STATUS_CALLING_ERROR, vals, none⟩ := by
  simp [run, nonInteractiveVals, hn, runFilter]

/-- The values `run()` stores in non-interactive mode for a parameter count in `4..7`. -/
theorem nonInteractiveVals_accept (nparams : Int) (param : Nat → Int) (vals : DespeckleVals)
    (h4 : 4 ≤ nparams) (h7 : nparams ≤ 7) :
    nonInteractiveVals nparams param vals
      = (GStatusType.STATUS_SUCCESS,
          ⟨param 3, if 5 ≤ nparams then param 4 else FILTER_ADAPTIVE,
            if 6 ≤ nparams then param 5 else 7, if 7 ≤ nparams then param 6 else 248⟩) := by
  have hcases : nparams = 4 ∨ nparams = 5 ∨ nparams = 6 ∨ nparams = 7 := by omega
  rcases hcases with h | h | h | h <;> subst h <;> simp [nonInteractiveVals]

/-- In non-interactive mode with a parameter count in `4..7`, `run()` goes on to the
drawable test with the values of the parameters. -/
theorem run_noninteractive_accept (h : Host) (nparams : Int) (param : Nat → Int)
    (d : Drawable) (m : Mem) (vals : DespeckleVals) (h4 : 4 ≤ nparams) (h7 : nparams ≤ 7) :
    run h GRunModeType.RUN_NONINTERACTIVE nparams param d m vals
      = runFilter d m GStatusType.STATUS_SUCCESS
          ⟨param 3, if 5 ≤ nparams then param 4 else FILTER_ADAPTIVE,
            if 6 ≤ nparams then param 5 else 7, if 7 ≤ nparams then param 6 else 248⟩ := by
  simp only [run]
  rw [nonInteractiveVals_accept nparams param vals h4 h7]

/-- The drawable test of `run()` on an RGB or gray drawable. -/
theorem runFilter_color (d : Drawable) (m : Mem) (v : DespeckleVals)
    (hc : (d.is_rgb || d.is_gray) = true) :
    runFilter d m GStatusType.STATUS_SUCCESS v
      = ⟨GStatusType.STATUS_SUCCESS, v, some (despeckle (d.env v) d.pixels m)⟩ := by
  simp only [runFilter, if_true, hc]

/-- The drawable test of `run()` on a drawable neither RGB nor gray. -/
theorem runFilter_other (d : Drawable) (m : Mem) (v : DespeckleVals)
    (hc : (d.is_rgb || d.is_gray) = false) :
    runFilter d m GStatusType.STATUS_SUCCESS v
      = ⟨GStatusType.STATUS_EXECUTION_ERROR, v, none⟩ := by
  simp [runFilter, hc]

/-- The full non-interactive call on the 3 x 3 gray image runs `despeckle()`. -/
theorem run_small (radius type black white : Int) :
    run idleHost GRunModeType.RUN_NONINTERACTIVE 7 (paramsOf radius type black white)
        smallDrawable zeroMem despeckle_vals
      = ⟨GStatusType.STATUS_SUCCESS, ⟨radius, type, black, white⟩,
          some (despeckle (smallDrawable.env ⟨radius, type, black, white⟩) smallImg zeroMem)⟩ := by
  rw [run_noninteractive_accept _ _ _ _ _ _ (by decide) (by decide),
    runFilter_color smallDrawable _ _ rfl]
  rfl

/-- C13, counterexample: non-interactive calls of `run()` on the 3 x 3 gray image with
seven parameters.  With black level 200 above white level 100, with radius 25, and with
levels -5 and 300, the returned status is `STATUS_SUCCESS`, `despeckle()` is executed and
returns, and it has written output rows: sample `(1, 1)` of the shadow tiles, 0 before the
call, holds 8, 7 and 8. -/
theorem c13_parameter_validation_counterexample :
    (∃ st, run idleHost GRunModeType.RUN_NONINTERACTIVE 7 (paramsOf 1 0 200 100)
        smallDrawable zeroMem despeckle_vals
        = ⟨GStatusType.STATUS_SUCCESS, ⟨1, 0, 200, 100⟩, some (some st)⟩ ∧
      zeroMem.shadow 1 1 = 0 ∧ st.shadow 1 1 = 8) ∧
    (∃ st, run idleHost GRunModeType.RUN_NONINTERACTIVE 7 (paramsOf 25 0 7 248)
        smallDrawable zeroMem despeckle_vals
        = ⟨GStatusType.STATUS_SUCCESS, ⟨25, 0, 7, 248⟩, some (some st)⟩ ∧
      zeroMem.shadow 1 1 = 0 ∧ st.shadow 1 1 = 7) ∧
    (∃ st, run idleHost GRunModeType.RUN_NONINTERACTIVE 7 (paramsOf 1 0 (-5) 300)
        smallDrawable zeroMem despeckle_vals
        = ⟨GStatusType.STATUS_SUCCESS, ⟨1, 0, -5, 300⟩, some (some st)⟩ ∧
      zeroMem.shadow 1 1 = 0 ∧ st.shadow 1 1 = 8) := by
  refine ⟨?_, ?_, ?_⟩
  · obtain ⟨st, hd, hp⟩ := despeckle_plain (smallDrawable.env ⟨1, 0, 200, 100⟩) smallImg
      zeroMem (by decide) (by decide) (by decide) (by decide) (by decide) rfl rfl
    refine ⟨st, ?_, rfl, ?_⟩
    · rw [run_small, hd]
    · rw [hp 1 1 (by decide) (by decide) (by decide) (by decide)]; decide
  · obtain ⟨st, hd, hp⟩ := despeckle_plain (smallDrawable.env ⟨25, 0, 7, 248⟩) smallImg
      zeroMem (by decide) (by decide) (by decide) (by decide) (by decide) rfl rfl
    refine ⟨st, ?_, rfl, ?_⟩
    · rw [run_small, hd]
    · rw [hp 1 1 (by decide) (by decide) (by decide) (by decide)]; decide
  · obtain ⟨st, hd, hp⟩ := despeckle_plain (smallDrawable.env ⟨1, 0, -5, 300⟩) smallImg
      zeroMem (by decide) (by decide) (by decide) (by decide) (by decide) rfl rfl
    refine ⟨st, ?_, rfl, ?_⟩
    · rw [run_small, hd]
    · rw [hp 1 1 (by decide) (by decide) (by decide) (by decide)]; decide

/-- C13, as amended: in non-interactive mode `run()` checks the number of parameters and
the type of the drawable, and nothing else.  With a count outside `4..7` the status is
`STATUS_CALLING_ERROR`, and with a drawable neither RGB nor gray it is
`STATUS_EXECUTION_ERROR`; in both cases `despeckle()` is not called.  With a count in
`4..7` and an RGB or gray drawable the status is `STATUS_SUCCESS` and `despeckle()` is
called on the values supplied, whatever the radius and the levels are; it then returns
and has written every row of the selection as soon as the radius is at least 1 and at
most half the tile height. -/
theorem c13_parameter_validation (h : Host) (nparams : Int) (param : Nat → Int)
    (d : Drawable) (m : Mem) (vals : DespeckleVals)
    (hb : 0 < d.img_bpp) (hw : 0 ≤ d.sel_width) (hH : d.sel_y1 ≤ d.sel_y2) :
    (nparams < 4 ∨ nparams > 7 →
      (run h GRunModeType.RUN_NONINTERACTIVE nparams param d m vals).status
          = GStatusType.STATUS_CALLING_ERROR ∧
        (run h GRunModeType.RUN_NONINTERACTIVE nparams param d m vals).pass = none) ∧
    (4 ≤ nparams → nparams ≤ 7 → (d.is_rgb || d.is_gray) = false →
      (run h GRunModeType.RUN_NONINTERACTIVE nparams param d m vals).status
          = GStatusType.STATUS_EXECUTION_ERROR ∧
        (run h GRunModeType.RUN_NONINTERACTIVE nparams param d m vals).pass = none) ∧
    (4 ≤ nparams → nparams ≤ 7 → (d.is_rgb || d.is_gray) = true →
      (run h GRunModeType.RUN_NONINTERACTIVE nparams param d m vals).status
          = GStatusType.STATUS_SUCCESS ∧
        (run h GRunModeType.RUN_NONINTERACTIVE nparams param d m vals).vals.despeckle_radius
          = param 3 ∧
        (run h GRunModeType.RUN_NONINTERACTIVE nparams param d m vals).pass
          = some (despeckle
              (d.env (run h GRunModeType.RUN_NONINTERACTIVE nparams param d m vals).vals)
              d.pixels m) ∧
        (1 ≤ param 3 → 2 * param 3 ≤ d.tile_height →
          ∃ st, (run h GRunModeType.RUN_NONINTERACTIVE nparams param d m vals).pass
              = some (some st) ∧
            ∀ y x, d.sel_y1 ≤ y → y < d.sel_y2 → 0 ≤ x → x < d.sel_width * d.img_bpp →
              st.shadow y x
                = (refDespeckle
                    (d.env (run h GRunModeType.RUN_NONINTERACTIVE nparams param d m vals).vals)
                    d.pixels m).shadow y x)) := by
  refine ⟨?_, ?_, ?_⟩
  · intro hn
    rw [run_noninteractive_reject h nparams param d m vals hn]
    exact ⟨rfl, rfl⟩
  · intro h4 h7 hc
    rw [run_noninteractive_accept h nparams param d m vals h4 h7, runFilter_other d m _ hc]
    exact ⟨rfl, rfl⟩
  · intro h4 h7 hc
    rw [run_noninteractive_accept h nparams param d m vals h4 h7, runFilter_color d m _ hc]
    refine ⟨rfl, rfl, rfl, ?_⟩
    intro hR hT
    obtain ⟨st, hd, hinv⟩ := despeckle_sim
      (d.env ⟨param 3, if 5 ≤ nparams then param 4 else FILTER_ADAPTIVE,
        if 6 ≤ nparams then param 5 else 7, if 7 ≤ nparams then param 6 else 248⟩)
      d.pixels m hb (mul_nonneg hw (le_of_lt hb))
      (by show (0 : Int) ≤ d.sel_y2 - d.sel_y1; omega) hR hT
    refine ⟨st, ?_, ?_⟩
    · show some (despeckle _ d.pixels m) = some (some st)
      rw [hd]
    · intro y x _ _ _ _
      show st.shadow y x = _
      rw [hinv.2.2.1]

/-- Witness of C13 (amended): seven parameters with black level 200 above white level 100
on the 3 x 3 gray image; the status is `STATUS_SUCCESS` and `despeckle()` has run. -/
theorem c13_parameter_validation_witness :
    (0 < smallDrawable.img_bpp ∧ 0 ≤ smallDrawable.sel_width ∧
      smallDrawable.sel_y1 ≤ smallDrawable.sel_y2) ∧
    (run idleHost GRunModeType.RUN_NONINTERACTIVE 7 (paramsOf 1 0 200 100) smallDrawable
        zeroMem despeckle_vals).status = GStatusType.STATUS_SUCCESS ∧
    ∃ st, (run idleHost GRunModeType.RUN_NONINTERACTIVE 7 (paramsOf 1 0 200 100) smallDrawable
        zeroMem despeckle_vals).pass = some (some st) :=
  ⟨⟨by decide, by decide, by decide⟩,
    ((c13_parameter_validation idleHost 7 (paramsOf 1 0 200 100) smallDrawable zeroMem
      despeckle_vals (by decide) (by decide) (by decide)).2.2 (by decide) (by decide) rfl).1,
    (((c13_parameter_validation idleHost 7 (paramsOf 1 0 200 100) smallDrawable zeroMem
      despeckle_vals (by decide) (by decide) (by decide)).2.2 (by decide) (by decide)
        rfl).2.2.2 (by decide) (by decide)).imp fun _ hst => hst.1⟩

/-- C16: in non-interactive mode `run()` accepts the call only for `4 <= nparams <= 7`:
outside that range the status is `STATUS_CALLING_ERROR`, `despeckle_vals` is unchanged and
`despeckle()` is not executed.  Inside it the status is not `STATUS_CALLING_ERROR`, the
radius is `param[3]`, the type is `param[4]` when `nparams >= 5` and `FILTER_ADAPTIVE`
otherwise, the black level is `param[5]` when `nparams >= 6` and 7 otherwise, the white
level is `param[6]` when `nparams = 7` and 248 otherwise, and when `despeckle()` is
executed it runs on these values.  The type is a bitmask: `FILTER_ADAPTIVE = 1`,
`FILTER_RECURSIVE = 2`, tested with a bitwise and. -/
theorem c16_run_configuration (h : Host) (nparams : Int) (param : Nat → Int)
    (d : Drawable) (m : Mem) (vals : DespeckleVals) :
    (nparams < 4 ∨ nparams > 7 →
      (run h GRunModeType.RUN_NONINTERACTIVE nparams param d m vals).status
          = GStatusType.STATUS_CALLING_ERROR ∧
        (run h GRunModeType.RUN_NONINTERACTIVE nparams param d m vals).vals = vals ∧
        (run h GRunModeType.RUN_NONINTERACTIVE nparams param d m vals).pass = none) ∧
    (4 ≤ nparams → nparams ≤ 7 →
      (run h GRunModeType.RUN_NONINTERACTIVE nparams param d m vals).status
          ≠ GStatusType.STATUS_CALLING_ERROR ∧
        (run h GRunModeType.RUN_NONINTERACTIVE nparams param d m vals).vals
          = ⟨param 3, if 5 ≤ nparams then param 4 else FILTER_ADAPTIVE,
              if 6 ≤ nparams then param 5 else 7, if 7 ≤ nparams then param 6 else 248⟩ ∧
        ((run h GRunModeType.RUN_NONINTERACTIVE nparams param d m vals).pass = none ∨
          (run h GRunModeType.RUN_NONINTERACTIVE nparams param d m vals).pass
            = some (despeckle
                (d.env ⟨param 3, if 5 ≤ nparams then param 4 else FILTER_ADAPTIVE,
                  if 6 ≤ nparams then param 5 else 7, if 7 ≤ nparams then param 6 else 248⟩)
                d.pixels m))) ∧
    FILTER_ADAPTIVE = 1 ∧ FILTER_RECURSIVE = 2 ∧
    (∀ v : DespeckleVals, (d.env v).adaptive = (Int.land v.filter_type 1 != 0) ∧
      (d.env v).recursive = (Int.land v.filter_type 2 != 0)) ∧
    despeckle_vals = ⟨3, 1, 7, 248⟩ := by
  refine ⟨?_, ?_, rfl, rfl, fun v => ⟨rfl, rfl⟩, rfl⟩
  · intro hn
    rw [run_noninteractive_reject h nparams param d m vals hn]
    exact ⟨rfl, rfl, rfl⟩
  · intro h4 h7
    rw [run_noninteractive_accept h nparams param d m vals h4 h7]
    cases hc : (d.is_rgb || d.is_gray)
    · rw [runFilter_other d m _ hc]
      exact ⟨fun hh => GStatusType.noConfusion hh, rfl, Or.inl rfl⟩
    · rw [runFilter_color d m _ hc]
      exact ⟨fun hh => GStatusType.noConfusion hh, rfl, Or.inr rfl⟩

/-- Witness of C16: five parameters, radius 2 and type 3, on the 3 x 3 gray image: the
values stored are 2, 3 and the defaults 7 and 248; three parameters are refused. -/
theorem c16_run_configuration_witness :
    (run idleHost GRunModeType.RUN_NONINTERACTIVE 5 (paramsOf 2 3 0 0) smallDrawable zeroMem
        despeckle_vals).vals = ⟨2, 3, 7, 248⟩ ∧
    (run idleHost GRunModeType.RUN_NONINTERACTIVE 3 (paramsOf 2 3 0 0) smallDrawable zeroMem
        despeckle_vals).status = GStatusType.STATUS_CALLING_ERROR :=
  ⟨((c16_run_configuration idleHost 5 (paramsOf 2 3 0 0) smallDrawable zeroMem
      despeckle_vals).2.1 (by decide) (by decide)).2.1,
    ((c16_run_configuration idleHost 3 (paramsOf 2 3 0 0) smallDrawable zeroMem
      despeckle_vals).1 (by decide)).1⟩

/-! ## Rounding to `double` -/

theorem roundHalfEven_ge (x : ℚ) : ⌊x⌋ ≤ roundHalfEven x := by
  unfold roundHalfEven
  split_ifs <;> omega

theorem roundHalfEven_le (x : ℚ) : roundHalfEven x ≤ ⌊x⌋ + 1 := by
  unfold roundHalfEven
  split_ifs <;> omega

theorem roundHalfEven_int (n : Int) : roundHalfEven (n : ℚ) = n := by
  unfold roundHalfEven
  rw [Int.floor_intCast]
  simp

/-- Rounding to the nearest integer is monotone. -/
theorem roundHalfEven_mono (x y : ℚ) (h : x ≤ y) : roundHalfEven x ≤ roundHalfEven y := by
  have hf : ⌊x⌋ ≤ ⌊y⌋ := Int.floor_mono h
  rcases lt_or_eq_of_le hf with hlt | heq
  · have h1 := roundHalfEven_le x
    have h2 := roundHalfEven_ge y
    omega
  · have hfr : x - ⌊x⌋ ≤ y - ⌊y⌋ := by rw [heq]; linarith
    unfold roundHalfEven
    rw [heq]
    split_ifs <;> first | omega | (exfalso; linarith)

theorem two_zpow_pos (k : Int) : (0 : ℚ) < (2 : ℚ) ^ k := zpow_pos (by norm_num) k

/-- The binade of a positive rational. -/
theorem log_bounds (q : ℚ) (hq : 0 < q) :
    (2 : ℚ) ^ Int.log 2 q ≤ q ∧ q < (2 : ℚ) ^ (Int.log 2 q + 1) := by
  have h1 := Int.zpow_log_le_self (b := 2) (by norm_num) hq
  have h2 := Int.lt_zpow_succ_log_self (b := 2) (by norm_num) q
  simp only [Nat.cast_ofNat] at h1 h2
  exact ⟨h1, h2⟩

theorem log_eq_of_bounds (q : ℚ) (k : Int) (h1 : (2 : ℚ) ^ k ≤ q)
    (h2 : q < (2 : ℚ) ^ (k + 1)) : Int.log 2 q = k := by
  have hq : 0 < q := lt_of_lt_of_le (two_zpow_pos k) h1
  have a : k ≤ Int.log 2 q := by
    apply (Int.zpow_le_iff_le_log (b := 2) (by norm_num) hq).1
    simpa using h1
  have b : Int.log 2 q < k + 1 := by
    apply (Int.lt_zpow_iff_log_lt (b := 2) (by norm_num) hq).1
    simpa using h2
  omega

/-- The scaled significand of a positive rational lies in `[2^52, 2^53)`. -/
theorem significand_bounds (q : ℚ) (hq : 0 < q) :
    (2 : ℚ) ^ (52 : Int) ≤ q * (2 : ℚ) ^ (52 - Int.log 2 q) ∧
      q * (2 : ℚ) ^ (52 - Int.log 2 q) < (2 : ℚ) ^ (53 : Int) := by
  obtain ⟨h1, h2⟩ := log_bounds q hq
  have hp := two_zpow_pos (52 - Int.log 2 q)
  constructor
  · have : (2 : ℚ) ^ (52 : Int) = (2 : ℚ) ^ Int.log 2 q * (2 : ℚ) ^ (52 - Int.log 2 q) := by
      rw [← zpow_add₀ (by norm_num)]; congr 1; ring
    rw [this]
    exact mul_le_mul_of_nonneg_right h1 (le_of_lt hp)
  · have : (2 : ℚ) ^ (53 : Int)
        = (2 : ℚ) ^ (Int.log 2 q + 1) * (2 : ℚ) ^ (52 - Int.log 2 q) := by
      rw [← zpow_add₀ (by norm_num)]; congr 1; ring
    rw [this]
    exact mul_lt_mul_of_pos_right h2 hp

theorem roundHalfEven_significand (q : ℚ) (hq : 0 < q) :
    (2 : Int) ^ 52 ≤ roundHalfEven (q * (2 : ℚ) ^ (52 - Int.log 2 q)) ∧
      roundHalfEven (q * (2 : ℚ) ^ (52 - Int.log 2 q)) ≤ (2 : Int) ^ 53 := by
  obtain ⟨h1, h2⟩ := significand_bounds q hq
  have e1 : (((2 : Int) ^ 52 : Int) : ℚ) = (2 : ℚ) ^ (52 : Int) := by norm_num
  have e2 : (((2 : Int) ^ 53 : Int) : ℚ) = (2 : ℚ) ^ (53 : Int) := by norm_num
  constructor
  · have := roundHalfEven_mono _ _ (by rw [e1]; exact h1 :
      (((2 : Int) ^ 52 : Int) : ℚ) ≤ q * (2 : ℚ) ^ (52 - Int.log 2 q))
    rw [roundHalfEven_int] at this
    exact this
  · have := roundHalfEven_mono _ _ (by rw [e2]; exact le_of_lt h2 :
      q * (2 : ℚ) ^ (52 - Int.log 2 q) ≤ (((2 : Int) ^ 53 : Int) : ℚ))
    rw [roundHalfEven_int] at this
    exact this

/-- The nearest `double` stays in the closed binade of the rational. -/
theorem nearestDouble_bounds (q : ℚ) (hq : 0 < q) :
    (2 : ℚ) ^ Int.log 2 q ≤ nearestDouble q ∧ nearestDouble q ≤ (2 : ℚ) ^ (Int.log 2 q + 1) := by
  obtain ⟨h1, h2⟩ := roundHalfEven_significand q hq
  have hp := two_zpow_pos (Int.log 2 q - 52)
  have c1 : ((2 : ℚ) ^ (52 : Int)) ≤ (roundHalfEven (q * (2 : ℚ) ^ (52 - Int.log 2 q)) : ℚ) := by
    have e1 : (((2 : Int) ^ 52 : Int) : ℚ) = (2 : ℚ) ^ (52 : Int) := by norm_num
    rw [← e1]
    exact Int.cast_le.2 h1
  have c2 : (roundHalfEven (q * (2 : ℚ) ^ (52 - Int.log 2 q)) : ℚ) ≤ ((2 : ℚ) ^ (53 : Int)) := by
    have e2 : (((2 : Int) ^ 53 : Int) : ℚ) = (2 : ℚ) ^ (53 : Int) := by norm_num
    rw [← e2]
    exact Int.cast_le.2 h2
  unfold nearestDouble
  constructor
  · have : (2 : ℚ) ^ Int.log 2 q = (2 : ℚ) ^ (52 : Int) * (2 : ℚ) ^ (Int.log 2 q - 52) := by
      rw [← zpow_add₀ (by norm_num)]; congr 1; ring
    rw [this]
    exact mul_le_mul_of_nonneg_right c1 (le_of_lt hp)
  · have : (2 : ℚ) ^ (Int.log 2 q + 1)
        = (2 : ℚ) ^ (53 : Int) * (2 : ℚ) ^ (Int.log 2 q - 52) := by
      rw [← zpow_add₀ (by norm_num)]; congr 1; ring
    rw [this]
    exact mul_le_mul_of_nonneg_right c2 (le_of_lt hp)

/-- Rounding to the nearest `double` is monotone on the positive rationals. -/
theorem nearestDouble_mono (q1 q2 : ℚ) (h1 : 0 < q1) (h : q1 ≤ q2) :
    nearestDouble q1 ≤ nearestDouble q2 := by
  have h2 : 0 < q2 := lt_of_lt_of_le h1 h
  have hlog : Int.log 2 q1 ≤ Int.log 2 q2 := Int.log_mono_right h1 h
  rcases lt_or_eq_of_le hlog with hlt | heq
  · have a := (nearestDouble_bounds q1 h1).2
    have b := (nearestDouble_bounds q2 h2).1
    have c : (2 : ℚ) ^ (Int.log 2 q1 + 1) ≤ (2 : ℚ) ^ Int.log 2 q2 :=
      zpow_le_zpow_right₀ (by norm_num) (by omega)
    exact le_trans a (le_trans c b)
  · unfold nearestDouble
    rw [heq]
    apply mul_le_mul_of_nonneg_right _ (le_of_lt (two_zpow_pos _))
    apply Int.cast_le.2
    apply roundHalfEven_mono
    exact mul_le_mul_of_nonneg_right h (le_of_lt (two_zpow_pos _))

theorem nearestDouble_pos (q : ℚ) (hq : 0 < q) : 0 < nearestDouble q :=
  lt_of_lt_of_le (two_zpow_pos _) (nearestDouble_bounds q hq).1

theorem toDouble_nonneg (q : ℚ) (hq : 0 ≤ q) : 0 ≤ toDouble q := by
  unfold toDouble
  split_ifs with h1 h2
  · exact le_of_lt (nearestDouble_pos q h1)
  · exact absurd hq (not_le.2 h2)
  · exact le_refl _

/-- Rounding to the nearest `double` is monotone on the rationals that are not
negative. -/
theorem toDouble_mono (q1 q2 : ℚ) (h1 : 0 ≤ q1) (h : q1 ≤ q2) : toDouble q1 ≤ toDouble q2 := by
  rcases lt_or_eq_of_le h1 with hpos | hz
  · have h2 : 0 < q2 := lt_of_lt_of_le hpos h
    unfold toDouble
    rw [if_pos hpos, if_pos h2]
    exact nearestDouble_mono q1 q2 hpos h
  · have : toDouble q1 = 0 := by
      unfold toDouble
      rw [← hz]; simp
    rw [this]
    exact toDouble_nonneg q2 (le_trans h1 h)

/-- The nearest `double` of a rational in a known binade. -/
theorem nearestDouble_eq (q : ℚ) (k : Int) (h1 : (2 : ℚ) ^ k ≤ q) (h2 : q < (2 : ℚ) ^ (k + 1)) :
    nearestDouble q = (roundHalfEven (q * (2 : ℚ) ^ (52 - k)) : ℚ) * (2 : ℚ) ^ (k - 52) := by
  unfold nearestDouble
  rw [log_eq_of_bounds q k h1 h2]

theorem toDouble_one : toDouble 1 = 1 := by
  unfold toDouble
  rw [if_pos (by norm_num)]
  rw [nearestDouble_eq 1 0 (by norm_num) (by norm_num)]
  have : (1 : ℚ) * (2 : ℚ) ^ ((52 : Int) - 0) = (((2 : Int) ^ 52 : Int) : ℚ) := by norm_num
  rw [this, roundHalfEven_int]
  norm_num

/-- The quotient `(double) a / (double) b` of `0 <= a <= b`, `0 < b`, lies in `[0, 1]`. -/
theorem doubleDiv_bounds (a b : Int) (ha : 0 ≤ a) (hab : a ≤ b) (hb : 0 < b) :
    0 ≤ doubleDiv a b ∧ doubleDiv a b ≤ 1 := by
  have hb2 : (0 : ℚ) < (b : ℚ) := by exact_mod_cast hb
  have ha2 : (0 : ℚ) ≤ (a : ℚ) := by exact_mod_cast ha
  have hab2 : (a : ℚ) ≤ (b : ℚ) := by exact_mod_cast hab
  have hq0 : (0 : ℚ) ≤ (a : ℚ) / (b : ℚ) := div_nonneg ha2 (le_of_lt hb2)
  have hq1 : (a : ℚ) / (b : ℚ) ≤ 1 := (div_le_one hb2).2 hab2
  unfold doubleDiv
  refine ⟨toDouble_nonneg _ hq0, ?_⟩
  have := toDouble_mono _ _ hq0 hq1
  rw [toDouble_one] at this
  exact this

/-- The quotient `(double) a / (double) b` does not decrease when `a` grows. -/
theorem doubleDiv_mono (a a2 b : Int) (ha : 0 ≤ a) (h : a ≤ a2) (hb : 0 < b) :
    doubleDiv a b ≤ doubleDiv a2 b := by
  have hb2 : (0 : ℚ) < (b : ℚ) := by exact_mod_cast hb
  have ha2 : (0 : ℚ) ≤ (a : ℚ) := by exact_mod_cast ha
  have h2 : (a : ℚ) ≤ (a2 : ℚ) := by exact_mod_cast h
  unfold doubleDiv
  exact toDouble_mono _ _ (div_nonneg ha2 (le_of_lt hb2))
    (div_le_div_of_nonneg_right h2 (le_of_lt hb2))

/-- The correctly rounded quotient is within half a unit in the last place of the exact
quotient: for `q` in the binade `[2^k, 2^(k+1))` the error is at most `2^(k - 53)`. -/
theorem nearestDouble_error (q : ℚ) :
    |nearestDouble q - q| ≤ (2 : ℚ) ^ (Int.log 2 q - 53) := by
  have hp := two_zpow_pos (Int.log 2 q - 52)
  have hq2 : q = (q * (2 : ℚ) ^ (52 - Int.log 2 q)) * (2 : ℚ) ^ (Int.log 2 q - 52) := by
    rw [mul_assoc, ← zpow_add₀ (by norm_num)]
    have : (52 - Int.log 2 q + (Int.log 2 q - 52)) = 0 := by ring
    rw [this]; simp
  have hr : |(roundHalfEven (q * (2 : ℚ) ^ (52 - Int.log 2 q)) : ℚ)
      - q * (2 : ℚ) ^ (52 - Int.log 2 q)| ≤ 1 / 2 := by
    generalize q * (2 : ℚ) ^ (52 - Int.log 2 q) = x
    have f1 := Int.floor_le x
    have f2 := Int.lt_floor_add_one x
    unfold roundHalfEven
    rw [abs_le]
    split_ifs with c1 c2 c3
    · constructor <;> linarith
    · push_cast; constructor <;> linarith
    · have : x - ⌊x⌋ = 1 / 2 := le_antisymm (not_lt.1 c2) (not_lt.1 c1)
      constructor <;> linarith
    · have : x - ⌊x⌋ = 1 / 2 := le_antisymm (not_lt.1 c2) (not_lt.1 c1)
      push_cast; constructor <;> linarith
  have hsplit : (2 : ℚ) ^ (Int.log 2 q - 53) = 1 / 2 * (2 : ℚ) ^ (Int.log 2 q - 52) := by
    have : Int.log 2 q - 53 = (Int.log 2 q - 52) + (-1) := by ring
    rw [this, zpow_add₀ (by norm_num)]
    norm_num
    ring
  have hdiff : nearestDouble q - q =
      ((roundHalfEven (q * (2 : ℚ) ^ (52 - Int.log 2 q)) : ℚ)
        - q * (2 : ℚ) ^ (52 - Int.log 2 q)) * (2 : ℚ) ^ (Int.log 2 q - 52) := by
    unfold nearestDouble
    rw [sub_mul, ← hq2]
  rw [hdiff, abs_mul, abs_of_pos hp, hsplit]
  exact mul_le_mul_of_nonneg_right hr (le_of_lt hp)

/-- A rational strictly within one half of an integer rounds to that integer. -/
theorem roundHalfEven_eq (x : ℚ) (n : Int) (h1 : (n : ℚ) - 1 / 2 < x)
    (h2 : x < (n : ℚ) + 1 / 2) : roundHalfEven x = n := by
  have f1 := Int.floor_le x
  have f2 := Int.lt_floor_add_one x
  have a : ⌊x⌋ ≤ n := by
    have : ((⌊x⌋ : Int) : ℚ) < ((n + 1 : Int) : ℚ) := by push_cast; linarith
    have := Int.cast_lt.1 this
    omega
  have b : n ≤ ⌊x⌋ + 1 := by
    have : ((n : Int) : ℚ) < ((⌊x⌋ + 1 + 1 : Int) : ℚ) := by push_cast; linarith
    have := Int.cast_lt.1 this
    omega
  unfold roundHalfEven
  by_cases hfn : ⌊x⌋ = n
  · rw [hfn] at f1 f2 ⊢
    rw [if_pos (by linarith)]
  · have hfn2 : ⌊x⌋ + 1 = n := by omega
    have hc : ((⌊x⌋ : Int) : ℚ) + 1 = (n : ℚ) := by rw [← hfn2]; push_cast; ring
    rw [if_neg (by linarith), if_pos (by linarith)]
    exact hfn2

/-- The quotient `(double) a / (double) b` in a known binade: the significand is the
integer nearest to the scaled exact quotient. -/
theorem doubleDiv_eq (a b : Int) (k n : Int)
    (h1 : (2 : ℚ) ^ k ≤ (a : ℚ) / (b : ℚ)) (h2 : (a : ℚ) / (b : ℚ) < (2 : ℚ) ^ (k + 1))
    (h3 : (n : ℚ) - 1 / 2 < (a : ℚ) / (b : ℚ) * (2 : ℚ) ^ (52 - k))
    (h4 : (a : ℚ) / (b : ℚ) * (2 : ℚ) ^ (52 - k) < (n : ℚ) + 1 / 2) :
    doubleDiv a b = (n : ℚ) * (2 : ℚ) ^ (k - 52) := by
  have hq : (0 : ℚ) < (a : ℚ) / (b : ℚ) := lt_of_lt_of_le (two_zpow_pos k) h1
  unfold doubleDiv toDouble
  rw [if_pos hq, nearestDouble_eq _ k h1 h2, roundHalfEven_eq _ n h3 h4]

/-- The quotient `(double) a / (double) b` of `0 <= a < b` differs from the exact
quotient by at most `2^(-54)`. -/
theorem doubleDiv_error (a b : Int) (ha : 0 ≤ a) (hab : a < b) :
    |doubleDiv a b - (a : ℚ) / (b : ℚ)| ≤ (2 : ℚ) ^ (-54 : Int) := by
  have hb2 : (0 : ℚ) < (b : ℚ) := by exact_mod_cast (lt_of_le_of_lt ha hab)
  have ha2 : (0 : ℚ) ≤ (a : ℚ) := by exact_mod_cast ha
  have hab2 : (a : ℚ) < (b : ℚ) := by exact_mod_cast hab
  have hq1 : (a : ℚ) / (b : ℚ) < 1 := (div_lt_one hb2).2 hab2
  rcases lt_or_eq_of_le (div_nonneg ha2 (le_of_lt hb2)) with hpos | hz
  · unfold doubleDiv toDouble
    rw [if_pos hpos]
    refine le_trans (nearestDouble_error _) ?_
    apply zpow_le_zpow_right₀ (by norm_num)
    have : Int.log 2 ((a : ℚ) / (b : ℚ)) < 0 := by
      apply (Int.lt_zpow_iff_log_lt (b := 2) (by norm_num) hpos).1
      simpa using hq1
    omega
  · unfold doubleDiv toDouble
    rw [← hz]
    simp only [lt_self_iff_false, if_false, sub_zero, abs_zero]
    exact le_of_lt (two_zpow_pos _)

/-! ## Properties of the progress reports -/

theorem rowsFrom_succ (y : Int) (k : Nat) : rowsFrom y (k + 1) = y :: rowsFrom (y + 1) k := by
  unfold rowsFrom
  rw [List.range_succ_eq_map, List.map_cons, List.map_map]
  congr 1
  · simp
  · apply List.map_congr_left
    intro j _
    simp only [Function.comp, Nat.succ_eq_add_one]
    push_cast
    ring

theorem rowsFrom_mem (y : Int) (k : Nat) (t : Int) :
    t ∈ rowsFrom y k ↔ y ≤ t ∧ t < y + k := by
  unfold rowsFrom
  simp only [List.mem_map, List.mem_range]
  constructor
  · rintro ⟨j, hj, rfl⟩; omega
  · intro h
    exact ⟨(t - y).toNat, by omega, by omega⟩

theorem rowsFrom_sorted (y : Int) (k : Nat) : (rowsFrom y k).Pairwise (fun a b => a < b) := by
  induction k generalizing y with
  | zero => simp [rowsFrom]
  | succ k ih =>
    rw [rowsFrom_succ, List.pairwise_cons]
    refine ⟨?_, ih (y + 1)⟩
    intro t ht
    rw [rowsFrom_mem] at ht
    omega

/-- The block load reports no progress. -/
theorem loadBlock_progress (e : Env) (img : Int → Int → Nat) (y : Int) (st st1 : DState)
    (h : loadBlock e img y st = some st1) : st1.progress = st.progress := by
  unfold loadBlock at h
  split at h
  · cases hg : getRect e img st.src_rows st.row st.lasty
        (if e.sel_y2 - st.lasty > e.tile_height then e.tile_height else e.sel_y2 - st.lasty) with
    | none => simp [hg] at h
    | some buf =>
      simp only [hg, Option.some_bind, Option.some.injEq] at h
      rw [← h]
  · simp only [Option.some.injEq] at h
    rw [h]

/-- One iteration of the loop over `y` reports the fraction of row `y` exactly when
`(y & 15) == 0`. -/
theorem rowStep_progress (e : Env) (img : Int → Int → Nat) (y : Int) (st st2 : DState)
    (h : rowStep e img y st = some st2) :
    st2.progress = st.progress ++ (if y % 16 = 0 then [progressFraction e y] else []) := by
  unfold rowStep at h
  cases h1 : loadBlock e img y st with
  | none => simp [h1] at h
  | some st1 =>
    simp only [h1, Option.some_bind] at h
    cases h2 : rowInit e y st1 with
    | none => simp [h2] at h
    | some r0 =>
      simp only [h2, Option.some_bind] at h
      cases h3 : (if y ≥ e.sel_y1 + r0.radius ∧ y < e.sel_y2 - r0.radius then
          xLoop e st1.row y st1.lasty e.width.toNat 0 r0 else some r0) with
      | none => simp [h3] at h
      | some r =>
        simp only [h3, Option.some_bind, Option.some.injEq] at h
        rw [← h]
        simp only []
        rw [loadBlock_progress e img y st st1 h1]
        unfold progressFraction
        split <;> simp

/-- The loop over `y` reports, in order, the fractions of the rows it visits with
`(y & 15) == 0`. -/
theorem yLoop_progress (e : Env) (img : Int → Int → Nat) (k : Nat) (y : Int) (st st2 : DState)
    (h : yLoop e img k y st = some st2) :
    st2.progress = st.progress ++
      ((rowsFrom y k).filter fun t => decide (t % 16 = 0)).map (progressFraction e) := by
  induction k generalizing y st with
  | zero =>
    simp only [yLoop, Option.some.injEq] at h
    simp [rowsFrom, h]
  | succ k ih =>
    simp only [yLoop] at h
    cases h1 : rowStep e img y st with
    | none => simp [h1] at h
    | some st1 =>
      simp only [h1, Option.some_bind] at h
      rw [ih (y + 1) st1 h, rowStep_progress e img y st st1 h1, rowsFrom_succ,
        List.filter_cons]
      by_cases hy : y % 16 = 0
      · simp [hy]
      · simp [hy]

/-- A pass of `despeckle()` that returns has reported exactly `progressList`. -/
theorem despeckle_progress (e : Env) (img : Int → Int → Nat) (m : Mem) (st : DState)
    (h : despeckle e img m = some st) : st.progress = progressList e := by
  unfold despeckle at h
  cases h0 : initState e img m with
  | none => simp [h0] at h
  | some st0 =>
    simp only [h0, Option.some_bind] at h
    rw [yLoop_progress e img _ _ st0 st h]
    have : st0.progress = [] := by
      unfold initState at h0
      cases hg : getRect e img m.src_rows 0 e.sel_y1
          (if e.sel_height < e.tile_height then e.sel_height else e.tile_height) with
      | none => simp [hg] at h0
      | some buf =>
        simp only [hg, Option.some_bind, Option.some.injEq] at h0
        rw [← h0]
    rw [this]
    rfl

theorem progressRows_mem (e : Env) (y : Int) :
    y ∈ progressRows e ↔ e.sel_y1 ≤ y ∧ y < e.sel_y2 ∧ y % 16 = 0 := by
  unfold progressRows
  rw [List.mem_filter, rowsFrom_mem]
  simp only [decide_eq_true_eq, Env.sel_height]
  constructor
  · rintro ⟨⟨h1, h2⟩, h3⟩; exact ⟨h1, by omega, h3⟩
  · rintro ⟨h1, h2, h3⟩; exact ⟨⟨h1, by omega⟩, h3⟩

theorem progressRows_sorted (e : Env) : (progressRows e).Pairwise (fun a b => a < b) :=
  (rowsFrom_sorted _ _).filter _

theorem progressFraction_bounds (e : Env) (y : Int) (h1 : e.sel_y1 ≤ y) (h2 : y < e.sel_y2) :
    0 ≤ progressFraction e y ∧ progressFraction e y ≤ 1 := by
  unfold progressFraction Env.sel_height
  exact doubleDiv_bounds _ _ (by omega) (by omega) (by omega)

theorem progressFraction_mono (e : Env) (a b : Int) (hH : 1 ≤ e.sel_height)
    (ha : e.sel_y1 ≤ a) (hab : a < b) : progressFraction e a ≤ progressFraction e b := by
  unfold progressFraction
  exact doubleDiv_mono _ _ _ (by omega) (by omega) (by omega)

theorem progressFraction_error (e : Env) (y : Int) (h1 : e.sel_y1 ≤ y) (h2 : y < e.sel_y2) :
    |progressFraction e y - ((y - e.sel_y1 : Int) : ℚ) / (e.sel_height : ℚ)|
      ≤ (2 : ℚ) ^ (-54 : Int) := by
  unfold progressFraction Env.sel_height
  exact doubleDiv_error _ _ (by omega) (by omega)

theorem pairwise_and_mem {α : Type} (r : α → α → Prop) (l : List α) (h : l.Pairwise r) :
    l.Pairwise (fun a b => a ∈ l ∧ r a b) := by
  rw [List.pairwise_iff_forall_sublist] at h ⊢
  intro a b hs
  exact ⟨hs.subset (List.mem_cons_self _ _), h hs⟩

theorem progressList_sorted (e : Env) (hH : 1 ≤ e.sel_height) :
    (progressList e).Pairwise (fun a b => a ≤ b) := by
  unfold progressList
  rw [List.pairwise_map]
  exact (pairwise_and_mem _ _ (progressRows_sorted e)).imp fun hab =>
    progressFraction_mono e _ _ hH ((progressRows_mem e _).1 hab.1).1 hab.2

/-- The pass returns on every selection the ring buffer can serve. -/
theorem despeckle_returns (e : Env) (img : Int → Int → Nat) (m : Mem)
    (hH : 1 ≤ e.sel_height) (hb : 0 < e.img_bpp) (hw : 0 ≤ e.sel_width)
    (hR : 1 ≤ e.despeckle_radius) (hT : 2 * e.despeckle_radius ≤ e.tile_height) :
    ∃ st, despeckle e img m = some st := by
  obtain ⟨st, hd, _⟩ := despeckle_sim e img m hb (mul_nonneg hw (le_of_lt hb))
    (by omega) hR hT
  exact ⟨st, hd⟩

theorem progressRows_tall : progressRows tallEnv = [16, 32] := by decide

theorem progressRows_offset : progressRows offsetEnv = [] := by decide

/-- C14: on a selection of at least one row, every fraction a pass of `despeckle()`
reports is the `double` quotient `(double) (y - sel_y1) / (double) sel_height` for a row
`y` of the selection, within `2^(-54)` of the exact quotient `(y - sel_y1) / sel_height`;
every reported `double` lies in `[0, 1]`, and the reported sequence is non-decreasing;
the pass returns whenever the bytes per pixel are positive, the width is not negative,
the radius is at least 1 and the tile height at least twice the radius. -/
theorem c14_progress_values (e : Env) (img : Int → Int → Nat) (m : Mem)
    (hH : 1 ≤ e.sel_height) :
    (∀ st, despeckle e img m = some st →
      st.progress = (progressRows e).map (fun y => doubleDiv (y - e.sel_y1) e.sel_height) ∧
      (∀ y ∈ progressRows e, e.sel_y1 ≤ y ∧ y < e.sel_y2 ∧
        |doubleDiv (y - e.sel_y1) e.sel_height
          - ((y - e.sel_y1 : Int) : ℚ) / (e.sel_height : ℚ)| ≤ (2 : ℚ) ^ (-54 : Int)) ∧
      (∀ f ∈ st.progress, 0 ≤ f ∧ f ≤ 1) ∧
      st.progress.Sorted (fun a b => a ≤ b)) ∧
    (0 < e.img_bpp → 0 ≤ e.sel_width → 1 ≤ e.despeckle_radius →
      2 * e.despeckle_radius ≤ e.tile_height → ∃ st, despeckle e img m = some st) := by
  refine ⟨?_, fun hb hw hR hT => despeckle_returns e img m hH hb hw hR hT⟩
  intro st hd
  rw [despeckle_progress e img m st hd]
  refine ⟨rfl, ?_, ?_, ?_⟩
  · intro y hy
    rw [progressRows_mem] at hy
    exact ⟨hy.1, hy.2.1, progressFraction_error e y hy.1 hy.2.1⟩
  · intro f hf
    unfold progressList at hf
    rw [List.mem_map] at hf
    obtain ⟨y, hy, rfl⟩ := hf
    rw [progressRows_mem] at hy
    exact progressFraction_bounds e y hy.1 hy.2.1
  · exact progressList_sorted e hH

theorem doubleDiv_11_40 : doubleDiv 11 40 = 4953959590107546 / 2 ^ 54 := by
  rw [doubleDiv_eq 11 40 (-2) 4953959590107546 (by norm_num) (by norm_num) (by norm_num)
    (by norm_num)]
  norm_num

theorem doubleDiv_27_40 : doubleDiv 27 40 = 6079859496950170 / 2 ^ 53 := by
  rw [doubleDiv_eq 27 40 (-1) 6079859496950170 (by norm_num) (by norm_num) (by norm_num)
    (by norm_num)]
  norm_num

/-- Witness of C14: a selection of rows 5 to 44 reports after row 16 the `double` nearest
to `11/40`, which is `4953959590107546 / 2^54` (`0x1.199999999999ap-2`), and after row
32 the `double` nearest to `27/40`, which is `6079859496950170 / 2^53`. -/
theorem c14_progress_values_witness :
    1 ≤ tallEnv.sel_height ∧
    ∃ st, despeckle tallEnv smallImg zeroMem = some st ∧
      st.progress = [4953959590107546 / 2 ^ 54, 6079859496950170 / 2 ^ 53] := by
  refine ⟨by decide, ?_⟩
  obtain ⟨st, hd⟩ := (c14_progress_values tallEnv smallImg zeroMem (by decide)).2
    (by decide) (by decide) (by decide) (by decide)
  refine ⟨st, hd, ?_⟩
  rw [((c14_progress_values tallEnv smallImg zeroMem (by decide)).1 st hd).1, progressRows_tall]
  have h1 : (16 : Int) - tallEnv.sel_y1 = 11 := by decide
  have h2 : (32 : Int) - tallEnv.sel_y1 = 27 := by decide
  have h3 : tallEnv.sel_height = 40 := by decide
  simp only [List.map_cons, List.map_nil, h1, h2, h3, doubleDiv_11_40, doubleDiv_27_40]

/-- C15, counterexample: the selection of rows 1 to 3 (`sel_y1 = 1`, `sel_height = 3`)
contains no row with `(y & 15) == 0`; the pass of `despeckle()` returns and has reported
no fraction at all. -/
theorem c15_progress_emission_counterexample :
    0 ≤ offsetEnv.sel_y1 ∧ 1 ≤ offsetEnv.sel_height ∧
    ∃ st, despeckle offsetEnv smallImg zeroMem = some st ∧ st.progress = [] := by
  refine ⟨by decide, by decide, ?_⟩
  obtain ⟨st, hd⟩ := despeckle_returns offsetEnv smallImg zeroMem (by decide) (by decide)
    (by decide) (by decide) (by decide)
  refine ⟨st, hd, ?_⟩
  rw [despeckle_progress _ _ _ st hd]
  unfold progressList
  rw [progressRows_offset]
  rfl

/-- C15, as amended: on a selection of at least one row, a pass of `despeckle()` reports
one fraction after each row `y` of the selection with `(y & 15) == 0`, in row order, and
none after any other row.  Hence every 16 consecutive rows of the selection contain a row
that reports, a selection of at least 16 rows reports at least once, and a selection
that contains no multiple of 16 reports nothing.  The pass returns whenever the bytes per
pixel are positive, the width is not negative, the radius is at least 1 and the tile
height at least twice the radius. -/
theorem c15_progress_emission (e : Env) (img : Int → Int → Nat) (m : Mem)
    (hH : 1 ≤ e.sel_height) :
    (∀ st, despeckle e img m = some st →
      st.progress = (progressRows e).map (progressFraction e) ∧
      (∀ y, y ∈ progressRows e ↔ (e.sel_y1 ≤ y ∧ y < e.sel_y2 ∧ y % 16 = 0)) ∧
      (progressRows e).Pairwise (fun a b => a < b) ∧
      (∀ y0, e.sel_y1 ≤ y0 → y0 + 16 ≤ e.sel_y2 →
        ∃ y, y0 ≤ y ∧ y < y0 + 16 ∧ y ∈ progressRows e) ∧
      (16 ≤ e.sel_height → st.progress ≠ []) ∧
      ((∀ y, e.sel_y1 ≤ y → y < e.sel_y2 → y % 16 ≠ 0) → st.progress = [])) ∧
    (0 < e.img_bpp → 0 ≤ e.sel_width → 1 ≤ e.despeckle_radius →
      2 * e.despeckle_radius ≤ e.tile_height → ∃ st, despeckle e img m = some st) := by
  refine ⟨?_, fun hb hw hR hT => despeckle_returns e img m hH hb hw hR hT⟩
  intro st hd
  rw [despeckle_progress e img m st hd]
  have hwin : ∀ y0, e.sel_y1 ≤ y0 → y0 + 16 ≤ e.sel_y2 →
      ∃ y, y0 ≤ y ∧ y < y0 + 16 ∧ y ∈ progressRows e := by
    intro y0 h0 h1
    refine ⟨y0 + (16 - y0 % 16) % 16, by omega, by omega, ?_⟩
    rw [progressRows_mem]
    refine ⟨by omega, by omega, by omega⟩
  refine ⟨rfl, progressRows_mem e, progressRows_sorted e, hwin, ?_, ?_⟩
  · intro h16
    obtain ⟨y, _, _, hy⟩ := hwin e.sel_y1 (le_refl _) (by unfold Env.sel_height at h16; omega)
    intro hnil
    unfold progressList at hnil
    rw [List.map_eq_nil_iff] at hnil
    rw [hnil] at hy
    exact absurd hy (List.not_mem_nil _)
  · intro hno
    unfold progressList
    rw [List.map_eq_nil_iff, List.eq_nil_iff_forall_not_mem]
    intro y hy
    rw [progressRows_mem] at hy
    exact hno y hy.1 hy.2.1 hy.2.2

/-- Witness of C15 (amended): the selection of rows 5 to 44 has 40 rows and reports after
rows 16 and 32. -/
theorem c15_progress_emission_witness :
    1 ≤ tallEnv.sel_height ∧
    ∃ st, despeckle tallEnv smallImg zeroMem = some st ∧ st.progress ≠ [] ∧
      st.progress = [progressFraction tallEnv 16, progressFraction tallEnv 32] := by
  refine ⟨by decide, ?_⟩
  obtain ⟨st, hd⟩ := (c15_progress_emission tallEnv smallImg zeroMem (by decide)).2
    (by decide) (by decide) (by decide) (by decide)
  refine ⟨st, hd,
    ((c15_progress_emission tallEnv smallImg zeroMem (by decide)).1 st hd).2.2.2.2.1
      (by decide), ?_⟩
  rw [((c15_progress_emission tallEnv smallImg zeroMem (by decide)).1 st hd).1,
    progressRows_tall]
  rfl

/-! ## Recursive feedback -/

/-- In the recursive mode one reference sample keeps the current row of the image equal
to the destination row. -/
theorem refSample_sync (e : Env) (y x : Int) (s : RowSt) (hrec : e.recursive = true)
    (tx : Int) (h : s.src_rows y tx = s.dst_row tx) :
    (refSample e y x s).src_rows y tx = (refSample e y x s).dst_row tx := by
  unfold refSample refStore
  simp only
  split_ifs
  · simp only [true_and]
    split_ifs
    · rfl
    · exact h
  · exact h

theorem refXLoop_sync (e : Env) (y : Int) (hrec : e.recursive = true) (tx : Int) :
    ∀ (k : Nat) (x : Int) (s : RowSt), s.src_rows y tx = s.dst_row tx →
      (refXLoop e y k x s).src_rows y tx = (refXLoop e y k x s).dst_row tx := by
  intro k
  induction k with
  | zero => intro x s h; exact h
  | succ k ih =>
    intro x s h
    simp only [refXLoop]
    exact ih (x + 1) _ (refSample_sync e y x s hrec tx h)

/-- In the recursive mode the row of the image just processed equals the row written to
the shadow tiles. -/
theorem refRowStep_sync (e : Env) (y : Int) (st : RState) (hrec : e.recursive = true)
    (tx : Int) (h0 : 0 ≤ tx) (h1 : tx < e.width) :
    (refRowStep e y st).cur y tx = (refRowStep e y st).shadow y tx := by
  have hinit : (refRowInit e y st).src_rows y tx = (refRowInit e y st).dst_row tx := by
    unfold refRowInit
    simp only
    rw [if_pos ⟨h0, h1⟩]
  have hc : (refRowStep e y st).cur =
      (if interiorRow e y then refXLoop e y e.width.toNat 0 (refRowInit e y st)
        else refRowInit e y st).src_rows := rfl
  have hs : (refRowStep e y st).shadow y tx =
      (if interiorRow e y then refXLoop e y e.width.toNat 0 (refRowInit e y st)
        else refRowInit e y st).dst_row tx := by
    unfold refRowStep
    simp only
    rw [if_pos ⟨trivial, h0, h1⟩]
  rw [hc, hs]
  split_ifs
  · exact refXLoop_sync e y hrec tx _ _ _ hinit
  · exact hinit

/-- The reference loop over `y` leaves the rows before its first row alone. -/
theorem refYLoop_cur_below (e : Env) :
    ∀ (k : Nat) (y0 : Int) (st : RState) (ty tx : Int), ty < y0 →
      (refYLoop e k y0 st).cur ty tx = st.cur ty tx := by
  intro k
  induction k with
  | zero => intro y0 st ty tx _; rfl
  | succ k ih =>
    intro y0 st ty tx h
    simp only [refYLoop]
    rw [ih (y0 + 1) _ ty tx (by omega), refRowStep_cur e y0 st ty tx (by omega)]

/-- The reference state at the head of row `y` is the state at the head of an earlier row
`ty`, one row step, and the loop over the rows between. -/
theorem refStateAtRow_split (e : Env) (img : Int → Int → Nat) (m : Mem) (ty y : Int)
    (h1 : e.sel_y1 ≤ ty) (h2 : ty < y) :
    refStateAtRow e img m y =
      refYLoop e (y - ty - 1).toNat (ty + 1) (refRowStep e ty (refStateAtRow e img m ty)) := by
  obtain ⟨a, ha⟩ : ∃ a : Nat, (a : Int) = ty - e.sel_y1 := ⟨(ty - e.sel_y1).toNat, by omega⟩
  obtain ⟨b, hb⟩ : ∃ b : Nat, (b : Int) = y - ty - 1 := ⟨(y - ty - 1).toNat, by omega⟩
  have hk : (y - e.sel_y1).toNat = a + (1 + b) := by omega
  have ha2 : (ty - e.sel_y1).toNat = a := by omega
  have hb2 : (y - ty - 1).toNat = b := by omega
  unfold refStateAtRow
  rw [hk, refYLoop_split, refYLoop_split, ha2, hb2]
  have hy : e.sel_y1 + (a : Int) = ty := by omega
  rw [hy]
  simp only [refYLoop, Nat.cast_one]

/-- In the recursive mode, once the scan has passed row `ty` the image row `ty` equals
the shadow row `ty`. -/
theorem refStateAtRow_done (e : Env) (img : Int → Int → Nat) (m : Mem) (ty y tx : Int)
    (hrec : e.recursive = true) (h1 : e.sel_y1 ≤ ty) (h2 : ty < y)
    (h0 : 0 ≤ tx) (hw : tx < e.width) :
    (refStateAtRow e img m y).cur ty tx = (refStateAtRow e img m y).shadow ty tx := by
  rw [refStateAtRow_split e img m ty y h1 h2,
    refYLoop_cur_below e _ _ _ ty tx (by omega),
    refYLoop_shadow_frame e _ _ _ ty tx (Or.inl (by omega))]
  exact refRowStep_sync e ty _ hrec tx h0 hw

/-- The shadow row `ty` does not change once the scan has passed row `ty`. -/
theorem refStateAtRow_shadow_done (e : Env) (img : Int → Int → Nat) (m : Mem)
    (ty y y2 tx : Int) (h1 : e.sel_y1 ≤ ty) (h2 : ty < y) (h3 : ty < y2) :
    (refStateAtRow e img m y).shadow ty tx = (refStateAtRow e img m y2).shadow ty tx := by
  rw [refStateAtRow_split e img m ty y h1 h2, refStateAtRow_split e img m ty y2 h1 h3,
    refYLoop_shadow_frame e _ _ _ ty tx (Or.inl (by omega)),
    refYLoop_shadow_frame e _ _ _ ty tx (Or.inl (by omega))]

/-- In the recursive mode, the image the reference semantics holds before sample `x` of
row `y` has the final output at every position of an earlier row. -/
theorem refStateAtSample_earlier_row (e : Env) (img : Int → Int → Nat) (m : Mem)
    (y x ty tx : Int) (hrec : e.recursive = true) (h1 : e.sel_y1 ≤ ty) (h2 : ty < y)
    (h3 : y < e.sel_y2) (h0 : 0 ≤ tx) (hw : tx < e.width) :
    (refStateAtSample e img m y x).src_rows ty tx = (refDespeckle e img m).shadow ty tx := by
  unfold refStateAtSample
  rw [refXLoop_frame e y ty (by omega), refDespeckle_eq_stateAtRow]
  show (refStateAtRow e img m y).cur ty tx = _
  rw [refStateAtRow_done e img m ty y tx hrec h1 h2 h0 hw]
  exact refStateAtRow_shadow_done e img m ty y e.sel_y2 tx h1 h2 (by omega)

/-- In the recursive mode, the image the reference semantics holds before sample `x` of
an interior row `y` has the final output at every earlier offset of the row. -/
theorem refStateAtSample_earlier_col (e : Env) (img : Int → Int → Nat) (m : Mem)
    (y x tx : Int) (hrec : e.recursive = true) (hint : interiorRow e y)
    (hR : 0 ≤ e.despeckle_radius)
    (h0 : 0 ≤ tx) (h1 : tx < x) (hw : x ≤ e.width) :
    (refStateAtSample e img m y x).src_rows y tx = (refDespeckle e img m).shadow y tx := by
  obtain ⟨i1, i2⟩ := id hint
  have hsync : (refStateAtSample e img m y x).src_rows y tx
      = (refStateAtSample e img m y x).dst_row tx := by
    unfold refStateAtSample
    apply refXLoop_sync e y hrec tx
    unfold refRowInit
    simp only
    rw [if_pos ⟨h0, by omega⟩]
  rw [hsync, refDespeckle_eq_stateAtRow,
    refStateAtRow_split e img m y e.sel_y2 (by omega) (by omega),
    refYLoop_shadow_frame e _ _ _ y tx (Or.inl (by omega))]
  unfold refRowStep
  simp only
  rw [if_pos ⟨trivial, h0, by omega⟩, if_pos hint]
  obtain ⟨c, hc⟩ : ∃ c : Nat, (c : Int) = x := ⟨x.toNat, by omega⟩
  obtain ⟨d, hd⟩ : ∃ d : Nat, (d : Int) = e.width - x := ⟨(e.width - x).toNat, by omega⟩
  have hwd : e.width.toNat = c + d := by omega
  have hcx : x.toNat = c := by omega
  rw [hwd, refXLoop_split, refXLoop_dst_frame e y d _ _ tx (Or.inl (by omega))]
  unfold refStateAtSample
  rw [hcx]

/-- C17: for tile height at least twice the radius, `despeckle()` returns and reaches
every sample `(x, y)` of every interior row; at the moment its window is collected, for
every row `ty` of the window and every byte offset `tx` of the row, the ring slot of row
`ty` is valid and, with the recursive flag set, holds at `tx` the final output value when
`(ty, tx)` precedes `(y, x)` in scan order (an earlier row, or the same row at a smaller
byte offset) and the source sample when `(ty, tx)` is at or after `(y, x)`; with the
recursive flag clear it holds the source sample at every position. -/
theorem c17_recursive_feedback (e : Env) (img : Int → Int → Nat) (m : Mem)
    (hb : 0 < e.img_bpp)
    (hR : 1 ≤ e.despeckle_radius) (hT : 2 * e.despeckle_radius ≤ e.tile_height)
    (y x : Int) (hint : interiorRow e y) (hx0 : 0 ≤ x) (hx1 : x < e.width) :
    ∃ st st1 s, despeckle e img m = some st ∧ stateAtSample e img m y x = some (st1, s) ∧
      1 ≤ s.radius ∧ s.radius ≤ e.despeckle_radius ∧
      ∀ ty tx, y - s.radius ≤ ty → ty ≤ y + s.radius → 0 ≤ tx → tx < e.width →
        (0 ≤ curSlot e st1.row ty st1.lasty ∧ curSlot e st1.row ty st1.lasty < e.max_row) ∧
        (e.recursive = true → (ty < y ∨ (ty = y ∧ tx < x)) →
          s.src_rows (curSlot e st1.row ty st1.lasty) tx = st.shadow ty tx) ∧
        (e.recursive = true → (y < ty ∨ (ty = y ∧ x ≤ tx)) →
          s.src_rows (curSlot e st1.row ty st1.lasty) tx = img ty tx) ∧
        (e.recursive = false →
          s.src_rows (curSlot e st1.row ty st1.lasty) tx = img ty tx) := by
  have hm : e.max_row = 2 * e.tile_height := rfl
  obtain ⟨i1, i2⟩ := id hint
  obtain ⟨st, hd, hinv⟩ := despeckle_sim e img m hb (by omega)
    (by show 0 ≤ e.sel_y2 - e.sel_y1; omega) hR hT
  obtain ⟨st1, s, hs, hrel, b1, b2, w1, w2⟩ :=
    stateAtSample_sim e img m hb hR hT y x hint hx0 (by omega)
  refine ⟨st, st1, s, hd, hs, b1, b2, ?_⟩
  intro ty tx t1 t2 t3 t4
  obtain ⟨r1, r2⟩ := hrel.2.2 ty (by omega) (by omega)
  have hval := r2 tx t3 t4
  refine ⟨curSlot_range e st1.row ty st1.lasty r1 (by omega), ?_, ?_, ?_⟩
  · intro hrec hbefore
    rw [hval, hinv.2.2.1]
    rcases hbefore with h | ⟨h, h2⟩
    · exact refStateAtSample_earlier_row e img m y x ty tx hrec (by omega) h (by omega) t3 t4
    · subst h
      exact refStateAtSample_earlier_col e img m ty x tx hrec hint (by omega) t3 h2
        (by omega)
  · intro _ hafter
    rw [hval]
    exact refStateAtSample_src e img m y x ty tx (by omega) hafter
  · intro hrec
    rw [hval, refStateAtSample_src_plain e img m y x hrec]

/-- Witness of C17: in the recursive pass over the 3 x 3 image, when the window of sample
`(1, 1)` is collected the slot of row 1 holds at byte offset 0 the final output of
`(1, 0)`. -/
theorem c17_recursive_feedback_witness :
    (0 < recursiveEnv.img_bpp ∧ 1 ≤ recursiveEnv.despeckle_radius ∧
      2 * recursiveEnv.despeckle_radius ≤ recursiveEnv.tile_height ∧
      interiorRow recursiveEnv 1 ∧ (0 : Int) ≤ 1 ∧ 1 < recursiveEnv.width) ∧
    ∃ st st1 s, despeckle recursiveEnv smallImg zeroMem = some st ∧
      stateAtSample recursiveEnv smallImg zeroMem 1 1 = some (st1, s) ∧
      s.src_rows (curSlot recursiveEnv st1.row 1 st1.lasty) 0 = st.shadow 1 0 := by
  refine ⟨by decide, ?_⟩
  obtain ⟨st, st1, s, h1, h2, h3, h4, h5⟩ := c17_recursive_feedback recursiveEnv smallImg
    zeroMem (by decide) (by decide) (by decide) 1 1 (by decide) (by decide) (by decide)
  exact ⟨st, st1, s, h1, h2,
    (h5 1 0 (by omega) (by omega) (by decide) (by decide)).2.1 (by decide)
      (Or.inr ⟨rfl, by decide⟩)⟩

theorem recursive_small_center : (refDespeckle recursiveEnv smallImg zeroMem).shadow 1 1 = 3 := by
  decide

theorem recursive_small_left : (refDespeckle recursiveEnv smallImg zeroMem).shadow 1 0 = 0 := by
  decide

/-- C18: the recursive mode is observable.  On the 3 x 3 image with rows `0 0 10`,
`10 7 10`, `0 0 10` (radius 1, levels 0 and 255) the passes of `despeckle()` with the
recursive flag set and clear both return and differ at sample `(1, 1)`: 3 against 8.  The
window of `(1, 1)` contains its left neighbour `(1, 0)`, filtered before it from 10 to
0, and the recursive pass collects that 0 where the other pass collects the source 10. -/
theorem c18_recursive_observable :
    ∃ st1 st0 w1 s1 w0 s0 a1 a0,
      recursiveEnv.recursive = true ∧ smallEnv.recursive = false ∧
      recursiveEnv = { smallEnv with filter_type := 2 } ∧
      despeckle recursiveEnv smallImg zeroMem = some st1 ∧
      despeckle smallEnv smallImg zeroMem = some st0 ∧
      st1.shadow 1 1 = 3 ∧ st0.shadow 1 1 = 8 ∧ st1.shadow 1 1 ≠ st0.shadow 1 1 ∧
      smallImg 1 0 = 10 ∧ st1.shadow 1 0 = 0 ∧ st0.shadow 1 0 = 0 ∧
      (1 : Int) ∈ windowRows 1 1 ∧ (0 : Int) ∈ windowCols recursiveEnv 1 1 ∧
      stateAtSample recursiveEnv smallImg zeroMem 1 1 = some (w1, s1) ∧
      stateAtSample smallEnv smallImg zeroMem 1 1 = some (w0, s0) ∧
      collect recursiveEnv w1.row 1 w1.lasty 1 s1 = some a1 ∧
      collect smallEnv w0.row 1 w0.lasty 1 s0 = some a0 ∧
      a1.sort = [0, 0, 10, 0, 7, 10, 0, 0, 10] ∧
      a0.sort = [0, 0, 10, 10, 7, 10, 0, 0, 10] := by
  obtain ⟨st1, hd1, hinv1⟩ := despeckle_sim recursiveEnv smallImg zeroMem (by decide)
    (by decide) (by decide) (by decide) (by decide)
  obtain ⟨st0, hd0, hinv0⟩ := despeckle_sim smallEnv smallImg zeroMem (by decide)
    (by decide) (by decide) (by decide) (by decide)
  obtain ⟨_, w1, s1, a1, _, k1, k2, k3, k4, _⟩ := sample_master recursiveEnv smallImg zeroMem
    (by decide) (by decide) (by decide) 1 1 (by decide) (by decide) (by decide)
  obtain ⟨_, w0, s0, a0, _, j1, j2, j3, j4, _⟩ := sample_master smallEnv smallImg zeroMem
    (by decide) (by decide) (by decide) 1 1 (by decide) (by decide) (by decide)
  have e1 : st1.shadow 1 1 = 3 := by rw [hinv1.2.2.1]; decide
  have e0 : st0.shadow 1 1 = 8 := by rw [hinv0.2.2.1]; decide
  refine ⟨st1, st0, w1, s1, w0, s0, a1, a0, by decide, by decide, rfl, hd1, hd0, e1, e0, ?_,
    by decide, ?_, ?_, by decide, by decide, k1, j1, k2, j2, ?_, ?_⟩
  · rw [e1, e0]; decide
  · rw [hinv1.2.2.1]; decide
  · rw [hinv0.2.2.1]; decide
  · rw [k3, k4]; decide
  · rw [j3, j4]; decide

/-! ## Radius reset -/

/-- The loop over `x` starts from the state `rowInit` leaves. -/
theorem stateAtSample_zero (e : Env) (img : Int → Int → Nat) (m : Mem) (y : Int)
    (st st1 : DState) (r0 : RowSt) (h1 : stateAtRow e img m y = some st)
    (h2 : loadBlock e img y st = some st1) (h3 : rowInit e y st1 = some r0) :
    stateAtSample e img m y 0 = some (st1, r0) := by
  unfold stateAtSample
  rw [h1, Option.some_bind, h2, Option.some_bind, h3, Option.some_bind]
  rfl

/-- Every sample state of row `y` carries the state left by the block load of row `y`. -/
theorem stateAtSample_fst (e : Env) (img : Int → Int → Nat) (m : Mem) (y x : Int)
    (st st1 st2 : DState) (s : RowSt) (h1 : stateAtRow e img m y = some st)
    (h2 : loadBlock e img y st = some st1)
    (h : stateAtSample e img m y x = some (st2, s)) : st2 = st1 := by
  unfold stateAtSample at h
  rw [h1, Option.some_bind, h2, Option.some_bind] at h
  cases h3 : rowInit e y st1 with
  | none => rw [h3] at h; simp at h
  | some r0 =>
    rw [h3, Option.some_bind] at h
    cases h4 : xLoop e st1.row y st1.lasty x.toNat 0 r0 with
    | none => rw [h4] at h; simp at h
    | some s1 =>
      rw [h4, Option.some_bind] at h
      simp only [Option.some.injEq, Prod.mk.injEq] at h
      exact h.1.symm

/-- C19: in every mode (tile height at least twice the radius), for every row `y` of the
selection the pass reaches the row, the block load and the row start return, and the
radius the row starts with is `despeckle_radius`: it is the radius of the test that
decides whether the row is filtered and the radius used for the sample at byte offset 0.
In a filtered row the radius used for the sample at byte offset `x + 1` is the radius the
adaptive adjustment produced after the sample at byte offset `x` (for every byte offset,
so also between the channels of one pixel). -/
theorem c19_radius_reset (e : Env) (img : Int → Int → Nat) (m : Mem)
    (hb : 0 < e.img_bpp) (hw : 0 ≤ e.sel_width)
    (hR : 1 ≤ e.despeckle_radius) (hT : 2 * e.despeckle_radius ≤ e.tile_height)
    (y : Int) (hy1 : e.sel_y1 ≤ y) (hy2 : y < e.sel_y2) :
    ∃ st st1 r0, stateAtRow e img m y = some st ∧ loadBlock e img y st = some st1 ∧
      rowInit e y st1 = some r0 ∧ r0.radius = e.despeckle_radius ∧
      ((y ≥ e.sel_y1 + r0.radius ∧ y < e.sel_y2 - r0.radius) ↔ interiorRow e y) ∧
      stateAtSample e img m y 0 = some (st1, r0) ∧
      (interiorRow e y → ∀ x, 0 ≤ x → x < e.width →
        ∃ s a s1, stateAtSample e img m y x = some (st1, s) ∧
          collect e st1.row y st1.lasty x s = some a ∧
          stateAtSample e img m y (x + 1) = some (st1, s1) ∧
          s1.radius = adaptRadius e a.hist0 a.hist255 s.radius) := by
  obtain ⟨st, hs, hinv⟩ := stateAtRow_sim e img m hb (mul_nonneg hw (le_of_lt hb)) hR hT y
    hy1 (le_of_lt hy2)
  obtain ⟨st1, r0, hl, hi, hrad, _⟩ := rowInit_sim e img y st _ hR hT hy2 hinv
  refine ⟨st, st1, r0, hs, hl, hi, hrad, ?_, stateAtSample_zero e img m y st st1 r0 hs hl hi, ?_⟩
  · rw [hrad]; rfl
  · intro hint x hx0 hx1
    obtain ⟨st2, s, a, s1, k1, k2, _, k4, k5, _⟩ := sample_next e img m hb hR hT y x hint hx0 hx1
    have h21 : st2 = st1 := stateAtSample_fst e img m y x st st1 st2 s hs hl k1
    subst h21
    exact ⟨s, a, s1, k1, k2, k4, k5⟩

/-- Witness of C19: row 2 of the 5 x 8 adaptive and recursive selection starts at radius
2. -/
theorem c19_radius_reset_witness :
    (0 < adaptiveEnv.img_bpp ∧ 0 ≤ adaptiveEnv.sel_width ∧ 1 ≤ adaptiveEnv.despeckle_radius ∧
      2 * adaptiveEnv.despeckle_radius ≤ adaptiveEnv.tile_height ∧
      adaptiveEnv.sel_y1 ≤ 2 ∧ (2 : Int) < adaptiveEnv.sel_y2) ∧
    ∃ st1 r0, stateAtSample adaptiveEnv flatImg zeroMem 2 0 = some (st1, r0) ∧
      r0.radius = 2 := by
  refine ⟨by decide, ?_⟩
  obtain ⟨_, st1, r0, _, _, _, h4, _, h6, _⟩ := c19_radius_reset adaptiveEnv flatImg zeroMem
    (by decide) (by decide) (by decide) (by decide) 2 (by decide) (by decide)
  exact ⟨st1, r0, h6, h4⟩

/-! ## Window geometry -/

/-- The values `colLoop` folds are the samples at the positions `colLoopReads` records. -/
theorem colLoop_reads (e : Env) (buf : Int → Int → Nat) (trow xmax : Int) :
    ∀ (fuel : Nat) (tx : Int) (a : Acc),
      colLoop e buf trow xmax fuel tx a =
        (colLoopReads e trow xmax fuel tx).map fun l =>
          collectList e a (l.map fun p => buf p.1 p.2) := by
  intro fuel
  induction fuel with
  | zero => intro tx a; rfl
  | succ f ih =>
    intro tx a
    simp only [colLoop, colLoopReads, readBuf]
    by_cases hlt : tx < xmax
    · rw [if_pos hlt, if_pos hlt]
      by_cases hv : 0 ≤ trow ∧ trow < e.max_row ∧ 0 ≤ tx ∧ tx < e.width
      · rw [if_pos hv, if_pos hv, Option.some_bind, ih, Option.map_map]
        rfl
      · rw [if_neg hv, if_neg hv]; rfl
    · rw [if_neg hlt, if_neg hlt]; rfl

/-- The values `rowLoop` folds are the samples at the positions `rowLoopReads` records. -/
theorem rowLoop_reads (e : Env) (buf : Int → Int → Nat) (xmin xmax endrow : Int) :
    ∀ (fuel : Nat) (trow : Int) (a : Acc),
      rowLoop e buf xmin xmax endrow fuel trow a =
        (rowLoopReads e xmin xmax endrow fuel trow).map fun l =>
          collectList e a (l.map fun p => buf p.1 p.2) := by
  intro fuel
  induction fuel with
  | zero => intro trow a; rfl
  | succ f ih =>
    intro trow a
    simp only [rowLoop, rowLoopReads]
    by_cases hne : trow ≠ endrow
    · rw [if_pos hne, if_pos hne, colLoop_reads]
      cases h1 : colLoopReads e trow xmax ((xmax - xmin).toNat + 1) xmin with
      | none => rfl
      | some l1 =>
        simp only [Option.map_some', Option.some_bind]
        rw [ih, Option.map_map]
        congr 1
        funext l
        simp only [Function.comp, List.map_append, collectList_append]
    · rw [if_neg hne, if_neg hne]; rfl

/-- The collection of one sample folds the samples at the positions `collectReads`
records: `collectReads` is the read trace of `collect`. -/
theorem collect_reads (e : Env) (row y lasty x : Int) (s : RowSt) :
    collect e row y lasty x s =
      (collectReads e row y lasty x s.radius).map fun l =>
        collectList e ⟨[], 0, 0⟩ (l.map fun p => s.src_rows p.1 p.2) := by
  unfold collect collectReads
  exact rowLoop_reads e s.src_rows _ _ _ _ _ _

theorem colLoopReads_eq (e : Env) (trow xmax : Int) (hb : 0 < e.img_bpp)
    (ht : 0 ≤ trow ∧ trow < e.max_row) (hx : xmax ≤ e.width) :
    ∀ (fuel : Nat) (xmin : Int), 0 ≤ xmin → (xmax - xmin).toNat + 1 ≤ fuel →
      colLoopReads e trow xmax fuel xmin =
        some ((colsFrom e.img_bpp xmin xmax).map fun tx => (trow, tx)) := by
  intro fuel
  induction fuel with
  | zero => intro xmin _ h; omega
  | succ f ih =>
    intro xmin h0 hf
    by_cases hlt : xmin < xmax
    · rw [colsFrom_cons _ _ _ hb hlt]
      simp only [colLoopReads, if_pos hlt]
      rw [if_pos ⟨ht.1, ht.2, h0, by omega⟩, ih (xmin + e.img_bpp) (by omega) (by omega)]
      rfl
    · rw [colsFrom_nil _ _ _ hb (by omega)]
      simp only [colLoopReads, if_neg hlt, List.map_nil]

theorem rowLoopReads_eq (e : Env) (slot : Int → Int) (xmin xmax : Int)
    (hb : 0 < e.img_bpp) (hx0 : 0 ≤ xmin) (hx : xmax ≤ e.width) :
    ∀ (c : Nat) (B y0 : Int) (fuel : Nat), 0 ≤ B → (c : Int) < e.max_row →
      c + 1 ≤ fuel →
      (∀ k : Nat, k < c → (B + k) % e.max_row = slot (y0 + k)) →
      rowLoopReads e xmin xmax ((B + c) % e.max_row) fuel (B % e.max_row) =
        some (((List.range c).map fun k : Nat => y0 + (k : Int)).flatMap fun ty =>
            (colsFrom e.img_bpp xmin xmax).map fun tx => (slot ty, tx)) := by
  intro c
  induction c with
  | zero =>
    intro B y0 fuel _ _ hf _
    obtain ⟨f, rfl⟩ : ∃ f, fuel = f + 1 := ⟨fuel - 1, by omega⟩
    simp [rowLoopReads]
  | succ c ih =>
    intro B y0 fuel hB hc hf hres
    obtain ⟨f, rfl⟩ : ∃ f, fuel = f + 1 := ⟨fuel - 1, by omega⟩
    have hm : 0 < e.max_row := by omega
    have hne : B % e.max_row ≠ (B + ((c + 1 : Nat) : Int)) % e.max_row :=
      emod_ne_of_lt B _ _ (by omega) hc
    have hslot : 0 ≤ B % e.max_row ∧ B % e.max_row < e.max_row :=
      ⟨Int.emod_nonneg _ (by omega), Int.emod_lt_of_pos _ hm⟩
    have hcol := colLoopReads_eq e (B % e.max_row) xmax hb hslot hx
      ((xmax - xmin).toNat + 1) xmin hx0 (le_refl _)
    have hnext : Int.tmod (B % e.max_row + 1) e.max_row = (B + 1) % e.max_row := by
      rw [Int.tmod_eq_emod (by omega) (by omega), Int.emod_add_emod]
    have hend : (B + ((c + 1 : Nat) : Int)) % e.max_row = ((B + 1) + (c : Int)) % e.max_row := by
      congr 1; push_cast; ring
    have h0 : B % e.max_row = slot y0 := by
      have := hres 0 (by omega)
      simpa using this
    rw [range_succ_flatMap]
    simp only [rowLoopReads, hne, ne_eq, not_false_eq_true, if_true, hcol, Option.some_bind,
      hnext]
    rw [hend, ih (B + 1) (y0 + 1) f (by omega) (by omega) (by omega), h0]
    · rfl
    · intro k hk
      have := hres (k + 1) (by omega)
      have e1 : B + ((k + 1 : Nat) : Int) = B + 1 + (k : Int) := by push_cast; ring
      have e2 : y0 + ((k + 1 : Nat) : Int) = y0 + 1 + (k : Int) := by push_cast; ring
      rw [e1, e2] at this; exact this

/-- With the window rows inside the ring, the collection reads, row by row, the window
offsets of the slots of the window rows. -/
theorem collectReads_eq (e : Env) (row y lasty x r : Int)
    (hb : 0 < e.img_bpp) (hx : 0 ≤ x) (hr : 0 ≤ r) (hm : 2 * r + 1 < e.max_row)
    (hB : 0 ≤ row + y - lasty - r + e.max_row) :
    collectReads e row y lasty x r =
      some ((windowRows y r).flatMap fun ty =>
        (windowCols e x r).map fun tx => (curSlot e row ty lasty, tx)) := by
  have hm0 : 0 < e.max_row := by omega
  obtain ⟨c, hc⟩ : ∃ c : Nat, (c : Int) = 2 * r + 1 := ⟨(2 * r + 1).toNat, by omega⟩
  have hstart : Int.tmod (row + y - lasty - r + e.max_row) e.max_row
      = (row + y - lasty - r + e.max_row) % e.max_row :=
    Int.tmod_eq_emod hB (by omega)
  have hend : Int.tmod (row + y - lasty + r + 1 + e.max_row) e.max_row
      = ((row + y - lasty - r + e.max_row) + (c : Int)) % e.max_row := by
    rw [Int.tmod_eq_emod (by omega) (by omega), hc]; congr 1; ring
  have key := rowLoopReads_eq e (fun ty => curSlot e row ty lasty) (winXmin e x r)
    (winXmax e x r) hb (winXmin_nonneg e x r hb hx) (winXmax_le e x r) c
    (row + y - lasty - r + e.max_row) (y - r) (e.max_row.toNat + 1)
    hB (by omega) (by omega)
    (by
      intro k hk
      show _ = curSlot e row (y - r + k) lasty
      rw [curSlot_eq e row _ lasty (by omega) hm0]
      congr 1; ring)
  unfold collectReads windowRows windowCols
  simp only
  have hcn : (2 * r + 1).toNat = c := by omega
  rw [hcn]
  unfold winXmin winXmax at key
  rw [hstart, hend]
  exact key

theorem colsFrom_mem_iff (bpp xmin xmax tx : Int) (hb : 0 < bpp) :
    tx ∈ colsFrom bpp xmin xmax ↔ xmin ≤ tx ∧ tx < xmax ∧ (tx - xmin) % bpp = 0 := by
  constructor
  · exact colsFrom_mem bpp hb xmax _ xmin tx (le_refl _)
  · rintro ⟨h1, h2, h3⟩
    obtain ⟨q, hq⟩ := Int.dvd_of_emod_eq_zero h3
    have hq0 : 0 ≤ q := by
      by_contra hneg
      have : bpp * q < 0 := Int.mul_neg_of_pos_of_neg hb (by omega)
      omega
    unfold colsFrom
    rw [List.mem_map]
    refine ⟨q.toNat, ?_, ?_⟩
    · rw [List.mem_range]
      have hle : q + 1 ≤ (xmax - xmin + bpp - 1) / bpp := by
        apply Int.le_ediv_of_mul_le hb
        have : (q + 1) * bpp = bpp * q + bpp := by ring
        rw [this]; omega
      omega
    · have : ((q.toNat : Nat) : Int) = q := Int.toNat_of_nonneg hq0
      rw [this]
      have : q * bpp = bpp * q := by ring
      rw [this]; omega

theorem windowRows_mem_iff (y r ty : Int) :
    ty ∈ windowRows y r ↔ y - r ≤ ty ∧ ty ≤ y + r := by
  constructor
  · exact windowRows_mem y r ty
  · rintro ⟨h1, h2⟩
    unfold windowRows
    rw [List.mem_map]
    exact ⟨(ty - (y - r)).toNat, List.mem_range.2 (by omega), by omega⟩

/-- The window offsets of byte offset `x` at radius `r` are the offsets of the channel of
`x` between `max (0, x - r * bpp)` and `min (width - 1, x + r * bpp)`. -/
theorem windowCols_mem_iff (e : Env) (x r tx : Int) (hb : 0 < e.img_bpp) (hx0 : 0 ≤ x)
    (hr : 0 ≤ r) :
    tx ∈ windowCols e x r ↔
      tx % e.img_bpp = x % e.img_bpp ∧ max 0 (x - r * e.img_bpp) ≤ tx ∧
        tx ≤ min (e.width - 1) (x + r * e.img_bpp) := by
  have hrb : 0 ≤ r * e.img_bpp := mul_nonneg hr (le_of_lt hb)
  have hsucc : (r + 1) * e.img_bpp = r * e.img_bpp + e.img_bpp := by ring
  constructor
  · intro h
    obtain ⟨a1, a2, a3⟩ := windowCols_mem e x r tx hb hx0 h
    unfold windowCols at h
    rw [colsFrom_mem_iff _ _ _ _ hb] at h
    obtain ⟨h1, h2, _⟩ := h
    refine ⟨a3, max_le a1 ?_, le_min (by omega) ?_⟩
    · unfold winXmin at h1
      split at h1 <;> omega
    · have hd : (tx - x) % e.img_bpp = 0 := Int.emod_eq_emod_iff_emod_sub_eq_zero.1 a3
      obtain ⟨q, hq⟩ := Int.dvd_of_emod_eq_zero hd
      have h3 : tx < x + (r + 1) * e.img_bpp := by
        unfold winXmax at h2
        split at h2 <;> omega
      have hqr : q ≤ r := by
        by_contra hneg
        have : e.img_bpp * (r + 1) ≤ e.img_bpp * q :=
          Int.mul_le_mul_of_nonneg_left (by omega) (le_of_lt hb)
        have e1 : e.img_bpp * (r + 1) = r * e.img_bpp + e.img_bpp := by ring
        omega
      have : e.img_bpp * q ≤ e.img_bpp * r := Int.mul_le_mul_of_nonneg_left hqr (le_of_lt hb)
      have e2 : e.img_bpp * r = r * e.img_bpp := by ring
      omega
  · rintro ⟨c1, c2, c3⟩
    have b1 := (max_le_iff.1 c2).1
    have b2 := (max_le_iff.1 c2).2
    have b3 := (le_min_iff.1 c3).1
    have b4 := (le_min_iff.1 c3).2
    unfold windowCols
    rw [colsFrom_mem_iff _ _ _ _ hb]
    refine ⟨?_, ?_, ?_⟩
    · unfold winXmin
      split
      · rw [Int.tmod_eq_emod hx0 (by omega), ← c1]
        have h1 := Int.emod_add_ediv tx e.img_bpp
        have h2 : 0 ≤ tx / e.img_bpp := Int.ediv_nonneg b1 (le_of_lt hb)
        have h3 : 0 ≤ e.img_bpp * (tx / e.img_bpp) := mul_nonneg (le_of_lt hb) h2
        omega
      · omega
    · unfold winXmax
      split <;> omega
    · apply Int.emod_eq_emod_iff_emod_sub_eq_zero.1
      rw [winXmin_emod e x r hb hx0, c1]

/-- The ring slots of two rows of one window are different. -/
theorem curSlot_inj (e : Env) (row lasty ty ty2 : Int)
    (h1 : 0 ≤ row + ty - lasty + e.max_row) (h2 : 0 ≤ row + ty2 - lasty + e.max_row)
    (hd1 : ty - ty2 < e.max_row) (hd2 : ty2 - ty < e.max_row)
    (h : curSlot e row ty lasty = curSlot e row ty2 lasty) : ty = ty2 := by
  unfold curSlot at h
  have := tmod_inj _ _ e.max_row h1 h2 (by omega) (by omega) (by omega) h
  omega

/-- C20: for every positive number of bytes per pixel, every byte offset `x` of the row
and every interior row `y` (tile height at least twice the radius), the pass reaches
sample `(x, y)` with a current radius `r >= 1`, the collection returns, and the buffer
positions it reads are exactly the positions `(slot of row ty, tx)` with
`y - r <= ty <= y + r`, `tx` congruent to `x` modulo the bytes per pixel and
`max (0, x - r * bpp) <= tx <= min (width * bpp - 1, x + r * bpp)`.  The slots of the
window rows are valid, pairwise different and hold the current samples of those rows.
Every byte offset read lies in `[0, width * bpp)` and in the channel of `x`. -/
theorem c20_window_geometry (e : Env) (img : Int → Int → Nat) (m : Mem)
    (hb : 0 < e.img_bpp)
    (hR : 1 ≤ e.despeckle_radius) (hT : 2 * e.despeckle_radius ≤ e.tile_height)
    (y x : Int) (hint : interiorRow e y) (hx0 : 0 ≤ x) (hx1 : x < e.sel_width * e.img_bpp) :
    ∃ st1 s reads, stateAtSample e img m y x = some (st1, s) ∧ 1 ≤ s.radius ∧
      collectReads e st1.row y st1.lasty x s.radius = some reads ∧
      collect e st1.row y st1.lasty x s =
        some (collectList e ⟨[], 0, 0⟩ (reads.map fun p => s.src_rows p.1 p.2)) ∧
      (∀ slot tx, (slot, tx) ∈ reads ↔
        ∃ ty, slot = curSlot e st1.row ty st1.lasty ∧
          y - s.radius ≤ ty ∧ ty ≤ y + s.radius ∧
          tx % e.img_bpp = x % e.img_bpp ∧
          max 0 (x - s.radius * e.img_bpp) ≤ tx ∧
          tx ≤ min (e.sel_width * e.img_bpp - 1) (x + s.radius * e.img_bpp)) ∧
      (∀ ty, y - s.radius ≤ ty → ty ≤ y + s.radius →
        (0 ≤ curSlot e st1.row ty st1.lasty ∧ curSlot e st1.row ty st1.lasty < e.max_row) ∧
        (∀ tx, 0 ≤ tx → tx < e.sel_width * e.img_bpp →
          s.src_rows (curSlot e st1.row ty st1.lasty) tx
            = (refStateAtSample e img m y x).src_rows ty tx) ∧
        ∀ ty2, y - s.radius ≤ ty2 → ty2 ≤ y + s.radius →
          curSlot e st1.row ty st1.lasty = curSlot e st1.row ty2 st1.lasty → ty = ty2) ∧
      (∀ p ∈ reads, 0 ≤ p.2 ∧ p.2 < e.sel_width * e.img_bpp ∧
        p.2 % e.img_bpp = x % e.img_bpp) := by
  have hm : e.max_row = 2 * e.tile_height := rfl
  have hwd : e.width = e.sel_width * e.img_bpp := rfl
  obtain ⟨st1, s, hs, hrel, b1, b2, w1, w2⟩ :=
    stateAtSample_sim e img m hb hR hT y x hint hx0 (by omega)
  have hres : ∀ ty, y - s.radius ≤ ty → ty ≤ y + s.radius →
      Resident e s.src_rows (refStateAtSample e img m y x).src_rows st1.row st1.lasty ty :=
    fun ty h1 h2 => hrel.2.2 ty (by omega) (by omega)
  have hB : 0 ≤ st1.row + y - st1.lasty - s.radius + e.max_row := by
    have := (hres (y - s.radius) (le_refl _) (by omega)).1
    omega
  have hreads := collectReads_eq e st1.row y st1.lasty x s.radius hb hx0 (by omega)
    (by omega) hB
  have hmemw : ∀ slot tx, (slot, tx) ∈ ((windowRows y s.radius).flatMap fun ty =>
      (windowCols e x s.radius).map fun tx => (curSlot e st1.row ty st1.lasty, tx)) ↔
      ∃ ty, slot = curSlot e st1.row ty st1.lasty ∧ ty ∈ windowRows y s.radius ∧
        tx ∈ windowCols e x s.radius := by
    intro slot tx
    simp only [List.mem_flatMap, List.mem_map, Prod.mk.injEq]
    constructor
    · rintro ⟨ty, h1, tx2, h2, h3, h4⟩
      subst h4
      exact ⟨ty, h3.symm, h1, h2⟩
    · rintro ⟨ty, h1, h2, h3⟩
      exact ⟨ty, h2, tx, h3, h1.symm, rfl⟩
  refine ⟨st1, s, _, hs, b1, hreads, ?_, ?_, ?_, ?_⟩
  · rw [collect_reads, hreads]; rfl
  · intro slot tx
    rw [hmemw]
    constructor
    · rintro ⟨ty, h1, h2, h3⟩
      rw [windowRows_mem_iff] at h2
      rw [windowCols_mem_iff e x s.radius tx hb hx0 (by omega), hwd] at h3
      exact ⟨ty, h1, h2.1, h2.2, h3.1, h3.2.1, h3.2.2⟩
    · rintro ⟨ty, h1, h2, h3, h4, h5, h6⟩
      refine ⟨ty, h1, (windowRows_mem_iff _ _ _).2 ⟨h2, h3⟩, ?_⟩
      rw [windowCols_mem_iff e x s.radius tx hb hx0 (by omega), hwd]
      exact ⟨h4, h5, h6⟩
  · intro ty h1 h2
    obtain ⟨r1, r2⟩ := hres ty h1 h2
    refine ⟨curSlot_range e st1.row ty st1.lasty r1 (by omega), ?_, ?_⟩
    · intro tx t1 t2
      exact r2 tx t1 (by omega)
    · intro ty2 k1 k2 heq
      exact curSlot_inj e st1.row st1.lasty ty ty2 r1 (hres ty2 k1 k2).1 (by omega) (by omega)
        heq
  · intro p hp
    obtain ⟨ty, _, _, h3⟩ := (hmemw p.1 p.2).1 hp
    obtain ⟨c1, c2, c3⟩ := windowCols_mem e x s.radius p.2 hb hx0 h3
    exact ⟨c1, by omega, c3⟩

/-- Witness of C20: the sample at byte offset 4 (channel 1 of the second pixel) of row 1
of a 3 x 2 selection of three-channel pixels reads byte offsets of channel 1 only. -/
theorem c20_window_geometry_witness :
    (0 < rgbEnv.img_bpp ∧ 1 ≤ rgbEnv.despeckle_radius ∧
      2 * rgbEnv.despeckle_radius ≤ rgbEnv.tile_height ∧ interiorRow rgbEnv 1 ∧
      (0 : Int) ≤ 4 ∧ 4 < rgbEnv.sel_width * rgbEnv.img_bpp) ∧
    ∃ st1 s reads, stateAtSample rgbEnv smallImg zeroMem 1 4 = some (st1, s) ∧
      collectReads rgbEnv st1.row 1 st1.lasty 4 s.radius = some reads ∧
      ∀ p ∈ reads, 0 ≤ p.2 ∧ p.2 < 6 ∧ p.2 % 3 = 1 := by
  refine ⟨by decide, ?_⟩
  obtain ⟨st1, s, reads, h1, _, h3, _, _, _, h7⟩ := c20_window_geometry rgbEnv smallImg
    zeroMem (by decide) (by decide) (by decide) 1 4 (by decide) (by decide) (by decide)
  exact ⟨st1, s, reads, h1, h3, h7⟩

/-! ## The sort scratch array -/

theorem winXmin_ge (e : Env) (x r : Int) (hb : 0 < e.img_bpp) (hx : 0 ≤ x) :
    x - r * e.img_bpp ≤ winXmin e x r := by
  have h := winXmin_nonneg e x r hb hx
  unfold winXmin at h ⊢
  split_ifs with h1
  · rw [if_pos h1] at h; omega
  · exact le_refl _

theorem winXmax_le_right (e : Env) (x r : Int) :
    winXmax e x r ≤ x + (r + 1) * e.img_bpp := by
  unfold winXmax
  split_ifs with h1
  · omega
  · exact le_refl _

/-- A window row has at most `2 r + 1` samples of the channel. -/
theorem windowCols_length_le (e : Env) (x r : Int) (hb : 0 < e.img_bpp) (hx : 0 ≤ x)
    (hr : 0 ≤ r) : ((windowCols e x r).length : Int) ≤ 2 * r + 1 := by
  have h1 := winXmin_ge e x r hb hx
  have h2 := winXmax_le_right e x r
  have e1 : (r + 1) * e.img_bpp = r * e.img_bpp + e.img_bpp := by ring
  have e2 : (2 * r + 1 + 1) * e.img_bpp = 2 * (r * e.img_bpp) + 2 * e.img_bpp := by ring
  have hlt : (winXmax e x r - winXmin e x r + e.img_bpp - 1) / e.img_bpp < 2 * r + 1 + 1 := by
    apply Int.ediv_lt_of_lt_mul hb
    omega
  unfold windowCols colsFrom
  rw [List.length_map, List.length_range]
  omega

theorem windowRows_length (y r : Int) : (windowRows y r).length = (2 * r + 1).toNat := by
  unfold windowRows
  rw [List.length_map, List.length_range]

theorem flatMap_map_length {α β γ : Type} (cols : List β) (g : α → β → γ) :
    ∀ l : List α, (l.flatMap fun a => cols.map (g a)).length = l.length * cols.length := by
  intro l
  induction l with
  | nil => simp
  | cons a l ih =>
    rw [List.flatMap_cons, List.length_append, ih, List.length_map, List.length_cons]
    ring

/-- The sort pointer never runs ahead of the number of samples visited. -/
theorem collectList_sort_length_le (e : Env) (a : Acc) (vals : List Nat) :
    (collectList e a vals).sort.length ≤ a.sort.length + vals.length := by
  rw [collectList_sort, List.length_append]
  exact Nat.add_le_add_left (List.length_filter_le _ _) _

/-- C25: for every image, every radius at least 1 and every mode (tile height at least
twice the radius), at every sample of every filtered row the collection returns; it
starts from the empty scratch array and visits the positions `collectReads` records, at
most `(2 r + 1)^2` of them for the current radius `r`, which is at most
`size * size = (2 * despeckle_radius + 1)^2`, the allocated size of the scratch array.
The write index at each visited sample (the number of values kept before it) and the
final count are therefore within the allocation. -/
theorem c25_sort_scratch (e : Env) (img : Int → Int → Nat) (m : Mem)
    (hb : 0 < e.img_bpp)
    (hR : 1 ≤ e.despeckle_radius) (hT : 2 * e.despeckle_radius ≤ e.tile_height)
    (y x : Int) (hint : interiorRow e y) (hx0 : 0 ≤ x) (hx1 : x < e.width) :
    ∃ st1 s reads a, stateAtSample e img m y x = some (st1, s) ∧
      collectReads e st1.row y st1.lasty x s.radius = some reads ∧
      collect e st1.row y st1.lasty x s = some a ∧
      a = collectList e ⟨[], 0, 0⟩ (reads.map fun p => s.src_rows p.1 p.2) ∧
      (reads.length : Int) ≤ (2 * s.radius + 1) * (2 * s.radius + 1) ∧
      (2 * s.radius + 1) * (2 * s.radius + 1) ≤ e.size * e.size ∧
      e.size * e.size = (2 * e.despeckle_radius + 1) * (2 * e.despeckle_radius + 1) ∧
      (∀ k, k < reads.length →
        ((collectList e ⟨[], 0, 0⟩
          ((reads.take k).map fun p => s.src_rows p.1 p.2)).sort.length : Int)
          < e.size * e.size) ∧
      (a.sort.length : Int) ≤ e.size * e.size := by
  have hm : e.max_row = 2 * e.tile_height := rfl
  obtain ⟨st1, s, hs, hrel, b1, b2, w1, w2⟩ :=
    stateAtSample_sim e img m hb hR hT y x hint hx0 (by omega)
  have hB : 0 ≤ st1.row + y - st1.lasty - s.radius + e.max_row := by
    have := (hrel.2.2 (y - s.radius) (by omega) (by omega)).1
    omega
  have hreads := collectReads_eq e st1.row y st1.lasty x s.radius hb hx0 (by omega)
    (by omega) hB
  have hlen : ((windowRows y s.radius).flatMap fun ty =>
      (windowCols e x s.radius).map fun tx => (curSlot e st1.row ty st1.lasty, tx)).length
      = (2 * s.radius + 1).toNat * (windowCols e x s.radius).length := by
    rw [flatMap_map_length, windowRows_length]
  have hcols := windowCols_length_le e x s.radius hb hx0 (by omega)
  have hcount : (((windowRows y s.radius).flatMap fun ty =>
      (windowCols e x s.radius).map fun tx => (curSlot e st1.row ty st1.lasty, tx)).length : Int)
      ≤ (2 * s.radius + 1) * (2 * s.radius + 1) := by
    rw [hlen]
    push_cast
    rw [Int.toNat_of_nonneg (by omega)]
    exact Int.mul_le_mul_of_nonneg_left hcols (by omega)
  have hsize : (2 * s.radius + 1) * (2 * s.radius + 1) ≤ e.size * e.size := by
    have : e.size = e.despeckle_radius * 2 + 1 := rfl
    rw [this]
    exact Int.mul_le_mul (by omega) (by omega) (by omega) (by omega)
  have hsz : e.size * e.size = (2 * e.despeckle_radius + 1) * (2 * e.despeckle_radius + 1) := by
    have : e.size = e.despeckle_radius * 2 + 1 := rfl
    rw [this]; ring
  refine ⟨st1, s, _, _, hs, hreads, ?_, rfl, hcount, hsize, hsz, ?_, ?_⟩
  · rw [collect_reads, hreads]; rfl
  · intro k hk
    have h1 := collectList_sort_length_le e ⟨[], 0, 0⟩
      ((List.take k ((windowRows y s.radius).flatMap fun ty =>
        (windowCols e x s.radius).map fun tx => (curSlot e st1.row ty st1.lasty, tx))).map
          fun p => s.src_rows p.1 p.2)
    rw [List.length_map, List.length_take] at h1
    simp only [List.length_nil, Nat.zero_add] at h1
    have h2 : (k : Int) < (2 * s.radius + 1) * (2 * s.radius + 1) := by
      have : (k : Int) < _ := Int.ofNat_lt.2 hk
      exact lt_of_lt_of_le this hcount
    have h3 : ((collectList e ⟨[], 0, 0⟩
        ((List.take k ((windowRows y s.radius).flatMap fun ty =>
          (windowCols e x s.radius).map fun tx => (curSlot e st1.row ty st1.lasty, tx))).map
            fun p => s.src_rows p.1 p.2)).sort.length : Int) ≤ k := by
      have := le_trans h1 (min_le_left _ _)
      exact Int.ofNat_le.2 this
    exact lt_of_le_of_lt h3 (lt_of_lt_of_le h2 hsize)
  · have h1 := collectList_sort_length_le e ⟨[], 0, 0⟩
      (((windowRows y s.radius).flatMap fun ty =>
        (windowCols e x s.radius).map fun tx => (curSlot e st1.row ty st1.lasty, tx)).map
          fun p => s.src_rows p.1 p.2)
    rw [List.length_map] at h1
    simp only [List.length_nil, Nat.zero_add] at h1
    exact le_trans (le_trans (Int.ofNat_le.2 h1) hcount) hsize

/-- Witness of C25: the centre sample of the 3 x 3 image visits at most nine samples. -/
theorem c25_sort_scratch_witness :
    (0 < smallEnv.img_bpp ∧ 1 ≤ smallEnv.despeckle_radius ∧
      2 * smallEnv.despeckle_radius ≤ smallEnv.tile_height ∧ interiorRow smallEnv 1 ∧
      (0 : Int) ≤ 1 ∧ 1 < smallEnv.width) ∧
    ∃ st1 s reads, stateAtSample smallEnv smallImg zeroMem 1 1 = some (st1, s) ∧
      collectReads smallEnv st1.row 1 st1.lasty 1 s.radius = some reads ∧
      (reads.length : Int) ≤ 9 := by
  refine ⟨by decide, ?_⟩
  obtain ⟨st1, s, reads, a, h1, h2, _, _, h5, h6, h7, _⟩ := c25_sort_scratch smallEnv smallImg
    zeroMem (by decide) (by decide) (by decide) 1 1 (by decide) (by decide) (by decide)
  refine ⟨st1, s, reads, h1, h2, ?_⟩
  have h8 : (2 * smallEnv.despeckle_radius + 1) * (2 * smallEnv.despeckle_radius + 1) = 9 := by
    decide
  rw [h8] at h7
  omega

/-! ## Row residency -/

theorem flatMap_congr_mem {α β : Type} (f g : α → List β) :
    ∀ l : List α, (∀ a ∈ l, f a = g a) → l.flatMap f = l.flatMap g := by
  intro l
  induction l with
  | nil => intro _; rfl
  | cons a l ih =>
    intro h
    rw [List.flatMap_cons, List.flatMap_cons, h a (List.mem_cons_self _ _),
      ih (fun b hb => h b (List.mem_cons_of_mem _ hb))]

/-- The state of a row after its block load: the slot of the row and of every resident
row is `(yy - sel_y1) % max_row`, and the slot of row `y` holds the source row. -/
theorem row_resident (e : Env) (img : Int → Int → Nat) (m : Mem)
    (hb : 0 < e.img_bpp) (hw : 0 ≤ e.width)
    (hR : 1 ≤ e.despeckle_radius) (hT : 2 * e.despeckle_radius ≤ e.tile_height)
    (y : Int) (hy1 : e.sel_y1 ≤ y) (hy2 : y < e.sel_y2) :
    ∃ st st1 r0, stateAtRow e img m y = some st ∧ loadBlock e img y st = some st1 ∧
      rowInit e y st1 = some r0 ∧ r0.src_rows = st1.src_rows ∧
      y < st1.lasty ∧ st1.lasty - e.max_row ≤ y ∧
      (interiorRow e y → st1.lasty - e.max_row ≤ y - e.despeckle_radius ∧
        y + e.despeckle_radius < st1.lasty) ∧
      (∀ ty, st1.lasty - e.max_row ≤ ty →
        0 ≤ st1.row + ty - st1.lasty + e.max_row ∧
        curSlot e st1.row ty st1.lasty = (ty - e.sel_y1) % e.max_row) ∧
      (∀ tx, 0 ≤ tx → tx < e.width →
        st1.src_rows ((y - e.sel_y1) % e.max_row) tx = img y tx ∧ r0.dst_row tx = img y tx) := by
  have hm : e.max_row = 2 * e.tile_height := rfl
  have hm0 : 0 < e.max_row := by omega
  obtain ⟨st, hs, hinv⟩ := stateAtRow_sim e img m hb hw hR hT y hy1 (le_of_lt hy2)
  obtain ⟨st1, r0, hl, hi, hrad, hrel, hbook, _, _, hwin⟩ :=
    rowInit_sim e img y st _ hR hT hy2 hinv
  obtain ⟨k1, k2, k3, k4, k5, _⟩ := id hbook
  have hlt : y < st1.lasty := by rcases k3 with h | h <;> omega
  have hlo : st1.lasty - e.max_row ≤ y := by omega
  have hslot : ∀ ty, st1.lasty - e.max_row ≤ ty →
      0 ≤ st1.row + ty - st1.lasty + e.max_row ∧
      curSlot e st1.row ty st1.lasty = (ty - e.sel_y1) % e.max_row :=
    fun ty h => slot_formula e st1.row st1.lasty ty hm0 k5 h
  have hsrc : r0.src_rows = st1.src_rows := by
    unfold rowInit at hi
    simp only at hi
    split_ifs at hi
    simp only [Option.some.injEq] at hi
    rw [← hi]
  refine ⟨st, st1, r0, hs, hl, hi, hsrc, hlt, hlo, ?_, hslot, ?_⟩
  · intro hint
    obtain ⟨a, b⟩ := hwin hint
    have := le_max_right e.sel_y1 (st1.lasty - e.max_row)
    exact ⟨by omega, by omega⟩
  · intro tx t1 t2
    obtain ⟨_, r2⟩ := hrel.2.2 y (max_le hy1 hlo) (by omega)
    have h1 := r2 tx t1 t2
    rw [(hslot y hlo).2, hsrc] at h1
    have h2 : (refRowInit e y (refStateAtRow e img m y)).src_rows y tx = img y tx := by
      show (refStateAtRow e img m y).cur y tx = img y tx
      exact refStateAtRow_cur e img m y y tx hy1 (le_refl _)
    have h3 : r0.dst_row tx = img y tx := by
      rw [hrel.1]
      unfold refRowInit
      simp only
      rw [if_pos ⟨t1, t2⟩]
      exact refStateAtRow_cur e img m y y tx hy1 (le_refl _)
    exact ⟨by rw [h1, h2], h3⟩

/-- C21: for every tile height at least twice the radius (radius at least 1), every
selection and every row `y` of it, the pass reaches the row, and after the block load the
slot copied into `dst_row` is `(y - sel_y1) % max_row` and holds image row `y`.  In an
interior row the rows `y - despeckle_radius .. y + despeckle_radius` are resident
throughout the row, each row `yy` in slot `(yy - sel_y1) % max_row`, these slots are
pairwise different, and at every sample the loop from `startrow` up to `endrow` visits,
in order, the `2 r + 1` slots of the rows `y - r, ..., y + r` for the current radius `r`,
which is `despeckle_radius` at byte offset 0 and, with the adaptive flag clear,
everywhere. -/
theorem c21_row_window (e : Env) (img : Int → Int → Nat) (m : Mem)
    (hb : 0 < e.img_bpp) (hw : 0 ≤ e.sel_width)
    (hR : 1 ≤ e.despeckle_radius) (hT : 2 * e.despeckle_radius ≤ e.tile_height)
    (y : Int) (hy1 : e.sel_y1 ≤ y) (hy2 : y < e.sel_y2) :
    ∃ st st1 r0, stateAtRow e img m y = some st ∧ loadBlock e img y st = some st1 ∧
      rowInit e y st1 = some r0 ∧
      curSlot e st1.row y st1.lasty = (y - e.sel_y1) % e.max_row ∧
      (∀ tx, 0 ≤ tx → tx < e.width →
        st1.src_rows ((y - e.sel_y1) % e.max_row) tx = img y tx ∧ r0.dst_row tx = img y tx) ∧
      (interiorRow e y →
        (∀ ty, y - e.despeckle_radius ≤ ty → ty ≤ y + e.despeckle_radius →
          curSlot e st1.row ty st1.lasty = (ty - e.sel_y1) % e.max_row ∧
          ∀ ty2, y - e.despeckle_radius ≤ ty2 → ty2 ≤ y + e.despeckle_radius →
            (ty - e.sel_y1) % e.max_row = (ty2 - e.sel_y1) % e.max_row → ty = ty2) ∧
        ∀ x, 0 ≤ x → x < e.width →
          ∃ s, stateAtSample e img m y x = some (st1, s) ∧
            1 ≤ s.radius ∧ s.radius ≤ e.despeckle_radius ∧
            (x = 0 ∨ e.adaptive = false → s.radius = e.despeckle_radius) ∧
            (windowRows y s.radius).length = (2 * s.radius + 1).toNat ∧
            (∀ ty, ty ∈ windowRows y s.radius ↔ (y - s.radius ≤ ty ∧ ty ≤ y + s.radius)) ∧
            collectReads e st1.row y st1.lasty x s.radius =
              some ((windowRows y s.radius).flatMap fun ty =>
                (windowCols e x s.radius).map fun tx => ((ty - e.sel_y1) % e.max_row, tx)) ∧
            (∀ ty, y - e.despeckle_radius ≤ ty → ty ≤ y + e.despeckle_radius →
              ∀ tx, 0 ≤ tx → tx < e.width →
                s.src_rows ((ty - e.sel_y1) % e.max_row) tx
                  = (refStateAtSample e img m y x).src_rows ty tx ∧
                (e.recursive = false ∨ y < ty ∨ (ty = y ∧ x ≤ tx) →
                  s.src_rows ((ty - e.sel_y1) % e.max_row) tx = img ty tx))) := by
  have hm : e.max_row = 2 * e.tile_height := rfl
  have hm0 : 0 < e.max_row := by omega
  have hwd : 0 ≤ e.width := mul_nonneg hw (le_of_lt hb)
  obtain ⟨st, st1, r0, hs, hl, hi, hsrc, hlt, hlo, hwin, hslot, hrow⟩ :=
    row_resident e img m hb hwd hR hT y hy1 hy2
  refine ⟨st, st1, r0, hs, hl, hi, (hslot y hlo).2, hrow, ?_⟩
  intro hint
  obtain ⟨w1, w2⟩ := hwin hint
  refine ⟨?_, ?_⟩
  · intro ty t1 t2
    refine ⟨(hslot ty (by omega)).2, ?_⟩
    intro ty2 u1 u2 heq
    rw [← (hslot ty (by omega)).2, ← (hslot ty2 (by omega)).2] at heq
    exact curSlot_inj e st1.row st1.lasty ty ty2 (hslot ty (by omega)).1
      (hslot ty2 (by omega)).1 (by omega) (by omega) heq
  · intro x hx0 hx1
    obtain ⟨st2, s, hss, hrel, b1, b2, _, _⟩ :=
      stateAtSample_sim e img m hb hR hT y x hint hx0 (by omega)
    have h21 : st2 = st1 := stateAtSample_fst e img m y x st st1 st2 s hs hl hss
    subst h21
    have hB : 0 ≤ st2.row + y - st2.lasty - s.radius + e.max_row := by
      have := (hslot (y - s.radius) (by omega)).1
      omega
    have hreads := collectReads_eq e st2.row y st2.lasty x s.radius hb hx0 (by omega)
      (by omega) hB
    have hconv : ((windowRows y s.radius).flatMap fun ty =>
        (windowCols e x s.radius).map fun tx => (curSlot e st2.row ty st2.lasty, tx))
        = (windowRows y s.radius).flatMap fun ty =>
          (windowCols e x s.radius).map fun tx => ((ty - e.sel_y1) % e.max_row, tx) := by
      apply flatMap_congr_mem
      intro ty hty
      obtain ⟨q1, q2⟩ := windowRows_mem y s.radius ty hty
      rw [(hslot ty (by omega)).2]
    refine ⟨s, hss, b1, b2, ?_, windowRows_length y s.radius, ?_, ?_, ?_⟩
    · intro hcase
      rcases hcase with h | h
      · subst h
        have h0 := stateAtSample_zero e img m y st st2 r0 hs hl hi
        rw [h0] at hss
        simp only [Option.some.injEq, Prod.mk.injEq] at hss
        rw [← hss.2]
        unfold rowInit at hi
        simp only at hi
        split_ifs at hi
        simp only [Option.some.injEq] at hi
        rw [← hi]
      · rw [hrel.2.1]
        exact refStateAtSample_radius_plain e img m y x h
    · intro ty
      exact windowRows_mem_iff y s.radius ty
    · rw [hreads, hconv]
    · intro ty t1 t2 tx t3 t4
      obtain ⟨_, r2⟩ := hrel.2.2 ty (by omega) (by omega)
      have h1 := r2 tx t3 t4
      rw [(hslot ty (by omega)).2] at h1
      refine ⟨h1, ?_⟩
      intro hcase
      rw [h1]
      rcases hcase with h | h | h
      · rw [refStateAtSample_src_plain e img m y x h]
      · exact refStateAtSample_src e img m y x ty tx (by omega) (Or.inl h)
      · exact refStateAtSample_src e img m y x ty tx (by omega) (Or.inr h)

/-- Witness of C21: row 1 of the 3 x 3 selection (tile height 64); the slot of row 1 is
slot 1 and holds the source row. -/
theorem c21_row_window_witness :
    (0 < smallEnv.img_bpp ∧ 0 ≤ smallEnv.sel_width ∧ 1 ≤ smallEnv.despeckle_radius ∧
      2 * smallEnv.despeckle_radius ≤ smallEnv.tile_height ∧
      smallEnv.sel_y1 ≤ 1 ∧ (1 : Int) < smallEnv.sel_y2) ∧
    ∃ st st1, stateAtRow smallEnv smallImg zeroMem 1 = some st ∧
      loadBlock smallEnv smallImg 1 st = some st1 ∧
      curSlot smallEnv st1.row 1 st1.lasty = 1 ∧ st1.src_rows 1 1 = 7 := by
  refine ⟨by decide, ?_⟩
  obtain ⟨st, st1, r0, h1, h2, _, h4, h5, _⟩ := c21_row_window smallEnv smallImg zeroMem
    (by decide) (by decide) (by decide) (by decide) 1 (by decide) (by decide)
  exact ⟨st, st1, h1, h2, h4, (h5 1 (by decide) (by decide)).1⟩

/-! ## Independence of the tile height and of the adaptive flag -/

/-- One reference sample does not depend on the tile height, and depends on the filter
type only through the recursive flag and, away from radius 1, the adaptive flag. -/
theorem refSample_congr (e : Env) (T ft : Int) (y x : Int) (s : RowSt)
    (hrec : Env.recursive { e with tile_height := T, filter_type := ft } = e.recursive)
    (hada : Env.adaptive { e with tile_height := T, filter_type := ft } = e.adaptive ∨
      e.despeckle_radius = 1)
    (h1 : 1 ≤ s.radius) (h2 : s.radius ≤ e.despeckle_radius) :
    refSample { e with tile_height := T, filter_type := ft } y x s = refSample e y x s := by
  have hc : refCollect { e with tile_height := T, filter_type := ft } s.src_rows y x s.radius
      = refCollect e s.src_rows y x s.radius := rfl
  have hs : ∀ a, refStore { e with tile_height := T, filter_type := ft } y x s a
      = refStore e y x s a := by
    intro a
    unfold refStore
    rw [hrec]
  have hr : ∀ h0 h255, adaptRadius { e with tile_height := T, filter_type := ft } h0 h255
      s.radius = adaptRadius e h0 h255 s.radius := by
    intro h0 h255
    rcases hada with h | h
    · unfold adaptRadius
      rw [h]
    · have b1 := adaptRadius_bounds { e with tile_height := T, filter_type := ft } h0 h255
        s.radius h1 h2
      have b2 := adaptRadius_bounds e h0 h255 s.radius h1 h2
      have e1 : Env.despeckle_radius { e with tile_height := T, filter_type := ft }
          = e.despeckle_radius := rfl
      rw [e1] at b1
      omega
  unfold refSample
  simp only
  rw [hc, hs, hr]

theorem refXLoop_congr (e : Env) (T ft : Int) (y : Int)
    (hrec : Env.recursive { e with tile_height := T, filter_type := ft } = e.recursive)
    (hada : Env.adaptive { e with tile_height := T, filter_type := ft } = e.adaptive ∨
      e.despeckle_radius = 1) :
    ∀ (k : Nat) (x : Int) (s : RowSt), 1 ≤ s.radius → s.radius ≤ e.despeckle_radius →
      refXLoop { e with tile_height := T, filter_type := ft } y k x s = refXLoop e y k x s := by
  intro k
  induction k with
  | zero => intro x s _ _; rfl
  | succ k ih =>
    intro x s h1 h2
    simp only [refXLoop]
    rw [refSample_congr e T ft y x s hrec hada h1 h2]
    have hb := adaptRadius_bounds e (refCollect e s.src_rows y x s.radius).hist0
      (refCollect e s.src_rows y x s.radius).hist255 s.radius h1 h2
    exact ih (x + 1) _ (by rw [refSample_radius]; exact hb.1)
      (by rw [refSample_radius]; exact hb.2)

theorem refRowStep_congr (e : Env) (T ft : Int) (y : Int) (st : RState)
    (hR : 1 ≤ e.despeckle_radius)
    (hrec : Env.recursive { e with tile_height := T, filter_type := ft } = e.recursive)
    (hada : Env.adaptive { e with tile_height := T, filter_type := ft } = e.adaptive ∨
      e.despeckle_radius = 1) :
    refRowStep { e with tile_height := T, filter_type := ft } y st = refRowStep e y st := by
  have hx : refXLoop { e with tile_height := T, filter_type := ft } y e.width.toNat 0
      (refRowInit e y st) = refXLoop e y e.width.toNat 0 (refRowInit e y st) :=
    refXLoop_congr e T ft y hrec hada _ 0 _ hR (le_refl _)
  have hstep : refRowStep { e with tile_height := T, filter_type := ft } y st =
      { cur := (if interiorRow e y then
            refXLoop { e with tile_height := T, filter_type := ft } y e.width.toNat 0
              (refRowInit e y st)
          else refRowInit e y st).src_rows,
        dst_row := (if interiorRow e y then
            refXLoop { e with tile_height := T, filter_type := ft } y e.width.toNat 0
              (refRowInit e y st)
          else refRowInit e y st).dst_row,
        shadow := fun yy x => if yy = y ∧ 0 ≤ x ∧ x < e.width then
            (if interiorRow e y then
              refXLoop { e with tile_height := T, filter_type := ft } y e.width.toNat 0
                (refRowInit e y st)
            else refRowInit e y st).dst_row x
          else st.shadow yy x,
        progress :=
          if y % 16 = 0 then
            st.progress ++ [doubleDiv (y - e.sel_y1) e.sel_height]
          else st.progress } := rfl
  rw [hstep, hx]
  rfl

theorem refYLoop_congr (e : Env) (T ft : Int) (hR : 1 ≤ e.despeckle_radius)
    (hrec : Env.recursive { e with tile_height := T, filter_type := ft } = e.recursive)
    (hada : Env.adaptive { e with tile_height := T, filter_type := ft } = e.adaptive ∨
      e.despeckle_radius = 1) :
    ∀ (k : Nat) (y : Int) (st : RState),
      refYLoop { e with tile_height := T, filter_type := ft } k y st = refYLoop e k y st := by
  intro k
  induction k with
  | zero => intro y st; rfl
  | succ k ih =>
    intro y st
    simp only [refYLoop]
    rw [refRowStep_congr e T ft y st hR hrec hada, ih]

/-- The reference pass does not depend on the tile height, and depends on the filter type
only through the recursive flag and, away from radius 1, the adaptive flag. -/
theorem refDespeckle_congr (e : Env) (T ft : Int) (img : Int → Int → Nat) (m : Mem)
    (hR : 1 ≤ e.despeckle_radius)
    (hrec : Env.recursive { e with tile_height := T, filter_type := ft } = e.recursive)
    (hada : Env.adaptive { e with tile_height := T, filter_type := ft } = e.adaptive ∨
      e.despeckle_radius = 1) :
    refDespeckle { e with tile_height := T, filter_type := ft } img m = refDespeckle e img m := by
  unfold refDespeckle
  exact refYLoop_congr e T ft hR hrec hada _ _ _

theorem tiny_tile_center :
    (despeckle tinyTileEnv smallImg zeroMem).map (fun st => st.shadow 1 1) = some 5 := by
  decide

/-- C22, counterexample: the 3 x 3 image with rows `0 0 10`, `10 7 10`, `0 0 10`, radius 1,
filtered with tile height 1 and with tile height 64.  Both passes return; with tile
height 1 the ring buffer has two slots, the window of row 1 visits the one slot that then
holds row 2, and the output at `(1, 1)` is `(0 + 10) / 2 = 5`; with tile height 64 it
is 8. -/
theorem c22_block_size_independence_counterexample :
    tinyTileEnv = { smallEnv with tile_height := 1 } ∧ 1 ≤ tinyTileEnv.tile_height ∧
    1 ≤ smallEnv.tile_height ∧
    ∃ st1 st2, despeckle tinyTileEnv smallImg zeroMem = some st1 ∧
      despeckle smallEnv smallImg zeroMem = some st2 ∧
      st1.shadow 1 1 = 5 ∧ st2.shadow 1 1 = 8 := by
  refine ⟨rfl, by decide, by decide, ?_⟩
  obtain ⟨st2, hd2, hp⟩ := despeckle_plain smallEnv smallImg zeroMem (by decide) (by decide)
    (by decide) (by decide) (by decide) rfl rfl
  have h := tiny_tile_center
  cases h1 : despeckle tinyTileEnv smallImg zeroMem with
  | none => rw [h1] at h; simp at h
  | some st1 =>
    rw [h1] at h
    simp only [Option.map_some', Option.some.injEq] at h
    refine ⟨st1, st2, rfl, hd2, h, ?_⟩
    rw [hp 1 1 (by decide) (by decide) (by decide) (by decide)]
    decide

/-- C22, as amended: for every image, every parameter set with radius at least 1 and every
two tile heights `T1` and `T2` that are both at least twice the radius, the passes of
`despeckle()` with tile height `T1` and with tile height `T2` both return and have
written the same output rows (and reported the same progress). -/
theorem c22_block_size_independence (e : Env) (img : Int → Int → Nat) (m : Mem) (T1 T2 : Int)
    (hb : 0 < e.img_bpp) (hw : 0 ≤ e.sel_width) (hH : 0 ≤ e.sel_height)
    (hR : 1 ≤ e.despeckle_radius)
    (h1 : 2 * e.despeckle_radius ≤ T1) (h2 : 2 * e.despeckle_radius ≤ T2) :
    ∃ st1 st2, despeckle { e with tile_height := T1 } img m = some st1 ∧
      despeckle { e with tile_height := T2 } img m = some st2 ∧
      st1.shadow = st2.shadow ∧ st1.progress = st2.progress := by
  obtain ⟨st1, hd1, hi1⟩ := despeckle_sim { e with tile_height := T1 } img m hb
    (mul_nonneg hw (le_of_lt hb)) hH hR h1
  obtain ⟨st2, hd2, hi2⟩ := despeckle_sim { e with tile_height := T2 } img m hb
    (mul_nonneg hw (le_of_lt hb)) hH hR h2
  have e1 : refDespeckle { e with tile_height := T1 } img m = refDespeckle e img m :=
    refDespeckle_congr e T1 e.filter_type img m hR rfl (Or.inl rfl)
  have e2 : refDespeckle { e with tile_height := T2 } img m = refDespeckle e img m :=
    refDespeckle_congr e T2 e.filter_type img m hR rfl (Or.inl rfl)
  refine ⟨st1, st2, hd1, hd2, ?_, ?_⟩
  · rw [hi1.2.2.1, hi2.2.2.1, e1, e2]
  · rw [hi1.2.2.2.1, hi2.2.2.2.1, e1, e2]

/-- Witness of C22 (amended): the 3 x 3 image at tile heights 2 and 64. -/
theorem c22_block_size_independence_witness :
    (0 < smallEnv.img_bpp ∧ 0 ≤ smallEnv.sel_width ∧ 0 ≤ smallEnv.sel_height ∧
      1 ≤ smallEnv.despeckle_radius ∧ 2 * smallEnv.despeckle_radius ≤ 2 ∧
      2 * smallEnv.despeckle_radius ≤ 64) ∧
    ∃ st1 st2, despeckle { smallEnv with tile_height := 2 } smallImg zeroMem = some st1 ∧
      despeckle { smallEnv with tile_height := 64 } smallImg zeroMem = some st2 ∧
      st1.shadow = st2.shadow ∧ st1.progress = st2.progress :=
  ⟨by decide, c22_block_size_independence smallEnv smallImg zeroMem 2 64 (by decide)
    (by decide) (by decide) (by decide) (by decide) (by decide)⟩

/-- C30: at `despeckle_radius = 1` and tile height at least 2, for every image and levels,
changing the filter type without changing the recursive flag (so setting or clearing the
adaptive flag) does not change what `despeckle()` writes: both passes return with the
same output rows. -/
theorem c30_adaptive_noop_radius_one (e : Env) (img : Int → Int → Nat) (m : Mem) (ft : Int)
    (hb : 0 < e.img_bpp) (hw : 0 ≤ e.sel_width) (hH : 0 ≤ e.sel_height)
    (hR : e.despeckle_radius = 1) (hT : 2 ≤ e.tile_height)
    (hrec : Env.recursive { e with filter_type := ft } = e.recursive) :
    ∃ st st2, despeckle e img m = some st ∧
      despeckle { e with filter_type := ft } img m = some st2 ∧
      st2.shadow = st.shadow ∧ st2.progress = st.progress := by
  obtain ⟨st, hd, hi⟩ := despeckle_sim e img m hb (mul_nonneg hw (le_of_lt hb)) hH
    (by omega) (by omega)
  obtain ⟨st2, hd2, hi2⟩ := despeckle_sim { e with filter_type := ft } img m hb
    (mul_nonneg hw (le_of_lt hb)) hH (by show 1 ≤ e.despeckle_radius; omega)
    (by show 2 * e.despeckle_radius ≤ e.tile_height; omega)
  have e1 : refDespeckle { e with filter_type := ft } img m = refDespeckle e img m :=
    refDespeckle_congr e e.tile_height ft img m (by omega) hrec (Or.inr hR)
  refine ⟨st, st2, hd, hd2, ?_, ?_⟩
  · rw [hi2.2.2.1, hi.2.2.1, e1]
  · rw [hi2.2.2.2.1, hi.2.2.2.1, e1]

/-- Witness of C30: the 3 x 3 image at radius 1 with the adaptive flag set
(`filter_type = 1`) and clear (`filter_type = 0`). -/
theorem c30_adaptive_noop_radius_one_witness :
    (0 < smallEnv.img_bpp ∧ 0 ≤ smallEnv.sel_width ∧ 0 ≤ smallEnv.sel_height ∧
      smallEnv.despeckle_radius = 1 ∧ 2 ≤ smallEnv.tile_height ∧
      Env.recursive { smallEnv with filter_type := 1 } = smallEnv.recursive ∧
      Env.adaptive { smallEnv with filter_type := 1 } = true ∧ smallEnv.adaptive = false) ∧
    ∃ st st2, despeckle smallEnv smallImg zeroMem = some st ∧
      despeckle { smallEnv with filter_type := 1 } smallImg zeroMem = some st2 ∧
      st2.shadow = st.shadow ∧ st2.progress = st.progress :=
  ⟨by decide, c30_adaptive_noop_radius_one smallEnv smallImg zeroMem 1 (by decide) (by decide)
    (by decide) (by decide) (by decide) (by decide)⟩

/-! ## Sort, median and output range -/

/-- C23: for every content of the scratch array the shell sort of `despeckle()` (the same
loops as in `preview_update()`) returns within its fuel, and what it returns is in
non-decreasing order and a permutation of the initial content: same length, same values
with the same multiplicities, so 8-bit values stay 8-bit values. -/
theorem c23_sort_correct (s : List Nat) :
    ∃ t, shellSort s = some t ∧ t.Sorted (fun a b => a ≤ b) ∧ t.Perm s ∧
      t.length = s.length ∧ (∀ v, v ∈ t ↔ v ∈ s) ∧
      ((∀ v ∈ s, v < 256) → ∀ v ∈ t, v < 256) :=
  ⟨sortedOf s, shellSort_eq s, List.sorted_insertionSort _ s, List.perm_insertionSort _ s,
    sortedOf_length s, fun _ => (List.perm_insertionSort _ s).mem_iff,
    fun h v hv => h v ((List.perm_insertionSort _ s).mem_iff.1 hv)⟩

/-- Witness of C23: the shell sort of `10 0 7 10 0` returns `0 0 7 10 10`. -/
theorem c23_sort_correct_witness : shellSort [10, 0, 7, 10, 0] = some [0, 0, 7, 10, 10] := by
  obtain ⟨t, h1, h2, h3, _⟩ := c23_sort_correct [10, 0, 7, 10, 0]
  rw [h1]
  congr 1
  exact List.eq_of_perm_of_sorted (h3.trans (by decide)) h2 (by decide)

/-- The median value lies between two of the collected values. -/
theorem medianOf_range (l : List Nat) (hl : 1 < l.length) (hb : ∀ v ∈ l, v < 256) :
    ∃ p ∈ l, ∃ q ∈ l, p ≤ medianOf (sortedOf l) ∧ medianOf (sortedOf l) ≤ q := by
  have hlen := sortedOf_length l
  have hperm : (sortedOf l).Perm l := List.perm_insertionSort _ l
  have hmem : ∀ k, k < l.length → entry (sortedOf l) k ∈ l := fun k hk =>
    hperm.mem_iff.1 (entry_mem _ k (by omega))
  unfold medianOf
  rw [hlen]
  by_cases hodd : l.length % 2 = 1
  · rw [if_pos hodd]
    have h1 := hmem (l.length / 2) (by omega)
    have h2 := hmem (l.length / 2 + 1) (by omega)
    have b1 := hb _ h1
    have b2 := hb _ h2
    rcases le_total (entry (sortedOf l) (l.length / 2))
        (entry (sortedOf l) (l.length / 2 + 1)) with h | h
    · exact ⟨_, h1, _, h2, by omega, by omega⟩
    · exact ⟨_, h2, _, h1, by omega, by omega⟩
  · rw [if_neg hodd]
    have h1 := hmem (l.length / 2) (by omega)
    exact ⟨_, h1, _, h1, le_refl _, le_refl _⟩

/-- C26: for every interior sample of an 8-bit image, in every mode (tile height at least
twice the radius), `despeckle()` returns and reaches the sample, the collection and the
shell sort return, and with `n > 1` values collected and `sort` the sorted scratch array
the output is the value of the median assignment: `sort[n/2]` when `n` is even and
`(sort[n/2] + sort[n/2 + 1]) / 2` when `n` is odd; in the odd case `n/2 + 1 < n`, so both
entries read are collected values. -/
theorem c26_median_as_implemented (e : Env) (img : Int → Int → Nat) (m : Mem)
    (hb : 1 ≤ e.img_bpp) (hR : 1 ≤ e.despeckle_radius)
    (hT : 2 * e.despeckle_radius ≤ e.tile_height) (hbyte : ∀ ty tx, img ty tx < 256)
    (y x : Int) (hint : interiorRow e y) (hx0 : 0 ≤ x) (hx1 : x < e.width) :
    ∃ st st1 s a sort, despeckle e img m = some st ∧
      stateAtSample e img m y x = some (st1, s) ∧
      collect e st1.row y st1.lasty x s = some a ∧
      shellSort a.sort = some sort ∧ sort.Sorted (fun p q => p ≤ q) ∧ sort.Perm a.sort ∧
      sort.length = a.sort.length ∧
      (1 < a.sort.length →
        medianValue sort = some (st.shadow y x) ∧
        (a.sort.length % 2 = 0 → a.sort.length / 2 < a.sort.length ∧
          sort[a.sort.length / 2]? = some (st.shadow y x)) ∧
        (a.sort.length % 2 = 1 → a.sort.length / 2 + 1 < a.sort.length ∧
          ∃ p q, sort[a.sort.length / 2]? = some p ∧ sort[a.sort.length / 2 + 1]? = some q ∧
            p ∈ a.sort ∧ q ∈ a.sort ∧ p ≤ q ∧ st.shadow y x = (p + q) / 2)) := by
  obtain ⟨st, st1, s, a, hd, hs, hc, ha, _, _, _, _, hsh⟩ :=
    sample_master e img m (by omega) hR hT y x hint hx0 hx1
  have hlen := sortedOf_length a.sort
  have hperm : (sortedOf a.sort).Perm a.sort := List.perm_insertionSort _ a.sort
  refine ⟨st, st1, s, a, sortedOf a.sort, hd, hs, hc, shellSort_eq a.sort,
    List.sorted_insertionSort _ a.sort, hperm, hlen, ?_⟩
  intro hn
  have hlt : ∀ p, entry (sortedOf a.sort) p < 256 := by
    intro p
    apply entry_lt
    intro v hv
    have h2 : v ∈ (refCollect e (refStateAtSample e img m y x).src_rows y x s.radius).sort := by
      rw [← ha]; exact hperm.mem_iff.1 hv
    exact refCollect_byte e _ y x _ (refStateAtSample_byte e img m y x hbyte) v h2
  have hval : st.shadow y x = medianOf (sortedOf a.sort) := by rw [hsh, if_pos hn]
  refine ⟨?_, ?_, ?_⟩
  · rw [hval]; exact medianValue_eq _ (by omega)
  · intro heven
    refine ⟨by omega, ?_⟩
    rw [hval]
    unfold medianOf
    rw [hlen, if_neg (by omega)]
    exact entry_eq _ _ (by omega)
  · intro hodd
    refine ⟨by omega, _, _, entry_eq _ _ (by omega), entry_eq _ _ (by omega),
      hperm.mem_iff.1 (entry_mem _ _ (by omega)), hperm.mem_iff.1 (entry_mem _ _ (by omega)),
      sortedOf_entry_le _ _ _ (by omega) (by omega), ?_⟩
    rw [hval]
    unfold medianOf
    rw [hlen, if_pos hodd]
    have h1 := hlt (a.sort.length / 2)
    have h2 := hlt (a.sort.length / 2 + 1)
    omega

/-- Witness of C26: the centre sample of the 3 x 3 image collects nine values and the
output is the value of the median assignment on the sorted scratch array. -/
theorem c26_median_as_implemented_witness :
    ((1 : Int) ≤ smallEnv.img_bpp ∧ 1 ≤ smallEnv.despeckle_radius ∧
      2 * smallEnv.despeckle_radius ≤ smallEnv.tile_height ∧
      (∀ ty tx, smallImg ty tx < 256) ∧
      interiorRow smallEnv 1 ∧ (0 : Int) ≤ 1 ∧ 1 < smallEnv.width) ∧
    ∃ st st1 s a sort, despeckle smallEnv smallImg zeroMem = some st ∧
      stateAtSample smallEnv smallImg zeroMem 1 1 = some (st1, s) ∧
      collect smallEnv st1.row 1 st1.lasty 1 s = some a ∧
      shellSort a.sort = some sort ∧
      (1 < a.sort.length → medianValue sort = some (st.shadow 1 1)) := by
  refine ⟨⟨by decide, by decide, by decide, smallImg_byte, by decide, by decide, by decide⟩, ?_⟩
  obtain ⟨st, st1, s, a, sort, h1, h2, h3, h4, _, _, _, h8⟩ :=
    c26_median_as_implemented smallEnv smallImg zeroMem (by decide) (by decide) (by decide)
      smallImg_byte 1 1 (by decide) (by decide) (by decide)
  exact ⟨st, st1, s, a, sort, h1, h2, h3, h4, fun hn => (h8 hn).1⟩

/-- C27: for every 8-bit image, parameter set and mode (tile height at least twice the
radius) and every sample of the selection, the pass returns and the output sample is at
most 255 and either equals the source sample at the same position or, with more than one
value collected in its window, lies between two collected values, hence between the least
and the greatest of them, and is strictly below the white level as every collected value
is. -/
theorem c27_output_range (e : Env) (img : Int → Int → Nat) (m : Mem)
    (hb : 1 ≤ e.img_bpp) (hw : 0 ≤ e.sel_width) (hR : 1 ≤ e.despeckle_radius)
    (hT : 2 * e.despeckle_radius ≤ e.tile_height) (hbyte : ∀ ty tx, img ty tx < 256)
    (y x : Int) (hy1 : e.sel_y1 ≤ y) (hy2 : y < e.sel_y2) (hx0 : 0 ≤ x) (hx1 : x < e.width) :
    ∃ st, despeckle e img m = some st ∧ st.shadow y x ≤ 255 ∧
      (st.shadow y x = img y x ∨
        (interiorRow e y ∧ ∃ st1 s a, stateAtSample e img m y x = some (st1, s) ∧
          collect e st1.row y st1.lasty x s = some a ∧ 1 < a.sort.length ∧
          (∀ v ∈ a.sort, (v : Int) < e.white_level) ∧
          (∃ lo ∈ a.sort, ∃ hi ∈ a.sort, lo ≤ st.shadow y x ∧ st.shadow y x ≤ hi) ∧
          (∀ L, (∀ v ∈ a.sort, L ≤ v) → L ≤ st.shadow y x) ∧
          (∀ U, (∀ v ∈ a.sort, v ≤ U) → st.shadow y x ≤ U) ∧
          (st.shadow y x : Int) < e.white_level)) := by
  by_cases hint : interiorRow e y
  · obtain ⟨st, st1, s, a, hd, hs, hc, ha, _, _, _, _, hsh⟩ :=
      sample_master e img m (by omega) hR hT y x hint hx0 hx1
    have hbytes : ∀ v ∈ a.sort, v < 256 := by
      intro v hv
      rw [ha] at hv
      exact refCollect_byte e _ y x _ (refStateAtSample_byte e img m y x hbyte) v hv
    have hwhite : ∀ v ∈ a.sort, (v : Int) < e.white_level := by
      intro v hv
      rw [ha, refCollect_sort] at hv
      simpa using (List.mem_filter.1 hv).2
    by_cases hn : 1 < a.sort.length
    · have hval : st.shadow y x = medianOf (sortedOf a.sort) := by rw [hsh, if_pos hn]
      obtain ⟨lo, hlo, hi, hhi, r1, r2⟩ := medianOf_range a.sort hn hbytes
      rw [← hval] at r1 r2
      have hhi2 := hbytes hi hhi
      have hhi3 := hwhite hi hhi
      refine ⟨st, hd, by omega, Or.inr ⟨hint, st1, s, a, hs, hc, hn, hwhite,
        ⟨lo, hlo, hi, hhi, r1, r2⟩, ?_, ?_, by omega⟩⟩
      · intro L hL; exact le_trans (hL lo hlo) r1
      · intro U hU; exact le_trans r2 (hU hi hhi)
    · have hval : st.shadow y x = img y x := by rw [hsh, if_neg hn]
      have := hbyte y x
      exact ⟨st, hd, by omega, Or.inl hval⟩
  · obtain ⟨st, hd, hbord⟩ := border_master e img m (by omega)
      (mul_nonneg hw (by omega)) (by show 0 ≤ e.sel_y2 - e.sel_y1; omega) hR hT
    have hval := hbord y x hy1 hy2 hint hx0 hx1
    have := hbyte y x
    exact ⟨st, hd, by omega, Or.inl hval⟩

/-- Witness of C27: the centre sample of the 3 x 3 image. -/
theorem c27_output_range_witness :
    ((1 : Int) ≤ smallEnv.img_bpp ∧ 0 ≤ smallEnv.sel_width ∧ 1 ≤ smallEnv.despeckle_radius ∧
      2 * smallEnv.despeckle_radius ≤ smallEnv.tile_height ∧
      (∀ ty tx, smallImg ty tx < 256) ∧
      smallEnv.sel_y1 ≤ 1 ∧ 1 < smallEnv.sel_y2 ∧ (0 : Int) ≤ 1 ∧ 1 < smallEnv.width) ∧
    ∃ st, despeckle smallEnv smallImg zeroMem = some st ∧ st.shadow 1 1 ≤ 255 := by
  refine ⟨⟨by decide, by decide, by decide, by decide, smallImg_byte, by decide, by decide,
    by decide, by decide⟩, ?_⟩
  obtain ⟨st, h1, h2, _⟩ := c27_output_range smallEnv smallImg zeroMem (by decide) (by decide)
    (by decide) (by decide) smallImg_byte 1 1 (by decide) (by decide) (by decide) (by decide)
  exact ⟨st, h1, h2⟩

/-! ## Properties of `preview_update()` -/

theorem flat_bound (W H k tx : Int) (hk0 : 0 ≤ k) (hk1 : k < H) (ht0 : 0 ≤ tx) (ht1 : tx < W) :
    0 ≤ W * k + tx ∧ W * k + tx < W * H := by
  have h1 : 0 ≤ W * k := mul_nonneg (by omega) hk0
  have h2 : W * (k + 1) ≤ W * H := Int.mul_le_mul_of_nonneg_left (by omega) (by omega)
  have e1 : W * (k + 1) = W * k + W := by ring
  omega

theorem flat_inj (W k k2 tx tx2 : Int) (ht0 : 0 ≤ tx) (ht1 : tx < W) (hu0 : 0 ≤ tx2)
    (hu1 : tx2 < W) (h : W * k + tx = W * k2 + tx2) : k = k2 ∧ tx = tx2 := by
  have hk : k = k2 := by
    rcases lt_trichotomy k k2 with hlt | heq | hgt
    · have h2 : W * (k + 1) ≤ W * k2 := Int.mul_le_mul_of_nonneg_left (by omega) (by omega)
      have e1 : W * (k + 1) = W * k + W := by ring
      omega
    · exact heq
    · have h2 : W * (k2 + 1) ≤ W * k := Int.mul_le_mul_of_nonneg_left (by omega) (by omega)
      have e1 : W * (k2 + 1) = W * k2 + W := by ring
      omega
  subst hk
  exact ⟨rfl, by omega⟩

/-- The column loop of the preview exits within its fuel, reads in bounds, and folds the
loop body over the window offsets of one row of the flat array. -/
theorem previewColLoop_eq (e : Env) (src : Int → Nat) (base xmax : Int) (hb : 0 < e.img_bpp)
    (hbase : ∀ tx, 0 ≤ tx → tx < e.preview_bytes →
      0 ≤ base + tx ∧ base + tx < e.preview_bytes * e.preview_height)
    (hx : xmax ≤ e.preview_bytes) :
    ∀ (fuel : Nat) (xmin : Int) (a : Acc), 0 ≤ xmin → (xmax - xmin).toNat + 1 ≤ fuel →
      previewColLoop e src base xmax fuel xmin a =
        some (collectList e a ((colsFrom e.img_bpp xmin xmax).map fun tx => src (base + tx))) := by
  intro fuel
  induction fuel with
  | zero => intro xmin a _ h; omega
  | succ f ih =>
    intro xmin a h0 hf
    by_cases hlt : xmin < xmax
    · rw [colsFrom_cons _ _ _ hb hlt]
      have hr : previewRead e src (base + xmin) = some (src (base + xmin)) := by
        unfold previewRead
        rw [if_pos (hbase xmin h0 (by omega))]
      simp only [previewColLoop, if_pos hlt, hr, Option.some_bind, List.map_cons,
        collectList_cons]
      exact ih (xmin + e.img_bpp) _ (by omega) (by omega)
    · rw [colsFrom_nil _ _ _ hb (by omega)]
      simp only [previewColLoop, if_neg hlt, List.map_nil]
      rfl

/-- The row loop of the preview visits `c` consecutive rows of the flat array, which hold
`c` consecutive image rows. -/
theorem previewRowLoop_eq (e : Env) (src : Int → Nat) (cur : Int → Int → Nat)
    (xmin xmax : Int) (hb : 0 < e.img_bpp) (hx0 : 0 ≤ xmin) (hx : xmax ≤ e.preview_bytes)
    (hrel : PreviewRel e src cur) :
    ∀ (c : Nat) (k0 : Int) (a : Acc), 0 ≤ k0 → k0 + c ≤ e.preview_height →
      previewRowLoop e src xmin xmax c (e.preview_bytes * k0) a =
        some (collectList e a
          (((List.range c).map fun j : Nat => (e.preview_y1 + k0) + (j : Int)).flatMap fun ty =>
            (colsFrom e.img_bpp xmin xmax).map fun tx => cur ty tx)) := by
  intro c
  induction c with
  | zero => intro k0 a _ _; simp [previewRowLoop, collectList]
  | succ c ih =>
    intro k0 a hk0 hk1
    have hcol := previewColLoop_eq e src (e.preview_bytes * k0) xmax hb
      (fun tx t0 t1 => flat_bound _ _ k0 tx hk0 (by push_cast at hk1; omega) t0 t1) hx
      ((xmax - xmin).toNat + 1) xmin a hx0 (le_refl _)
    have hmap : (colsFrom e.img_bpp xmin xmax).map (fun tx => src (e.preview_bytes * k0 + tx)) =
        (colsFrom e.img_bpp xmin xmax).map fun tx => cur (e.preview_y1 + k0) tx := by
      apply List.map_congr_left
      intro tx htx
      obtain ⟨h1, h2, _⟩ := colsFrom_mem e.img_bpp hb xmax _ xmin tx (le_refl _) htx
      exact hrel k0 tx hk0 (by push_cast at hk1; omega) (by omega) (by omega)
    have hnext : e.preview_bytes * k0 + e.preview_bytes = e.preview_bytes * (k0 + 1) := by ring
    have hy : e.preview_y1 + k0 + 1 = e.preview_y1 + (k0 + 1) := by ring
    rw [range_succ_flatMap, collectList_append]
    simp only [previewRowLoop, hcol, Option.some_bind]
    rw [hnext, hmap, hy]
    exact ih (k0 + 1) _ (by omega) (by push_cast at hk1; omega)

/-- With the rectangle in `preview_src`, the collection of the preview returns the
reference collection. -/
theorem previewCollect_eq (e : Env) (cur : Int → Int → Nat) (y x : Int) (ps : PRowSt)
    (hb : 0 < e.img_bpp) (hW : e.preview_bytes = e.width)
    (hx : 0 ≤ x) (hr : 0 ≤ ps.radius) (h0 : ps.radius ≤ y)
    (h1 : y + ps.radius < e.preview_height)
    (hrel : PreviewRel e ps.preview_src cur) :
    previewCollect e y x ps = some (refCollect e cur (e.preview_y1 + y) x ps.radius) := by
  have hxmax : (if x + (ps.radius + 1) * e.img_bpp > e.preview_bytes then e.preview_bytes
      else x + (ps.radius + 1) * e.img_bpp) = winXmax e x ps.radius := by
    unfold winXmax
    rw [hW]
  have hunf : previewCollect e y x ps =
      previewRowLoop e ps.preview_src (winXmin e x ps.radius)
        (if x + (ps.radius + 1) * e.img_bpp > e.preview_bytes then e.preview_bytes
          else x + (ps.radius + 1) * e.img_bpp)
        (2 * ps.radius + 1).toNat (e.preview_bytes * (y - ps.radius)) ⟨[], 0, 0⟩ := rfl
  rw [hunf, hxmax]
  have key := previewRowLoop_eq e ps.preview_src cur (winXmin e x ps.radius)
    (winXmax e x ps.radius) hb (winXmin_nonneg e x ps.radius hb hx)
    (by rw [hW]; exact winXmax_le e x ps.radius) hrel (2 * ps.radius + 1).toNat
    (y - ps.radius) ⟨[], 0, 0⟩ (by omega) (by omega)
  rw [key]
  have hy : e.preview_y1 + (y - ps.radius) = e.preview_y1 + y - ps.radius := by ring
  rw [hy]
  rfl

/-- One sample of the preview agrees with one reference sample. -/
theorem previewSample_sim (e : Env) (y x : Int) (ps : PRowSt) (s : RowSt)
    (hb : 0 < e.img_bpp) (hW : e.preview_bytes = e.width)
    (hx0 : 0 ≤ x) (hx1 : x < e.preview_bytes) (hr : 0 ≤ ps.radius) (h0 : ps.radius ≤ y)
    (h1 : y + ps.radius < e.preview_height)
    (hrel : PreviewRowRel e ps s) :
    ∃ ps2, previewSample e y x ps = some ps2 ∧
      PreviewRowRel e ps2 (refSample e (e.preview_y1 + y) x s) := by
  obtain ⟨hd, hrad, hsrc⟩ := hrel
  have hc := previewCollect_eq e s.src_rows y x ps hb hW hx0 hr h0 h1 hsrc
  have hidx : 0 ≤ y * e.preview_bytes + x ∧
      y * e.preview_bytes + x < e.preview_bytes * e.preview_height := by
    have := flat_bound e.preview_bytes e.preview_height y x (by omega) (by omega) hx0 hx1
    have e1 : y * e.preview_bytes = e.preview_bytes * y := by ring
    rw [e1]; exact this
  unfold previewSample refSample
  rw [hc]
  simp only [Option.some_bind]
  rw [← hrad]
  unfold previewStore refStore
  by_cases hn : (refCollect e s.src_rows (e.preview_y1 + y) x ps.radius).sort.length > 1
  · rw [if_pos hn, if_pos hn, shellSort_eq]
    simp only [Option.some_bind]
    rw [medianValue_eq _ (by rw [sortedOf_length]; exact hn)]
    simp only [Option.some_bind]
    by_cases hrec : e.recursive = true
    · rw [if_pos hrec, if_pos hrec, if_pos hidx]
      simp only [Option.some_bind]
      refine ⟨_, rfl, ?_, rfl, ?_⟩
      · intro tx t0 t1
        simp only
        rw [hd tx t0 t1]
      · intro k tx k0 k1 t0 t1
        simp only
        have e1 : y * e.preview_bytes = e.preview_bytes * y := by ring
        by_cases hp : k = y ∧ tx = x
        · obtain ⟨hk, ht⟩ := hp
          subst hk; subst ht
          simp [e1]
        · have hne : e.preview_bytes * k + tx ≠ y * e.preview_bytes + x := by
            intro heq
            rw [e1] at heq
            exact hp (flat_inj e.preview_bytes k y tx x t0 t1 hx0 hx1 heq)
          have hne2 : ¬ (e.preview_y1 + k = e.preview_y1 + y ∧ tx = x) := by
            rintro ⟨a, b⟩
            exact hp ⟨by omega, b⟩
          rw [if_neg hne, if_neg hne2]
          exact hsrc k tx k0 k1 t0 t1
    · rw [if_neg hrec, if_neg hrec]
      simp only [Option.some_bind]
      refine ⟨_, rfl, ?_, rfl, hsrc⟩
      intro tx t0 t1
      simp only
      rw [hd tx t0 t1]
  · rw [if_neg hn, if_neg hn]
    simp only [Option.some_bind]
    exact ⟨_, rfl, hd, rfl, hsrc⟩

/-- The loop over `x` of the preview agrees with the reference loop. -/
theorem previewXLoop_sim (e : Env) (y : Int) (hb : 0 < e.img_bpp)
    (hW : e.preview_bytes = e.width)
    (h0 : e.despeckle_radius ≤ y) (h1 : y + e.despeckle_radius < e.preview_height) :
    ∀ (k : Nat) (x : Int) (ps : PRowSt) (s : RowSt), 0 ≤ x → x + k ≤ e.preview_bytes →
      1 ≤ ps.radius → ps.radius ≤ e.despeckle_radius →
      PreviewRowRel e ps s →
      ∃ ps2, previewXLoop e y k x ps = some ps2 ∧
        PreviewRowRel e ps2 (refXLoop e (e.preview_y1 + y) k x s) := by
  intro k
  induction k with
  | zero => intro x ps s _ _ _ _ hrel; exact ⟨ps, rfl, hrel⟩
  | succ k ih =>
    intro x ps s hx hxk r1 r2 hrel
    obtain ⟨ps2, e2, rel2⟩ := previewSample_sim e y x ps s hb hW hx
      (by push_cast at hxk; omega) (by omega) (by omega) (by omega) hrel
    have hrad2 : ps2.radius = (refSample e (e.preview_y1 + y) x s).radius := rel2.2.1
    have hb2 : 1 ≤ ps2.radius ∧ ps2.radius ≤ e.despeckle_radius := by
      rw [hrad2]; unfold refSample; simp only
      exact adaptRadius_bounds e _ _ _ (by rw [← hrel.2.1]; exact r1)
        (by rw [← hrel.2.1]; exact r2)
    obtain ⟨ps3, e3, rel3⟩ := ih (x + 1) ps2 (refSample e (e.preview_y1 + y) x s) (by omega)
      (by push_cast at hxk; omega) hb2.1 hb2.2 rel2
    refine ⟨ps3, ?_, rel3⟩
    simp only [previewXLoop, e2, Option.some_bind, e3, refXLoop]

/-- One row of the preview agrees with one row of the reference semantics. -/
theorem previewRowStep_sim (e : Env) (y : Int) (st : PState) (rs : RState)
    (hb : 0 < e.img_bpp) (hW : e.preview_bytes = e.width)
    (hH : e.preview_height = e.sel_height) (hw0 : 0 ≤ e.width)
    (hR : 1 ≤ e.despeckle_radius)
    (hy0 : 0 ≤ y) (hy1 : y < e.preview_height)
    (hsrc : PreviewRel e st.preview_src rs.cur)
    (hrows : ∀ yy x, 0 ≤ yy → yy < y → 0 ≤ x → x < e.preview_bytes →
      st.rows yy x = rs.shadow (e.preview_y1 + yy) x) :
    ∃ st2, previewRowStep e y st = some st2 ∧
      PreviewRel e st2.preview_src (refRowStep e (e.preview_y1 + y) rs).cur ∧
      ∀ yy x, 0 ≤ yy → yy < y + 1 → 0 ≤ x → x < e.preview_bytes →
        st2.rows yy x = (refRowStep e (e.preview_y1 + y) rs).shadow (e.preview_y1 + yy) x := by
  have hinit : PreviewRowRel e
      ⟨st.preview_src,
        fun x => if 0 ≤ x ∧ x < e.preview_bytes then st.preview_src (y * e.preview_bytes + x)
          else st.preview_dst x,
        e.despeckle_radius⟩
      (refRowInit e (e.preview_y1 + y) rs) := by
    refine ⟨?_, rfl, hsrc⟩
    intro x t0 t1
    unfold refRowInit
    simp only
    rw [if_pos ⟨t0, t1⟩, if_pos ⟨t0, by omega⟩]
    have e1 : y * e.preview_bytes = e.preview_bytes * y := by ring
    rw [e1]
    exact hsrc y x hy0 hy1 t0 t1
  have hint : (y ≥ e.despeckle_radius ∧ y < e.preview_height - e.despeckle_radius) ↔
      interiorRow e (e.preview_y1 + y) := by
    unfold interiorRow
    have e1 : e.preview_y1 = e.sel_y1 := rfl
    have e2 : e.sel_height = e.sel_y2 - e.sel_y1 := rfl
    rw [e1]
    constructor
    · rintro ⟨a, b⟩; exact ⟨by omega, by omega⟩
    · rintro ⟨a, b⟩; exact ⟨by omega, by omega⟩
  have hcur : (refRowStep e (e.preview_y1 + y) rs).cur =
      (if interiorRow e (e.preview_y1 + y) then
        refXLoop e (e.preview_y1 + y) e.width.toNat 0 (refRowInit e (e.preview_y1 + y) rs)
        else refRowInit e (e.preview_y1 + y) rs).src_rows := rfl
  have hshadow : ∀ yy x, (refRowStep e (e.preview_y1 + y) rs).shadow yy x =
      if yy = e.preview_y1 + y ∧ 0 ≤ x ∧ x < e.width then
        (if interiorRow e (e.preview_y1 + y) then
          refXLoop e (e.preview_y1 + y) e.width.toNat 0 (refRowInit e (e.preview_y1 + y) rs)
          else refRowInit e (e.preview_y1 + y) rs).dst_row x
      else rs.shadow yy x := fun _ _ => rfl
  have key : ∃ r, (if y ≥ e.despeckle_radius ∧ y < e.preview_height - e.despeckle_radius then
        previewXLoop e y e.preview_bytes.toNat 0
          ⟨st.preview_src,
            fun x => if 0 ≤ x ∧ x < e.preview_bytes then
              st.preview_src (y * e.preview_bytes + x) else st.preview_dst x,
            e.despeckle_radius⟩
      else some ⟨st.preview_src,
            fun x => if 0 ≤ x ∧ x < e.preview_bytes then
              st.preview_src (y * e.preview_bytes + x) else st.preview_dst x,
            e.despeckle_radius⟩) = some r ∧
      PreviewRowRel e r
        (if interiorRow e (e.preview_y1 + y) then
          refXLoop e (e.preview_y1 + y) e.width.toNat 0 (refRowInit e (e.preview_y1 + y) rs)
          else refRowInit e (e.preview_y1 + y) rs) := by
    by_cases hc : y ≥ e.despeckle_radius ∧ y < e.preview_height - e.despeckle_radius
    · rw [if_pos hc, if_pos (hint.1 hc)]
      obtain ⟨r, hr, hrel⟩ := previewXLoop_sim e y hb hW (by omega) (by omega)
        e.preview_bytes.toNat 0 _ _ (le_refl _) (by omega) hR (le_refl _) hinit
      rw [hW] at hr hrel
      refine ⟨r, ?_, ?_⟩
      · rw [hW]; exact hr
      · exact hrel
    · rw [if_neg hc, if_neg (fun h => hc (hint.2 h))]
      exact ⟨_, rfl, hinit⟩
  obtain ⟨r, hr, hrel⟩ := key
  have hstep : previewRowStep e y st = some
      { preview_src := r.preview_src, preview_dst := r.preview_dst,
        rows := fun yy x =>
          if yy = y ∧ 0 ≤ x ∧ x < e.preview_bytes then r.preview_dst x else st.rows yy x } := by
    unfold previewRowStep
    simp only
    rw [hr]
    rfl
  refine ⟨_, hstep, ?_, ?_⟩
  · rw [hcur]; exact hrel.2.2
  · intro yy x q0 q1 t0 t1
    rw [hshadow]
    simp only
    by_cases hyy : yy = y
    · subst hyy
      rw [if_pos ⟨rfl, t0, t1⟩, if_pos ⟨rfl, t0, by omega⟩]
      exact hrel.1 x t0 t1
    · rw [if_neg (fun h => hyy h.1), if_neg (fun h => hyy (by omega))]
      exact hrows yy x q0 (by omega) t0 t1

theorem previewYLoop_sim (e : Env) (hb : 0 < e.img_bpp) (hW : e.preview_bytes = e.width)
    (hH : e.preview_height = e.sel_height) (hw0 : 0 ≤ e.width) (hR : 1 ≤ e.despeckle_radius) :
    ∀ (k : Nat) (y : Int) (st : PState) (rs : RState), 0 ≤ y → y + k ≤ e.preview_height →
      PreviewRel e st.preview_src rs.cur →
      (∀ yy x, 0 ≤ yy → yy < y → 0 ≤ x → x < e.preview_bytes →
        st.rows yy x = rs.shadow (e.preview_y1 + yy) x) →
      ∃ st2, previewYLoop e k y st = some st2 ∧
        ∀ yy x, 0 ≤ yy → yy < y + k → 0 ≤ x → x < e.preview_bytes →
          st2.rows yy x = (refYLoop e k (e.preview_y1 + y) rs).shadow (e.preview_y1 + yy) x := by
  intro k
  induction k with
  | zero =>
    intro y st rs _ _ _ hrows
    exact ⟨st, rfl, fun yy x a b c d => hrows yy x a (by simpa using b) c d⟩
  | succ k ih =>
    intro y st rs hy0 hyk hsrc hrows
    obtain ⟨st1, e1, s1, r1⟩ := previewRowStep_sim e y st rs hb hW hH hw0 hR hy0
      (by push_cast at hyk; omega) hsrc hrows
    obtain ⟨st2, e2, r2⟩ := ih (y + 1) st1 (refRowStep e (e.preview_y1 + y) rs) (by omega)
      (by push_cast at hyk; omega) s1 r1
    refine ⟨st2, ?_, ?_⟩
    · simp only [previewYLoop, e1, Option.some_bind, e2]
    · intro yy x a b c d
      have := r2 yy x a (by push_cast at b; omega) c d
      simp only [refYLoop]
      have hy : e.preview_y1 + y + 1 = e.preview_y1 + (y + 1) := by ring
      rw [hy]; exact this

/-- The preview returns and its rows are the rows of the reference pass over the
selection. -/
theorem preview_update_sim (e : Env) (img : Int → Int → Nat) (pm : PMem) (m : Mem)
    (hb : 0 < e.img_bpp) (hW : e.preview_bytes = e.width)
    (hH : e.preview_height = e.sel_height) (hw0 : 0 ≤ e.width) (hR : 1 ≤ e.despeckle_radius) :
    ∃ pst, preview_update e img pm = some pst ∧
      ∀ y x, 0 ≤ y → y < e.preview_height → 0 ≤ x → x < e.preview_bytes →
        pst.rows y x = (refDespeckle e img m).shadow (e.sel_y1 + y) x := by
  have hsrc : PreviewRel e
      (fun i => if 0 ≤ i ∧ i < e.preview_bytes * e.preview_height then
          img (e.preview_y1 + i / e.preview_bytes) (i % e.preview_bytes)
        else pm.preview_src i) img := by
    intro k tx k0 k1 t0 t1
    simp only
    rw [if_pos (flat_bound _ _ k tx k0 k1 t0 t1)]
    have h1 : (e.preview_bytes * k + tx) / e.preview_bytes = k := by
      rw [add_comm, Int.add_mul_ediv_left _ _ (by omega), Int.ediv_eq_zero_of_lt t0 t1]
      ring
    have h2 : (e.preview_bytes * k + tx) % e.preview_bytes = tx := by
      rw [add_comm, Int.add_mul_emod_self_left, Int.emod_eq_of_lt t0 t1]
    rw [h1, h2]
  by_cases hneg : e.preview_height < 0
  · have h0 : e.preview_height.toNat = 0 := by omega
    refine ⟨_, by unfold preview_update; rw [h0]; rfl, ?_⟩
    intro y x a b; omega
  · obtain ⟨pst, h1, h2⟩ := previewYLoop_sim e hb hW hH hw0 hR e.preview_height.toNat 0
      ⟨_, pm.preview_dst, pm.rows⟩ ⟨img, m.dst_row, m.shadow, []⟩ (le_refl _) (by omega) hsrc
      (by intro yy x a b; omega)
    refine ⟨pst, h1, ?_⟩
    intro y x a b c d
    have := h2 y x a (by omega) c d
    rw [this]
    unfold refDespeckle
    have e1 : e.preview_y1 = e.sel_y1 := rfl
    rw [hH, e1]
    simp

/-- C24: for every selection of at most `PREVIEW_SIZE = 128` rows and columns (so that
the preview rectangle is the selection), every positive number of bytes per pixel, every
parameter set with radius at least 1, any flags and levels, and tile height at least twice
the radius, `preview_update()` and `despeckle()` both return, and for every row `y` of the
rectangle the filtered row `preview_dst` the preview computes is the row `despeckle()`
writes for row `sel_y1 + y`. -/
theorem c24_preview_agrees (e : Env) (img : Int → Int → Nat) (pm : PMem) (m : Mem)
    (hb : 0 < e.img_bpp) (hw : 0 ≤ e.sel_width) (hsw : e.sel_width ≤ PREVIEW_SIZE)
    (hh : 0 ≤ e.sel_height) (hsh : e.sel_height ≤ PREVIEW_SIZE)
    (hR : 1 ≤ e.despeckle_radius) (hT : 2 * e.despeckle_radius ≤ e.tile_height) :
    ∃ pst st, preview_update e img pm = some pst ∧ despeckle e img m = some st ∧
      e.preview_width = e.sel_width ∧ e.preview_height = e.sel_height ∧
      ∀ y x, 0 ≤ y → y < e.preview_height → 0 ≤ x → x < e.preview_width * e.img_bpp →
        pst.rows y x = st.shadow (e.sel_y1 + y) x := by
  have hpw : e.preview_width = e.sel_width := min_eq_left hsw
  have hH : e.preview_height = e.sel_height := min_eq_left hsh
  have hW : e.preview_bytes = e.width := by
    unfold Env.preview_bytes Env.width
    rw [hpw]
  have hw0 : 0 ≤ e.width := mul_nonneg hw (le_of_lt hb)
  obtain ⟨st, hd, hinv⟩ := despeckle_sim e img m hb hw0 hh hR hT
  obtain ⟨pst, hp, hrows⟩ := preview_update_sim e img pm m hb hW hH hw0 hR
  refine ⟨pst, st, hp, hd, hpw, hH, ?_⟩
  intro y x a b c d
  rw [hinv.2.2.1]
  exact hrows y x a b c d

/-- Witness of C24: the 3 x 3 image with the recursive flag set. -/
theorem c24_preview_agrees_witness :
    (0 < recursiveEnv.img_bpp ∧ 0 ≤ recursiveEnv.sel_width ∧
      recursiveEnv.sel_width ≤ PREVIEW_SIZE ∧ 0 ≤ recursiveEnv.sel_height ∧
      recursiveEnv.sel_height ≤ PREVIEW_SIZE ∧ 1 ≤ recursiveEnv.despeckle_radius ∧
      2 * recursiveEnv.despeckle_radius ≤ recursiveEnv.tile_height) ∧
    ∃ pst st, preview_update recursiveEnv smallImg zeroPMem = some pst ∧
      despeckle recursiveEnv smallImg zeroMem = some st ∧
      pst.rows 1 1 = st.shadow 1 1 := by
  refine ⟨by decide, ?_⟩
  obtain ⟨pst, st, h1, h2, _, _, h5⟩ := c24_preview_agrees recursiveEnv smallImg zeroPMem
    zeroMem (by decide) (by decide) (by decide) (by decide) (by decide) (by decide) (by decide)
  exact ⟨pst, st, h1, h2, h5 1 1 (by decide) (by decide) (by decide) (by decide)⟩

/-! ## Block loads -/

/-- The initial load of `despeckle()` stays inside the row buffer. -/
theorem initState_load (e : Env) (img : Int → Int → Nat) (m : Mem)
    (hT : 1 ≤ e.tile_height) (hH : 1 ≤ e.sel_height) :
    ∃ st0, initState e img m = some st0 ∧
      st0.rowcount = min e.sel_height e.tile_height ∧ st0.row = st0.rowcount ∧
      st0.lasty = e.sel_y1 + st0.rowcount ∧
      st0.src_rows = (fun k x =>
        if 0 ≤ k ∧ k < 0 + st0.rowcount ∧ 0 ≤ x ∧ x < e.width then img (e.sel_y1 + (k - 0)) x
        else m.src_rows k x) ∧
      LoadOk e e.sel_y1 st0 := by
  have hm : e.max_row = 2 * e.tile_height := rfl
  have hh : e.sel_height = e.sel_y2 - e.sel_y1 := rfl
  have hrc : (if e.sel_height < e.tile_height then e.sel_height else e.tile_height)
      = min e.sel_height e.tile_height := by
    split_ifs with h
    · rw [min_eq_left (le_of_lt h)]
    · rw [min_eq_right (by omega)]
  have hmin1 : 1 ≤ min e.sel_height e.tile_height := le_min hH hT
  have hmin2 : min e.sel_height e.tile_height ≤ e.tile_height := min_le_right _ _
  have hmin3 : min e.sel_height e.tile_height ≤ e.sel_height := min_le_left _ _
  have hg : getRect e img m.src_rows 0 e.sel_y1 (min e.sel_height e.tile_height)
      = some (fun k x =>
        if 0 ≤ k ∧ k < 0 + min e.sel_height e.tile_height ∧ 0 ≤ x ∧ x < e.width then
          img (e.sel_y1 + (k - 0)) x
        else m.src_rows k x) := by
    unfold getRect
    rw [if_pos ⟨le_refl _, by omega⟩]
  unfold initState
  simp only
  rw [hrc, hg, Option.some_bind]
  refine ⟨_, rfl, rfl, rfl, rfl, rfl, ?_⟩
  refine ⟨?_, ?_, ?_, ?_⟩
  · show e.sel_y1 < e.sel_y1 + min e.sel_height e.tile_height; omega
  · show e.sel_y1 + min e.sel_height e.tile_height ≤ e.sel_y2; omega
  · show e.sel_y1 + min e.sel_height e.tile_height = e.sel_y2 ∨
      min e.sel_height e.tile_height = 0 ∨ min e.sel_height e.tile_height = e.tile_height
    rcases le_total e.sel_height e.tile_height with h | h
    · left; rw [min_eq_left h]; omega
    · right; right; exact min_eq_right h
  · intro _
    show e.sel_y1 ≤ e.sel_y1 + min e.sel_height e.tile_height; omega

/-- Every block load stays inside the row buffer and continues where the last one
ended. -/
theorem loadBlock_load (e : Env) (img : Int → Int → Nat) (y : Int) (st : DState)
    (hT : 1 ≤ e.tile_height) (hy2 : y < e.sel_y2) (hok : LoadOk e y st) :
    ∃ st1, loadBlock e img y st = some st1 ∧ LoadOk e (y + 1) st1 ∧
      (0 ≤ e.despeckle_radius → y < st1.lasty) ∧
      ((y + e.despeckle_radius ≥ st.lasty ∧ st.lasty < e.sel_y2) →
        1 ≤ min (e.sel_y2 - st.lasty) e.tile_height ∧
        min (e.sel_y2 - st.lasty) e.tile_height ≤ e.tile_height ∧
        (st.row = 0 ∨ st.row = e.tile_height) ∧
        st.row + min (e.sel_y2 - st.lasty) e.tile_height ≤ e.max_row ∧
        st1.lasty = st.lasty + min (e.sel_y2 - st.lasty) e.tile_height ∧
        st1.row = Int.tmod (st.row + min (e.sel_y2 - st.lasty) e.tile_height) e.max_row ∧
        st1.src_rows = (fun k x =>
          if st.row ≤ k ∧ k < st.row + min (e.sel_y2 - st.lasty) e.tile_height ∧
              0 ≤ x ∧ x < e.width then
            img (st.lasty + (k - st.row)) x
          else st.src_rows k x)) ∧
      (¬ (y + e.despeckle_radius ≥ st.lasty ∧ st.lasty < e.sel_y2) → st1 = st) := by
  have hm : e.max_row = 2 * e.tile_height := rfl
  obtain ⟨o1, o2, o3, o4⟩ := hok
  by_cases hc : y + e.despeckle_radius ≥ st.lasty ∧ st.lasty < e.sel_y2
  · have hi : (if e.sel_y2 - st.lasty > e.tile_height then e.tile_height
        else e.sel_y2 - st.lasty) = min (e.sel_y2 - st.lasty) e.tile_height := by
      split_ifs with h
      · rw [min_eq_right (by omega)]
      · rw [min_eq_left (by omega)]
    have hi1 : 1 ≤ min (e.sel_y2 - st.lasty) e.tile_height := le_min (by omega) hT
    have hi2 : min (e.sel_y2 - st.lasty) e.tile_height ≤ e.tile_height := min_le_right _ _
    have hi3 : min (e.sel_y2 - st.lasty) e.tile_height ≤ e.sel_y2 - st.lasty :=
      min_le_left _ _
    have hrow : st.row = 0 ∨ st.row = e.tile_height := by
      rcases o3 with h | h
      · omega
      · exact h
    have hfit : st.row + min (e.sel_y2 - st.lasty) e.tile_height ≤ e.max_row := by
      rcases hrow with h | h <;> omega
    have hg : getRect e img st.src_rows st.row st.lasty
        (min (e.sel_y2 - st.lasty) e.tile_height)
        = some (fun k x =>
          if st.row ≤ k ∧ k < st.row + min (e.sel_y2 - st.lasty) e.tile_height ∧
              0 ≤ x ∧ x < e.width then
            img (st.lasty + (k - st.row)) x
          else st.src_rows k x) := by
      unfold getRect
      rw [if_pos ⟨by rcases hrow with h | h <;> omega, hfit⟩]
    have hl : loadBlock e img y st = some
        { st with
          src_rows := (fun k x =>
            if st.row ≤ k ∧ k < st.row + min (e.sel_y2 - st.lasty) e.tile_height ∧
                0 ≤ x ∧ x < e.width then
              img (st.lasty + (k - st.row)) x
            else st.src_rows k x),
          rowcount := st.rowcount - e.tile_height + min (e.sel_y2 - st.lasty) e.tile_height,
          lasty := st.lasty + min (e.sel_y2 - st.lasty) e.tile_height,
          row := Int.tmod (st.row + min (e.sel_y2 - st.lasty) e.tile_height) e.max_row } := by
      unfold loadBlock
      rw [if_pos hc]
      simp only
      rw [hi, hg, Option.some_bind]
    refine ⟨_, hl, ⟨?_, ?_, ?_, ?_⟩, ?_, ?_, ?_⟩
    · show e.sel_y1 < st.lasty + min (e.sel_y2 - st.lasty) e.tile_height; omega
    · show st.lasty + min (e.sel_y2 - st.lasty) e.tile_height ≤ e.sel_y2; omega
    · show st.lasty + min (e.sel_y2 - st.lasty) e.tile_height = e.sel_y2 ∨
        Int.tmod (st.row + min (e.sel_y2 - st.lasty) e.tile_height) e.max_row = 0 ∨
        Int.tmod (st.row + min (e.sel_y2 - st.lasty) e.tile_height) e.max_row = e.tile_height
      rcases le_total (e.sel_y2 - st.lasty) e.tile_height with h | h
      · left; rw [min_eq_left h]; omega
      · right
        rw [min_eq_right h]
        rcases hrow with h0 | h0
        · right
          rw [h0, Int.tmod_eq_emod (by omega) (by omega), Int.emod_eq_of_lt (by omega) (by omega)]
          omega
        · left
          rw [h0, Int.tmod_eq_emod (by omega) (by omega), hm]
          have : e.tile_height + e.tile_height = 2 * e.tile_height := by ring
          rw [this, Int.emod_self]
    · intro h0
      show y + 1 ≤ st.lasty + min (e.sel_y2 - st.lasty) e.tile_height
      have := o4 h0
      omega
    · intro h0
      show y < st.lasty + min (e.sel_y2 - st.lasty) e.tile_height
      have := o4 h0
      omega
    · intro _
      exact ⟨hi1, hi2, hrow, hfit, rfl, rfl, rfl⟩
    · intro h; exact absurd hc h
  · have hl : loadBlock e img y st = some st := by
      unfold loadBlock
      rw [if_neg hc]
    have hlt : 0 ≤ e.despeckle_radius → y < st.lasty := by
      intro h0
      have := o4 h0
      by_contra hneg
      apply hc
      constructor
      · omega
      · omega
    refine ⟨st, hl, ⟨o1, o2, o3, ?_⟩, hlt, ?_, fun _ => rfl⟩
    · intro h0
      have := hlt h0
      omega
    · intro h; exact absurd h hc

/-- The rest of the loop body leaves the load bookkeeping alone. -/
theorem rowStep_load (e : Env) (img : Int → Int → Nat) (y : Int) (st st1 st2 : DState)
    (hl : loadBlock e img y st = some st1) (h : rowStep e img y st = some st2) :
    st2.lasty = st1.lasty ∧ st2.row = st1.row ∧ st2.rowcount = st1.rowcount := by
  unfold rowStep at h
  rw [hl, Option.some_bind] at h
  cases h2 : rowInit e y st1 with
  | none => rw [h2] at h; simp at h
  | some r0 =>
    rw [h2, Option.some_bind] at h
    cases h3 : (if y ≥ e.sel_y1 + r0.radius ∧ y < e.sel_y2 - r0.radius then
        xLoop e st1.row y st1.lasty e.width.toNat 0 r0 else some r0) with
    | none => rw [h3] at h; simp at h
    | some r =>
      rw [h3, Option.some_bind] at h
      simp only [Option.some.injEq] at h
      rw [← h]
      exact ⟨rfl, rfl, rfl⟩

theorem yLoop_load (e : Env) (img : Int → Int → Nat) (hT : 1 ≤ e.tile_height) :
    ∀ (k : Nat) (y : Int) (st st2 : DState), y + k ≤ e.sel_y2 → LoadOk e y st →
      yLoop e img k y st = some st2 → LoadOk e (y + k) st2 := by
  intro k
  induction k with
  | zero =>
    intro y st st2 _ hok h
    simp only [yLoop, Option.some.injEq] at h
    rw [← h]
    simpa using hok
  | succ k ih =>
    intro y st st2 hyk hok h
    simp only [yLoop] at h
    cases h1 : rowStep e img y st with
    | none => rw [h1] at h; simp at h
    | some st3 =>
      rw [h1, Option.some_bind] at h
      obtain ⟨st1, hl, hok1, _⟩ := loadBlock_load e img y st hT (by push_cast at hyk; omega) hok
      obtain ⟨a, b, _⟩ := rowStep_load e img y st st1 st3 hl h1
      have hok3 : LoadOk e (y + 1) st3 := by
        obtain ⟨p1, p2, p3, p4⟩ := hok1
        exact ⟨by rw [a]; exact p1, by rw [a]; exact p2, by rw [a, b]; exact p3,
          fun h0 => by rw [a]; exact p4 h0⟩
      have := ih (y + 1) st3 st2 (by push_cast at hyk; omega) hok3 h
      have e1 : y + ((k + 1 : Nat) : Int) = y + 1 + (k : Int) := by push_cast; ring
      rw [e1]; exact this

/-- The load bookkeeping holds at the head of every row the pass reaches. -/
theorem stateAtRow_load (e : Env) (img : Int → Int → Nat) (m : Mem)
    (hT : 1 ≤ e.tile_height) (hH : 1 ≤ e.sel_height) (y : Int) (st : DState)
    (hy : e.sel_y1 ≤ y) (hy2 : y ≤ e.sel_y2) (h : stateAtRow e img m y = some st) :
    LoadOk e y st := by
  obtain ⟨st0, h0, _, _, _, _, hok0⟩ := initState_load e img m hT hH
  unfold stateAtRow at h
  rw [h0, Option.some_bind] at h
  have := yLoop_load e img hT _ _ st0 st (by omega) hok0 h
  have e1 : e.sel_y1 + ((y - e.sel_y1).toNat : Int) = y := by omega
  rw [e1] at this
  exact this

/-- C28: for every tile height `T >= 1`, every selection of at least one row and every
radius, the initial load of `despeckle()` returns and writes `min (sel_height, T)` rows
from slot 0, and at the head of every row `y` the pass reaches the block load returns: it
loads nothing, or one block of `i = min (sel_y2 - lasty, T)` rows, `1 <= i <= T`, from
image row `lasty` on, into the slots from `row`, where `row` is 0 or `T` and
`row + i <= max_row = 2 T`; `lasty` then grows by `i`, so the loads take the image rows
in increasing order without gap or repeat.  The rest of the loop body moves neither
`row` nor `lasty`, so at most one block is loaded per row.  For a radius that is not
negative row `y` is loaded before it is processed and a pass that returns has loaded
every row of the selection. -/
theorem c28_block_loads (e : Env) (img : Int → Int → Nat) (m : Mem)
    (hT : 1 ≤ e.tile_height) (hH : 1 ≤ e.sel_height) :
    (∃ st0, initState e img m = some st0 ∧
      st0.rowcount = min e.sel_height e.tile_height ∧
      1 ≤ st0.rowcount ∧ st0.rowcount ≤ e.tile_height ∧ 0 + st0.rowcount ≤ e.max_row ∧
      st0.row = st0.rowcount ∧ st0.lasty = e.sel_y1 + st0.rowcount ∧
      st0.src_rows = (fun k x =>
        if 0 ≤ k ∧ k < 0 + st0.rowcount ∧ 0 ≤ x ∧ x < e.width then img (e.sel_y1 + (k - 0)) x
        else m.src_rows k x)) ∧
    (∀ y st, e.sel_y1 ≤ y → y < e.sel_y2 → stateAtRow e img m y = some st →
      e.sel_y1 < st.lasty ∧ st.lasty ≤ e.sel_y2 ∧
      ∃ st1, loadBlock e img y st = some st1 ∧
        (0 ≤ e.despeckle_radius → y < st1.lasty) ∧
        ((y + e.despeckle_radius ≥ st.lasty ∧ st.lasty < e.sel_y2) →
          1 ≤ min (e.sel_y2 - st.lasty) e.tile_height ∧
          min (e.sel_y2 - st.lasty) e.tile_height ≤ e.tile_height ∧
          (st.row = 0 ∨ st.row = e.tile_height) ∧
          st.row + min (e.sel_y2 - st.lasty) e.tile_height ≤ e.max_row ∧
          st1.lasty = st.lasty + min (e.sel_y2 - st.lasty) e.tile_height ∧
          st1.row = Int.tmod (st.row + min (e.sel_y2 - st.lasty) e.tile_height) e.max_row ∧
          st1.src_rows = (fun k x =>
            if st.row ≤ k ∧ k < st.row + min (e.sel_y2 - st.lasty) e.tile_height ∧
                0 ≤ x ∧ x < e.width then
              img (st.lasty + (k - st.row)) x
            else st.src_rows k x)) ∧
        (¬ (y + e.despeckle_radius ≥ st.lasty ∧ st.lasty < e.sel_y2) → st1 = st) ∧
        (∀ st2, rowStep e img y st = some st2 →
          st2.lasty = st1.lasty ∧ st2.row = st1.row)) ∧
    (0 ≤ e.despeckle_radius → ∀ st, despeckle e img m = some st → st.lasty = e.sel_y2) := by
  have hm : e.max_row = 2 * e.tile_height := rfl
  have hh : e.sel_height = e.sel_y2 - e.sel_y1 := rfl
  refine ⟨?_, ?_, ?_⟩
  · obtain ⟨st0, h0, h1, h2, h3, h4, _⟩ := initState_load e img m hT hH
    have hmin1 : 1 ≤ min e.sel_height e.tile_height := le_min hH hT
    have hmin2 : min e.sel_height e.tile_height ≤ e.tile_height := min_le_right _ _
    exact ⟨st0, h0, h1, by omega, by omega, by omega, h2, h3, h4⟩
  · intro y st hy1 hy2 hs
    have hok := stateAtRow_load e img m hT hH y st hy1 (le_of_lt hy2) hs
    obtain ⟨st1, hl, _, k1, k2, k3⟩ := loadBlock_load e img y st hT hy2 hok
    refine ⟨hok.1, hok.2.1, st1, hl, k1, k2, k3, ?_⟩
    intro st2 h2
    obtain ⟨a, b, _⟩ := rowStep_load e img y st st1 st2 hl h2
    exact ⟨a, b⟩
  · intro h0 st hd
    rw [despeckle_eq_stateAtRow] at hd
    have hok := stateAtRow_load e img m hT hH e.sel_y2 st (by omega) (le_refl _) hd
    have := hok.2.2.2 h0
    have := hok.2.1
    omega

/-- Witness of C28: the 3 x 3 selection on a host with tile height 1; the initial load
writes one row into slot 0. -/
theorem c28_block_loads_witness :
    (1 ≤ tinyTileEnv.tile_height ∧ 1 ≤ tinyTileEnv.sel_height) ∧
    ∃ st0, initState tinyTileEnv smallImg zeroMem = some st0 ∧ st0.rowcount = 1 ∧
      st0.row = 1 ∧ st0.lasty = 1 :=
  ⟨by decide,
    (c28_block_loads tinyTileEnv smallImg zeroMem (by decide) (by decide)).1.imp
      fun _ h => ⟨h.1, h.2.1, by rw [h.2.2.2.2.2.1, h.2.1]; rfl,
        by rw [h.2.2.2.2.2.2.1, h.2.1]; rfl⟩⟩

/-! ## Fully clipped images -/

/-- On a fully clipped image no window sample enters the sort array. -/
theorem refCollect_clipped (e : Env) (cur : Int → Int → Nat) (y x r : Int)
    (hb : 0 < e.img_bpp) (hx : 0 ≤ x) (hr : r ≤ e.despeckle_radius)
    (hint : interiorRow e y) (hC : FullyClipped e cur) :
    (refCollect e cur y x r).sort = [] := by
  obtain ⟨i1, i2⟩ := id hint
  rw [refCollect_sort, List.filter_eq_nil_iff]
  intro v hv
  obtain ⟨ty, tx, h1, h2, h3⟩ := windowVals_mem e cur y x r v hv
  obtain ⟨r1, r2⟩ := windowRows_mem y r ty h1
  obtain ⟨c1, c2, _⟩ := windowCols_mem e x r tx hb hx h2
  have := hC ty tx (by omega) (by omega) c1 c2
  rw [h3]
  simp only [decide_eq_true_eq, not_lt]
  exact this

/-- On a fully clipped image one reference sample changes only the radius. -/
theorem refSample_clipped (e : Env) (y x : Int) (s : RowSt)
    (hb : 0 < e.img_bpp) (hx : 0 ≤ x) (hr : s.radius ≤ e.despeckle_radius)
    (hint : interiorRow e y) (hC : FullyClipped e s.src_rows) :
    (refSample e y x s).src_rows = s.src_rows ∧ (refSample e y x s).dst_row = s.dst_row := by
  have h := refCollect_clipped e s.src_rows y x s.radius hb hx hr hint hC
  unfold refSample refStore
  simp only
  rw [h]
  simp

theorem refXLoop_clipped (e : Env) (y : Int) (hb : 0 < e.img_bpp) (hint : interiorRow e y) :
    ∀ (k : Nat) (x : Int) (s : RowSt), 0 ≤ x → 1 ≤ s.radius →
      s.radius ≤ e.despeckle_radius → FullyClipped e s.src_rows →
      (refXLoop e y k x s).src_rows = s.src_rows ∧ (refXLoop e y k x s).dst_row = s.dst_row := by
  intro k
  induction k with
  | zero => intro x s _ _ _ _; exact ⟨rfl, rfl⟩
  | succ k ih =>
    intro x s hx h1 h2 hC
    obtain ⟨a, b⟩ := refSample_clipped e y x s hb hx h2 hint hC
    have hb2 := adaptRadius_bounds e (refCollect e s.src_rows y x s.radius).hist0
      (refCollect e s.src_rows y x s.radius).hist255 s.radius h1 h2
    simp only [refXLoop]
    obtain ⟨c, d⟩ := ih (x + 1) (refSample e y x s) (by omega)
      (by rw [refSample_radius]; exact hb2.1) (by rw [refSample_radius]; exact hb2.2)
      (by rw [a]; exact hC)
    exact ⟨by rw [c, a], by rw [d, b]⟩

theorem refRowStep_clipped (e : Env) (y : Int) (st : RState) (hb : 0 < e.img_bpp)
    (hR : 1 ≤ e.despeckle_radius) (hC : FullyClipped e st.cur) :
    (refRowStep e y st).cur = st.cur := by
  have hc : (refRowStep e y st).cur =
      (if interiorRow e y then refXLoop e y e.width.toNat 0 (refRowInit e y st)
        else refRowInit e y st).src_rows := rfl
  rw [hc]
  split_ifs with hint
  · exact (refXLoop_clipped e y hb hint _ 0 _ (le_refl _) hR (le_refl _) hC).1
  · rfl

theorem refYLoop_clipped (e : Env) (hb : 0 < e.img_bpp) (hR : 1 ≤ e.despeckle_radius) :
    ∀ (k : Nat) (y : Int) (st : RState), FullyClipped e st.cur →
      (refYLoop e k y st).cur = st.cur := by
  intro k
  induction k with
  | zero => intro y st _; rfl
  | succ k ih =>
    intro y st hC
    have h := refRowStep_clipped e y st hb hR hC
    simp only [refYLoop]
    rw [ih (y + 1) _ (by rw [h]; exact hC), h]

/-- On a fully clipped image the current image of the reference semantics stays the
source image. -/
theorem refStateAtSample_clipped (e : Env) (img : Int → Int → Nat) (m : Mem) (y x : Int)
    (hb : 0 < e.img_bpp) (hR : 1 ≤ e.despeckle_radius) (hint : interiorRow e y)
    (hC : FullyClipped e img) :
    (refStateAtSample e img m y x).src_rows = img := by
  have hrow : (refStateAtRow e img m y).cur = img := by
    unfold refStateAtRow
    exact refYLoop_clipped e hb hR _ _ _ hC
  unfold refStateAtSample
  rw [(refXLoop_clipped e y hb hint _ 0 _ (le_refl _) hR (le_refl _)
    (by show FullyClipped e (refStateAtRow e img m y).cur; rw [hrow]; exact hC)).1]
  exact hrow

/-- C29: for every image whose samples in the selection are all at or above the white
level, every radius at least 1, black level, flag combination and tile height at least
twice the radius, `despeckle()` returns and its output equals the input at every sample of
the selection; at every sample of every filtered row the collection returns with an empty
sort array. -/
theorem c29_fully_clipped_fixed_point (e : Env) (img : Int → Int → Nat) (m : Mem)
    (hb : 0 < e.img_bpp) (hw : 0 ≤ e.sel_width) (hH : 0 ≤ e.sel_height)
    (hR : 1 ≤ e.despeckle_radius) (hT : 2 * e.despeckle_radius ≤ e.tile_height)
    (hC : FullyClipped e img) :
    ∃ st, despeckle e img m = some st ∧
      (∀ y x, e.sel_y1 ≤ y → y < e.sel_y2 → 0 ≤ x → x < e.width → st.shadow y x = img y x) ∧
      ∀ y x, interiorRow e y → 0 ≤ x → x < e.width →
        ∃ st1 s a, stateAtSample e img m y x = some (st1, s) ∧
          collect e st1.row y st1.lasty x s = some a ∧ a.sort = [] := by
  have hwd : 0 ≤ e.width := mul_nonneg hw (le_of_lt hb)
  obtain ⟨st, hd, hbord⟩ := border_master e img m hb hwd hH hR hT
  have hsample : ∀ y x, interiorRow e y → 0 ≤ x → x < e.width →
      ∃ st1 s a, stateAtSample e img m y x = some (st1, s) ∧
        collect e st1.row y st1.lasty x s = some a ∧ a.sort = [] ∧
        st.shadow y x = img y x := by
    intro y x hint hx0 hx1
    obtain ⟨st2, st1, s, a, hd2, hs, hc, ha, _, b1, b2, _, hsh⟩ :=
      sample_master e img m hb hR hT y x hint hx0 hx1
    have hst : st2 = st := by
      rw [hd] at hd2; exact (Option.some.inj hd2).symm
    subst hst
    have hnil : a.sort = [] := by
      rw [ha, refStateAtSample_clipped e img m y x hb hR hint hC]
      exact refCollect_clipped e img y x s.radius hb hx0 b2 hint hC
    refine ⟨st1, s, a, hs, hc, hnil, ?_⟩
    rw [hsh, hnil]
    simp
  refine ⟨st, hd, ?_, ?_⟩
  · intro y x h1 h2 h3 h4
    by_cases hint : interiorRow e y
    · obtain ⟨_, _, _, _, _, _, h⟩ := hsample y x hint h3 h4
      exact h
    · exact hbord y x h1 h2 hint h3 h4
  · intro y x hint h3 h4
    obtain ⟨st1, s, a, k1, k2, k3, _⟩ := hsample y x hint h3 h4
    exact ⟨st1, s, a, k1, k2, k3⟩

/-- Witness of C29: the 3 x 3 image filtered with white level 0, adaptive and recursive
flags set; every output sample is the source sample. -/
theorem c29_fully_clipped_fixed_point_witness :
    (0 < whiteZeroEnv.img_bpp ∧ 0 ≤ whiteZeroEnv.sel_width ∧ 0 ≤ whiteZeroEnv.sel_height ∧
      1 ≤ whiteZeroEnv.despeckle_radius ∧
      2 * whiteZeroEnv.despeckle_radius ≤ whiteZeroEnv.tile_height) ∧
    FullyClipped whiteZeroEnv smallImg ∧
    ∃ st, despeckle whiteZeroEnv smallImg zeroMem = some st ∧ st.shadow 1 1 = 7 ∧
      st.shadow 1 0 = 10 := by
  have hC : FullyClipped whiteZeroEnv smallImg := by
    intro ty tx _ _ _ _
    show (0 : Int) ≤ (smallImg ty tx : Int)
    exact Int.ofNat_nonneg _
  refine ⟨by decide, hC, ?_⟩
  obtain ⟨st, h1, h2, _⟩ := c29_fully_clipped_fixed_point whiteZeroEnv smallImg zeroMem
    (by decide) (by decide) (by decide) (by decide) (by decide) hC
  exact ⟨st, h1, h2 1 1 (by decide) (by decide) (by decide) (by decide),
    h2 1 0 (by decide) (by decide) (by decide) (by decide)⟩

end Despeckle
